import Mathlib

/-!
# Verification of the LLM test-generation scripts

Shallow embedding of the Python sources `3-generate-llm-test/generate_tests.py`
and `4-auto-test-generator/springboot_test_generator.py`.

Modelling conventions:
* Python strings are `List Char` (`Text`). String methods (`in`, `find`,
  `replace`, `splitlines`, slicing) are modelled by executable functions with
  Python's exact semantics (including negative `find` results and the
  clamping behaviour of `str.find(sub, start)` for negative starts).
* Each regular expression used by the scripts is hand-compiled to a
  deterministic matcher; all the patterns involved are deterministic
  (backtracking never changes the outcome), which is argued pattern by
  pattern in the comments.
* Python floats are modelled by exact rationals: numeric literals are finite
  decimals, and all arithmetic performed on them by the scripts
  (`* 0.9`, sums, comparisons) stays inside the finite decimals, where IEEE
  doubles and rationals agree on every value exercised by the theorems below.
  `f"{v}"` is modelled by the exact shortest decimal form with a forced
  `.0` for integral values, and `f"{v:.0f}"` by round-half-even to an integer.
-/

set_option maxRecDepth 10000

namespace MsLlm

/-- Python strings are modelled as lists of characters. -/
abbrev Text := List Char

/-- Coerce a Lean string literal to the model type. -/
def txt (s : String) : Text := s.toList

/-- Python `\w` (ASCII fragment): letters, digits and underscore. -/
def wordChar (c : Char) : Bool :=
  (('a' ≤ c && c ≤ 'z') || ('A' ≤ c && c ≤ 'Z') || ('0' ≤ c && c ≤ '9') || c == '_')

/-- Decimal digit. -/
def digitChar (c : Char) : Bool := ('0' ≤ c && c ≤ '9')

/-- Python `\s`: space, tab and the ASCII vertical whitespace characters. -/
def spaceChar (c : Char) : Bool :=
  (c == ' ' || c == '\t' || c == '\n' || c == '\x0d' || c == '\x0b' || c == '\x0c')

/-- ASCII uppercase letter (`[A-Z]`). -/
def upperChar (c : Char) : Bool := ('A' ≤ c && c ≤ 'Z')

/-- Characters banned by the lookarounds of `clamp_any_literal`'s pattern
`(?<![\w.])\d+(?:\.\d+)?(?![\w.])`: word characters and the dot. -/
def wordDot (c : Char) : Bool := wordChar c || c == '.'

/-- Python `sub in s` (substring containment). -/
def containsSub (s sub : Text) : Bool :=
  (List.range (s.length + 1)).any (fun i => sub.isPrefixOf (s.drop i))

/-- Python `s.find(sub, start)` for a natural start index: smallest `i ≥ start`
with `sub` occurring at `i`, else `-1`. -/
def findSubFrom (s sub : Text) (start : Nat) : Int :=
  match (List.range (s.length + 1)).find? (fun i => start ≤ i && sub.isPrefixOf (s.drop i)) with
  | some i => (i : Int)
  | none => -1

/-- Python `s.find(sub, start)` with Python's conversion of a negative start
index (`start + len(s)`, clamped at zero). -/
def pyFindFrom (s sub : Text) (start : Int) : Int :=
  findSubFrom s sub (if start < 0 then (start + s.length).toNat else start.toNat)

/-- Python `s.find(sub)`. -/
def pyFind (s sub : Text) : Int := findSubFrom s sub 0

/-- Python `s[:i] + ins + s[i:]` for a nonnegative index. -/
def pyInsertAt (s : Text) (i : Nat) (ins : Text) : Text :=
  s.take i ++ ins ++ s.drop i

/-- The import-insertion idiom shared by `adapt_bigdecimal`, `add_status_calls`
and the `ResponseEntity` patch:
`idx = code.find(";", code.find("package")) + 1; code[:idx] + ins + code[idx:]`.
`code.find("package")` may be `-1`, in which case Python searches `";"` from
index `len(code) - 1`. -/
def insertAfterPackage (code ins : Text) : Text :=
  pyInsertAt code (pyFindFrom code (txt ";") (pyFind code (txt "package")) + 1).toNat ins

/-- Python `s.replace(old, new)`: non-overlapping replacement, left to right. -/
def pyReplaceF (old new : Text) : Nat → Text → Text
  | 0, s => s
  | _ + 1, [] => []
  | fuel + 1, c :: cs =>
    if old.isPrefixOf (c :: cs) then
      new ++ pyReplaceF old new fuel ((c :: cs).drop old.length)
    else
      c :: pyReplaceF old new fuel cs

/-- Python `s.replace(old, new)` for nonempty `old`. -/
def pyReplace (s old new : Text) : Text := pyReplaceF old new s.length s

/-- First-occurrence-preserving deduplication: `list(dict.fromkeys(xs))`. -/
def pyDedup (xs : List Text) : List Text :=
  (xs.foldl (fun acc x => if acc.contains x then acc else acc ++ [x]) [])

/-- Number of (possibly overlapping) occurrences of `sub` in `s`; used to state
"injected exactly once" properties. -/
def countOccurrences (s sub : Text) : Nat :=
  ((List.range (s.length + 1)).filter (fun i => sub.isPrefixOf (s.drop i))).length

/-- Python line-break characters recognised by `str.splitlines`. -/
def lineBreakChar (c : Char) : Bool :=
  (c == '\n' || c == '\x0d' || c == '\x0b' || c == '\x0c' ||
   c == '\x1c' || c == '\x1d' || c == '\x1e' || c == '\x85' ||
   c == '\u2028' || c == '\u2029')

/-- Worker for `pySplitlines`; `cur` is the current line accumulated in
reverse. -/
def splitlinesF : Nat → Text → Text → List Text
  | 0, cur, s => if cur.isEmpty && s.isEmpty then [] else [cur.reverse ++ s]
  | _ + 1, cur, [] => if cur.isEmpty then [] else [cur.reverse]
  | fuel + 1, cur, c :: cs =>
    if c == '\x0d' then
      match cs with
      | '\n' :: cs2 => cur.reverse :: splitlinesF fuel [] cs2
      | _ => cur.reverse :: splitlinesF fuel [] cs
    else if lineBreakChar c then
      cur.reverse :: splitlinesF fuel [] cs
    else
      splitlinesF fuel (c :: cur) cs

/-- Python `s.splitlines()`: splits at every line-break character, treating
`"\r\n"` as a single break, and drops a trailing break. -/
def pySplitlines (s : Text) : List Text := splitlinesF s.length [] s

/-- Python `"\n".join(lines)`. -/
def joinNl (lines : List Text) : Text :=
  match lines with
  | [] => []
  | l :: ls => l ++ (ls.flatMap (fun x => '\n' :: x))

/-! ## Numbers

Numeric literal values are exact rationals; see the module comment for the
float-modelling conventions. -/

/-- Value of a most-significant-first digit string. -/
def digitsVal (t : Text) : Nat := t.foldl (fun a c => 10 * a + (c.toNat - 48)) 0

/-- Fueled digit expansion (most significant first, empty for zero). -/
def natToTextF : Nat → Nat → Text
  | 0, _ => []
  | fuel + 1, n => if n = 0 then [] else natToTextF fuel (n / 10) ++ [Char.ofNat (48 + n % 10)]

/-- Decimal digits of a natural number (`"0"` for zero). -/
def natToText (n : Nat) : Text :=
  if n = 0 then ['0'] else natToTextF n n

/-- Decimal digits padded with leading zeros to length `len`. -/
def natToTextPad (len n : Nat) : Text :=
  List.replicate (len - (natToText n).length) '0' ++ natToText n

/-- Signed decimal digits. -/
def intToText (i : Int) : Text :=
  if i < 0 then '-' :: natToText i.natAbs else natToText i.toNat

/-- An exact scaled decimal: the value `num / 10 ^ exp`.  Python-float values
arising in these scripts (parsed decimal literals, `* 0.9`, sums) are finite
decimals, represented exactly; all operations below reduce to kernel-native
`Nat`/`Int` arithmetic. -/
structure Dec where
  num : Int
  exp : Nat
deriving Repr, DecidableEq

/-- The rational value of a `Dec` (for stating meaning only). -/
def Dec.toRat (d : Dec) : ℚ := (d.num : ℚ) / (10 : ℚ) ^ d.exp

/-- Value comparison `a ≤ b` (cross-multiplied). -/
def Dec.le (a b : Dec) : Bool := a.num * (10 : Int) ^ b.exp ≤ b.num * (10 : Int) ^ a.exp

/-- Value comparison `a < b`. -/
def Dec.lt (a b : Dec) : Bool := a.num * (10 : Int) ^ b.exp < b.num * (10 : Int) ^ a.exp

/-- Value equality. -/
def Dec.eqv (a b : Dec) : Bool := a.num * (10 : Int) ^ b.exp == b.num * (10 : Int) ^ a.exp

/-- Exact product. -/
def Dec.mul (a b : Dec) : Dec := ⟨a.num * b.num, a.exp + b.exp⟩

/-- Exact sum. -/
def Dec.add (a b : Dec) : Dec :=
  ⟨a.num * (10 : Int) ^ (max a.exp b.exp - a.exp) +
     b.num * (10 : Int) ^ (max a.exp b.exp - b.exp),
   max a.exp b.exp⟩

/-- `0.9`, the clamp factor `limit * 0.9` uses. -/
def decNine : Dec := ⟨9, 1⟩

/-- Drop trailing decimal zeros (canonical form; fueled on the exponent). -/
def decCanonF : Nat → Int → Nat → Dec
  | 0, n, e => ⟨n, e⟩
  | fuel + 1, n, e =>
    match e with
    | 0 => ⟨n, 0⟩
    | e' + 1 => if n % 10 == 0 then decCanonF fuel (n / 10) e' else ⟨n, e' + 1⟩

/-- Canonical form of a `Dec`. -/
def Dec.canon (d : Dec) : Dec := decCanonF d.exp d.num d.exp

/-- Value of `float(ipart + "." + fpart)` (resp. `float(ipart)`). -/
def litVal (ipart : Text) (fpart : Option Text) : Dec :=
  match fpart with
  | none => ⟨digitsVal ipart, 0⟩
  | some f => ⟨digitsVal ipart * (10 : Int) ^ f.length + digitsVal f, f.length⟩

/-- Decimal expansion of a nonnegative canonical `Dec`, with a forced `.0`
for integral values. -/
def fmtFloatCanonAbs (n : Nat) (e : Nat) : Text :=
  match e with
  | 0 => natToText n ++ txt ".0"
  | e' + 1 =>
    natToText (n / 10 ^ (e' + 1)) ++ '.' :: natToTextPad (e' + 1) (n % 10 ^ (e' + 1))

/-- Model of Python `f"{v}"` / `str(v)` for a float value that is a finite
decimal: the shortest decimal expansion, with a forced `.0` for integral
values (`str(900.0) = "900.0"`). -/
def fmtFloat (d : Dec) : Text :=
  let c := d.canon
  if c.num < 0 then '-' :: fmtFloatCanonAbs c.num.natAbs c.exp
  else fmtFloatCanonAbs c.num.toNat c.exp

/-- Model of Python `f"{v:.0f}"`'s rounding: round half to even. -/
def pyRound0 (d : Dec) : Int :=
  let p : Int := (10 : Int) ^ d.exp
  let f : Int := Int.fdiv d.num p
  let r : Int := d.num - f * p
  if 2 * r < p then f
  else if p < 2 * r then f + 1
  else if f % 2 == 0 then f else f + 1

/-! ## Scanner framework

`re.sub` / `re.finditer` / `re.search` are modelled by a single fueled
left-to-right scanner.  A `Step` inspects the character immediately before
the current position (`Option Char`, for lookbehinds) and the remaining text;
on a match it returns its payload (the replacement text, or captured data)
together with `n`, where the match consumed `n + 1` characters.  All matches
of the patterns in these scripts are nonempty, so consuming at least one
character is faithful.  After a match the scanner resumes right after the
consumed characters, with the lookbehind character taken from the original
text, exactly as `re` does. -/

/-- A matcher at one position. -/
abbrev Step (α : Type) := Option Char → Text → Option (α × Nat)

/-- Fueled worker for `re.sub`. -/
def substF (step : Step Text) : Nat → Option Char → Text → Text
  | 0, _, s => s
  | _ + 1, _, [] => []
  | fuel + 1, prev, c :: cs =>
    match step prev (c :: cs) with
    | some (repl, n) => repl ++ substF step fuel ((c :: cs).get? n) (cs.drop n)
    | none => c :: substF step fuel (some c) cs

/-- `re.sub(pattern, repl, s)` where `step` combines pattern and replacement. -/
def pySub (step : Step Text) (s : Text) : Text := substF step s.length none s

/-- Fueled worker for `re.finditer`. -/
def collectF {α : Type} (step : Step α) : Nat → Option Char → Text → List α
  | 0, _, _ => []
  | _ + 1, _, [] => []
  | fuel + 1, prev, c :: cs =>
    match step prev (c :: cs) with
    | some (a, n) => a :: collectF step fuel ((c :: cs).get? n) (cs.drop n)
    | none => collectF step fuel (some c) cs

/-- `re.finditer(pattern, s)`, returning the payloads of all matches. -/
def pyFindIter {α : Type} (step : Step α) (s : Text) : List α :=
  collectF step s.length none s

/-- `re.search(pattern, s)`, returning the payload of the first match. -/
def pySearch? {α : Type} (step : Step α) (s : Text) : Option α :=
  (pyFindIter step s).head?

/-- `re.search` for lookbehind-free patterns given as a prefix predicate. -/
def searchPat (matchAt : Text → Bool) (s : Text) : Bool :=
  (List.range (s.length + 1)).any (fun i => matchAt (s.drop i))

/-! ## Pattern combinators -/

/-- Consume a literal. -/
def dropPrefix? (w s : Text) : Option Text :=
  if w.isPrefixOf s then some (s.drop w.length) else none

/-- Greedy `p+`: the nonempty maximal run and the rest. -/
def span1 (p : Char → Bool) (s : Text) : Option (Text × Text) :=
  if (s.takeWhile p).isEmpty then none else some (s.takeWhile p, s.dropWhile p)

/-- Greedy `p*`: the maximal run and the rest. -/
def span0 (p : Char → Bool) (s : Text) : Text × Text :=
  (s.takeWhile p, s.dropWhile p)

/-- Greedy `\d+(?:\.\d+)?`: the numeric-literal group and the rest.
If a dot follows the integer digits but no digit follows the dot, the
optional fraction group cannot match and the parse falls back to the integer
part, exactly as the backtracking engine does.  When a caller additionally
requires a terminator after the literal, dropping a successfully matched
fraction can never help (the terminator would have to match the dot, and no
caller accepts a dot there), so returning only the greedy parse is faithful. -/
def numLit? (s : Text) : Option (Text × Text) :=
  match span1 digitChar s with
  | none => none
  | some (ip, r) =>
    match r with
    | '.' :: r2 =>
      match span1 digitChar r2 with
      | some (fp, r3) => some (ip ++ '.' :: fp, r3)
      | none => some (ip, r)
    | _ => some (ip, r)

/-- Rational value of a matched numeric literal (`float(lit)`). -/
def litValText (lit : Text) : Dec :=
  match span0 digitChar lit with
  | (ip, '.' :: f) => litVal ip (some f)
  | (ip, _) => litVal ip none

/-! ## The regexes of `springboot_test_generator.py` -/

/-- `SET_TOTAL = \.setTotal\((\d+(?:\.\d+)?)\)` at one position: the captured
literal and the consumed count (minus one). -/
def setTotalAt (s : Text) : Option (Text × Nat) :=
  match dropPrefix? (txt ".setTotal(") s with
  | none => none
  | some r1 =>
    match numLit? r1 with
    | none => none
    | some (lit, r2) =>
      match r2 with
      | ')' :: _ => some (lit, 10 + lit.length)
      | _ => none

/-- `SET_TOTAL.sub(repl, ·)`'s step for a replacement built from the captured
literal. -/
def setTotalSub (repl : Text → Text) : Step Text := fun _ s =>
  (setTotalAt s).map (fun p => (repl p.1, p.2))

/-- `SET_TOTAL.findall`'s step: capture the literal. -/
def setTotalCap : Step Text := fun _ s => setTotalAt s

/-- `INT_IN_PARENS = (?<=\()\s*(\d+)\s*(?=[,)])` with replacement
`f"{m.group(1)}.0"`. -/
def intParensStep : Step Text := fun prev s =>
  if prev == some '(' then
    let (sp1, r1) := span0 spaceChar s
    match span1 digitChar r1 with
    | none => none
    | some (ds, r2) =>
      let (sp2, r3) := span0 spaceChar r2
      match r3 with
      | c :: _ =>
        if c == ',' || c == ')' then
          some (ds ++ txt ".0", sp1.length + ds.length + sp2.length - 1)
        else none
      | [] => none
  else none

/-- `clamp_any_literal`'s pattern `(?<![\w.])\d+(?:\.\d+)?(?![\w.])` with its
value-dependent replacement: literals exceeding the limit become
`f"{limit*0.9:.0f}"`, others are replaced by themselves. -/
def clampLitStep (limit : Dec) : Step Text := fun prev s =>
  let prevOk := match prev with | none => true | some c => !wordDot c
  if prevOk then
    match numLit? s with
    | none => none
    | some (lit, r2) =>
      let nextOk := match r2 with | [] => true | c :: _ => !wordDot c
      if nextOk then
        some ((if limit.lt (litValText lit) then intToText (pyRound0 (limit.mul decNine)) else lit),
              lit.length - 1)
      else none
  else none

/-- `ASSERT_EQ = assertEquals\((\d+(?:\.\d+)?),\s*result\)` with replacement
`m.group(0).replace(m.group(1), S)`. -/
def assertEqStep (S : Text) : Step Text := fun _ s =>
  match dropPrefix? (txt "assertEquals(") s with
  | none => none
  | some r1 =>
    match numLit? r1 with
    | none => none
    | some (lit, r2) =>
      match r2 with
      | ',' :: r3 =>
        let (sp, r4) := span0 spaceChar r3
        if (txt "result)").isPrefixOf r4 then
          let g0 := txt "assertEquals(" ++ lit ++ ',' :: sp ++ txt "result)"
          some (pyReplace g0 lit S, 13 + lit.length + 1 + sp.length + 7 - 1)
        else none
      | _ => none

/-! ## The post-processors of `springboot_test_generator.py` -/

/-- `clamp_any_literal(code, limit)`. -/
def clamp_any_literal (code : Text) (limit : Option Dec) : Text :=
  match limit with
  | none => code
  | some l => pySub (clampLitStep l) code

/-- `fix_validation_imports(code)`. -/
def fix_validation_imports (code : Text) : Text :=
  pyReplace code (txt "javax.validation") (txt "jakarta.validation")

/-- `clamp_totals(code, limit)`. -/
def clamp_totals (code : Text) (limit : Option Dec) : Text :=
  match limit with
  | none => code
  | some l =>
    pySub (setTotalSub (fun lit =>
      let v := litValText lit
      txt ".setTotal(" ++ fmtFloat (if v.le l then v else l.mul decNine) ++ txt ")")) code

/-- `adapt_bigdecimal(code, src)`. -/
def adapt_bigdecimal (code src : Text) : Text :=
  if containsSub src (txt "BigDecimal") then
    let c2 := pySub (setTotalSub (fun lit =>
      txt ".setTotal(BigDecimal.valueOf(" ++ lit ++ txt "))")) code
    if containsSub c2 (txt "BigDecimal") &&
        !containsSub c2 (txt "import java.math.BigDecimal;") then
      insertAfterPackage c2 (txt "\nimport java.math.BigDecimal;")
    else c2
  else code

/-- The `money_setters` tuple of `fix_int_vs_double`. -/
def moneySetterKeys : List Text :=
  [txt "setTotal(", txt "setAmount(", txt "setPrice(", txt "setSubtotal("]

/-- `fix_int_vs_double(code, d_methods)`. -/
def fix_int_vs_double (code : Text) (dMethods : List Text) : Text :=
  joinNl ((pySplitlines code).map (fun ln =>
    if dMethods.any (fun m => containsSub ln (m ++ txt "(")) ||
        moneySetterKeys.any (fun k => containsSub ln k) then
      pySub intParensStep ln
    else ln))

/-- Python `list.insert(idx, x)` (appends when `idx` exceeds the length). -/
def pyListInsert {α : Type} (l : List α) (idx : Nat) (x : α) : List α :=
  l.take idx ++ [x] ++ l.drop idx

/-- `add_status_calls(code, needed_enum, needed_const, enum_import)`.
`none` models Python `None`; `some []` models the empty string (both falsy). -/
def add_status_calls (code : Text) (neededEnum neededConst enumImport : Option Text) : Text :=
  match neededEnum with
  | none => code
  | some en =>
    if containsSub code (txt ".setStatus(") then code
    else
      let patched := pySub (setTotalSub (fun lit =>
        txt ".setStatus(" ++ en ++ '.' :: neededConst.getD [] ++
          txt ");\n        .setTotal(" ++ lit ++ txt ")")) code
      match enumImport with
      | some imp =>
        if !imp.isEmpty && !containsSub patched en then
          insertAfterPackage patched (txt "\nimport " ++ imp ++ '.' :: en ++ txt ";")
        else patched
      | none => patched

/-- `patch_revenue_assert(code)`; `sum([])` is the integer `0`, printed `"0"`. -/
def patch_revenue_assert (code : Text) : Text :=
  let totals := (pyFindIter setTotalCap code).map litValText
  let S := if totals.isEmpty then txt "0" else fmtFloat (totals.foldl Dec.add ⟨0, 0⟩)
  pySub (assertEqStep S) code

/-- `stub_findall(code, repo_var)`.  The `import java.util.List` branch of the
source assigns to a local that the final `return "\n".join(lines)` discards,
so it has no effect on the result. -/
def stub_findall (code : Text) (repoVar : Option Text) : Text :=
  match repoVar with
  | none => code
  | some rv =>
    if containsSub code (txt "when(" ++ rv ++ txt ".findAll())") then code
    else
      let stub := txt "when(" ++ rv ++ txt ".findAll()).thenReturn(List.of(order1, order2, order3));"
      let lines := pySplitlines code
      let lines2 :=
        match lines.findIdx? (fun ln => containsSub ln (txt "@BeforeEach")) with
        | some i => pyListInsert lines (i + 2) (txt "        " ++ stub)
        | none => lines
      joinNl lines2

/-- The contract facts a `Generator.generate` run extracts before running the
fixer pipeline. -/
structure FixerFacts where
  src : Text
  guardLimit : Option Dec
  dMethods : List Text
  neededEnum : Option Text
  neededConst : Option Text
  enumImport : Option Text
  repoVar : Option Text

/-- The fixer pipeline of `Generator.generate` (lines 233-240), in source
order: `clamp_totals`, `clamp_any_literal`, `adapt_bigdecimal`,
`fix_int_vs_double`, `add_status_calls`, `patch_revenue_assert`,
`stub_findall`, `fix_validation_imports`. -/
def fixerPipeline (F : FixerFacts) (code : Text) : Text :=
  fix_validation_imports
    (stub_findall
      (patch_revenue_assert
        (add_status_calls
          (fix_int_vs_double
            (adapt_bigdecimal
              (clamp_any_literal
                (clamp_totals code F.guardLimit)
                F.guardLimit)
              F.src)
            F.dMethods)
          F.neededEnum F.neededConst F.enumImport))
      F.repoVar)

/-! ## Fact extraction of `springboot_test_generator.py` -/

/-- `java_package`'s pattern `^\s*package\s+([\w.]+);` (MULTILINE): the match
must start at the beginning of the text or right after a newline. -/
def packageStep : Step Text := fun prev s =>
  if prev == none || prev == some '\n' then
    (do
      let (sp, r1) := span0 spaceChar s
      let r2 ← dropPrefix? (txt "package") r1
      let (sp2, r3) ← span1 spaceChar r2
      let (g, r4) ← span1 wordDot r3
      let _ ← dropPrefix? (txt ";") r4
      pure (g, sp.length + 7 + sp2.length + g.length + 1 - 1))
  else none

/-- `java_package(src)`: the package name of the first declaration, else `""`. -/
def java_package (src : Text) : Text := (pySearch? packageStep src).getD []

/-- `double_methods`'s pattern
`(?:public|protected|private)\s+(?:static\s+)?(?:Double|double)\s+(\w+)\s*\(`.
The payload is the captured method name. -/
def doubleMethodStep : Step Text := fun _ s =>
  (do
    let vis ← [txt "public", txt "protected", txt "private"].find? (fun v => v.isPrefixOf s)
    let r1 := s.drop vis.length
    let (sp1, r2) ← span1 spaceChar r1
    -- greedy optional `(?:static\s+)?`
    let stat : Text × Text :=
      match dropPrefix? (txt "static") r2 with
      | some r3 =>
        match span1 spaceChar r3 with
        | some (sp, r4) => (txt "static" ++ sp, r4)
        | none => ([], r2)
      | none => ([], r2)
    let r5 := stat.2
    let dbl ← [txt "Double", txt "double"].find? (fun v => v.isPrefixOf r5)
    let r6 := r5.drop dbl.length
    let (sp2, r7) ← span1 spaceChar r6
    let (name, r8) ← span1 wordChar r7
    let (sp3, r9) := span0 spaceChar r8
    let _ ← dropPrefix? (txt "(") r9
    pure (name, vis.length + sp1.length + stat.1.length + dbl.length + sp2.length +
      name.length + sp3.length + 1 - 1))

/-- `double_methods(src)`: the set of captured names (first-occurrence order;
the Python value is a set, and every use is order-insensitive). -/
def double_methods (src : Text) : List Text := pyDedup (pyFindIter doubleMethodStep src)

/-- `AUTOWIRED_REPO = @Autowired\s+private\s+(\w+Repository)\s+(\w+);`.
Payload: both captured groups.  `(\w+Repository)` forces the maximal word run
(the following `\s+` cannot start with a word character), so the run must end
in `Repository` with at least one preceding word character. -/
def autowiredRepoStep : Step (Text × Text) := fun _ s =>
  (do
    let r1 ← dropPrefix? (txt "@Autowired") s
    let (sp1, r2) ← span1 spaceChar r1
    let r3 ← dropPrefix? (txt "private") r2
    let (sp2, r4) ← span1 spaceChar r3
    let (g1, r5) ← span1 wordChar r4
    if (txt "Repository").isSuffixOf g1 && 11 ≤ g1.length then
      (do
        let (sp3, r6) ← span1 spaceChar r5
        let (g2, r7) ← span1 wordChar r6
        let _ ← dropPrefix? (txt ";") r7
        pure ((g1, g2), 10 + sp1.length + 7 + sp2.length + g1.length + sp3.length +
          g2.length + 1 - 1))
    else none)

/-- `VALIDATION_MAX = total\s*>\s*(\d+(?:\.\d+)?)`; payload: the literal. -/
def validationMaxStep : Step Text := fun _ s =>
  (do
    let r1 ← dropPrefix? (txt "total") s
    let (sp1, r2) := span0 spaceChar r1
    let r3 ← dropPrefix? (txt ">") r2
    let (sp2, r4) := span0 spaceChar r3
    let (lit, _) ← numLit? r4
    pure (lit, 5 + sp1.length + 1 + sp2.length + lit.length - 1))

/-- `ENUM_FILTER = (\w+Status)\.(\w+)`; payload: both groups.  As with
`AUTOWIRED_REPO`, group 1 is the maximal word run (the following `\.` cannot
be a word character), which must end in `Status` nontrivially. -/
def enumFilterStep : Step (Text × Text) := fun _ s =>
  (do
    let (g1, r1) ← span1 wordChar s
    if (txt "Status").isSuffixOf g1 && 7 ≤ g1.length then
      (do
        let r2 ← dropPrefix? (txt ".") r1
        let (g2, _) ← span1 wordChar r2
        pure ((g1, g2), g1.length + 1 + g2.length - 1))
    else none)

/-- `ENUM_DECL = enum\s+(\w+Status)\s*\{([^}]*)}`; payload: both groups. -/
def enumDeclStep : Step (Text × Text) := fun _ s =>
  (do
    let r1 ← dropPrefix? (txt "enum") s
    let (sp1, r2) ← span1 spaceChar r1
    let (g1, r3) ← span1 wordChar r2
    if (txt "Status").isSuffixOf g1 && 7 ≤ g1.length then
      (do
        let (sp2, r4) := span0 spaceChar r3
        let r5 ← dropPrefix? (txt "\x7b") r4
        let (body, r6) := span0 (fun c => !(c == '\x7d')) r5
        let _ ← dropPrefix? (txt "\x7d") r6
        pure ((g1, body), 4 + sp1.length + g1.length + sp2.length + 1 + body.length +
          1 - 1))
    else none)

/-- The enum-fact loop of `Generator.generate` (lines 190-200): the first
`ENUM_FILTER` match over all units in order fixes `needed_enum` and
`needed_const`; `enum_import` is the package of the first unit whose first
`ENUM_DECL` match declares that enum (and stays `None` when there is none). -/
def enumFacts (allSrc : List Text) : Option Text × Option Text × Option Text :=
  match allSrc.findSome? (fun t => pySearch? enumFilterStep t) with
  | none => (none, none, none)
  | some (en, konst) =>
    let declaring := allSrc.find? (fun t2 =>
      match pySearch? enumDeclStep t2 with
      | some (w, _) => w == en
      | none => false)
    (some en, some konst, declaring.map java_package)

/-- All facts `Generator.generate` extracts before running the pipeline
(lines 181-199). -/
def extractFacts (src : Text) (allSrc : List Text) : FixerFacts :=
  { src := src
    guardLimit := (pySearch? validationMaxStep src).map litValText
    dMethods := double_methods src
    neededEnum := (enumFacts allSrc).1
    neededConst := (enumFacts allSrc).2.1
    enumImport := (enumFacts allSrc).2.2
    repoVar := (pySearch? autowiredRepoStep src).map (fun g => g.2) }

/-! ## `generate_tests.py`: validator -/

/-- `validate_test_case`'s result dict (before the exception on line 172). -/
structure VRes where
  is_valid : Bool
  errors : List Text
  problematic_lines : List Text
deriving DecidableEq, Repr

/-- The exception raised inside `validate_test_case`. -/
inductive PyErr where
  | dictSliceTypeError
deriving DecidableEq, Repr

/-- Requirement `@SpringBootTest`. -/
def reqSpringBoot (s : Text) : Bool := (txt "@SpringBootTest").isPrefixOf s

/-- Requirement `@Autowired\s+private\s+MockMvc`. -/
def reqMockMvc (s : Text) : Bool :=
  (do
    let r1 ← dropPrefix? (txt "@Autowired") s
    let (_, r2) ← span1 spaceChar r1
    let r3 ← dropPrefix? (txt "private") r2
    let (_, r4) ← span1 spaceChar r3
    dropPrefix? (txt "MockMvc") r4).isSome

/-- Requirement `@MockBean\s+private\s+OrderService`. -/
def reqOrderService (s : Text) : Bool :=
  (do
    let r1 ← dropPrefix? (txt "@MockBean") s
    let (_, r2) ← span1 spaceChar r1
    let r3 ← dropPrefix? (txt "private") r2
    let (_, r4) ← span1 spaceChar r3
    dropPrefix? (txt "OrderService") r4).isSome

/-- Requirement `Order\s+\w+\s*=\s*new\s+Order\(\s*\)`. -/
def reqNoArgCtor (s : Text) : Bool :=
  (do
    let r1 ← dropPrefix? (txt "Order") s
    let (_, r2) ← span1 spaceChar r1
    let (_, r3) ← span1 wordChar r2
    let (_, r4) := span0 spaceChar r3
    let r5 ← dropPrefix? (txt "=") r4
    let (_, r6) := span0 spaceChar r5
    let r7 ← dropPrefix? (txt "new") r6
    let (_, r8) ← span1 spaceChar r7
    let r9 ← dropPrefix? (txt "Order(") r8
    let (_, r10) := span0 spaceChar r9
    dropPrefix? (txt ")") r10).isSome

/-- Requirement `\.set[A-Z]\w*\(`. -/
def reqSetter (s : Text) : Bool :=
  (do
    let r1 ← dropPrefix? (txt ".set") s
    match r1 with
    | c :: r2 =>
      if upperChar c then
        let (_, r3) := span0 wordChar r2
        dropPrefix? (txt "(") r3
      else none
    | [] => none).isSome

/-- The service methods accepted by the mocking requirement, in pattern order. -/
def allowedServiceMethods : List Text :=
  [txt "findOrderById", txt "findOrdersByCustomer", txt "saveOrder", txt "getTotalRevenue"]

/-- Requirement
`when\(orderService\.(findOrderById|findOrdersByCustomer|saveOrder|getTotalRevenue)\(`. -/
def reqWhenMock (s : Text) : Bool :=
  (do
    let r1 ← dropPrefix? (txt "when(orderService.") s
    allowedServiceMethods.find? (fun a => (a ++ txt "(").isPrefixOf r1)).isSome

/-- The ordered `requirements` list (pattern, message). -/
def requiredRules : List ((Text → Bool) × Text) :=
  [(reqSpringBoot, txt "Missing @SpringBootTest annotation"),
   (reqMockMvc, txt "Missing MockMvc autowired field"),
   (reqOrderService, txt "Missing OrderService mock"),
   (reqNoArgCtor, txt "Order not created with no-arg constructor"),
   (reqSetter, txt "Missing property setters"),
   (reqWhenMock, txt "Incorrect service method mocking")]

/-- `new\s+Order\s*\([^)]*\)` (resp. `[^)]+` when `atLeastOne`); payload: the
whole matched text. -/
def newOrderCallAt (atLeastOne : Bool) (s : Text) : Option (Text × Nat) :=
  (do
    let r1 ← dropPrefix? (txt "new") s
    let (sp1, r2) ← span1 spaceChar r1
    let r3 ← dropPrefix? (txt "Order") r2
    let (sp2, r4) := span0 spaceChar r3
    let r5 ← dropPrefix? (txt "(") r4
    let (args, r6) := span0 (fun c => !(c == ')')) r5
    let _ ← dropPrefix? (txt ")") r6
    if atLeastOne && args.isEmpty then none
    else
      let g0 := txt "new" ++ sp1 ++ txt "Order" ++ sp2 ++ txt "(" ++ args ++ txt ")"
      pure (g0, g0.length - 1))

/-- `Order\s*\([^)]*\)`; payload: the whole matched text. -/
def orderCallAt (s : Text) : Option (Text × Nat) :=
  (do
    let r1 ← dropPrefix? (txt "Order") s
    let (sp, r2) := span0 spaceChar r1
    let r3 ← dropPrefix? (txt "(") r2
    let (args, r4) := span0 (fun c => !(c == ')')) r3
    let _ ← dropPrefix? (txt ")") r4
    let g0 := txt "Order" ++ sp ++ txt "(" ++ args ++ txt ")"
    pure (g0, g0.length - 1))

/-- The wrong service-method names of the last prohibition, in pattern order. -/
def wrongServiceMethods : List Text :=
  [txt "getOrderById", txt "getOrdersByCustomerName", txt "calculateTotalRevenue"]

/-- `orderService\.(getOrderById|getOrdersByCustomerName|calculateTotalRevenue)`. -/
def wrongServiceAt (s : Text) : Option (Text × Nat) :=
  (do
    let r1 ← dropPrefix? (txt "orderService.") s
    let a ← wrongServiceMethods.find? (fun a => a.isPrefixOf r1)
    let g0 := txt "orderService." ++ a
    pure (g0, g0.length - 1))

/-- Literal-pattern step (used for `CustomerNotFoundException`). -/
def literalAt (w : Text) (s : Text) : Option (Text × Nat) :=
  if w.isPrefixOf s then some (w, w.length - 1) else none

/-- The ordered `prohibitions` list (pattern step, message). -/
def prohibitedRules : List (Step Text × Text) :=
  [(fun _ s => newOrderCallAt true s, txt "Used Order constructor with arguments"),
   (fun _ s => orderCallAt s, txt "Used Order constructor (any form)"),
   (fun _ s => literalAt (txt "CustomerNotFoundException") s, txt "Used forbidden exception"),
   (fun _ s => wrongServiceAt s, txt "Used wrong service method names")]

/-- `validate_test_case(test_code)`.  The requirement loop appends
`"Missing: " + message` per zero-match pattern; the prohibition loop appends
`"Prohibited: " + message` and the matched snippet per match; `is_valid` is
false iff any error was appended.  Line 171 deduplicates `errors`; line 172,
`list(dict.fromkeys(results["problematic_lines"])[:3])`, slices the dict
returned by `dict.fromkeys`, which raises a `TypeError`
(`unhashable type: 'slice'`) unconditionally, so the function never returns. -/
def validate_test_case (code : Text) : Except PyErr VRes :=
  let errs1 := requiredRules.foldl (fun acc pm =>
    if searchPat pm.1 code then acc else acc ++ [txt "Missing: " ++ pm.2]) []
  let step2 := prohibitedRules.foldl (fun (acc : List Text × List Text) sm =>
    let ms := pyFindIter sm.1 code
    (acc.1 ++ ms.map (fun _ => txt "Prohibited: " ++ sm.2), acc.2 ++ ms)) (errs1, [])
  let results : VRes :=
    { is_valid := step2.1.isEmpty, errors := step2.1, problematic_lines := step2.2 }
  let _dedupedErrors := pyDedup results.errors
  Except.error PyErr.dictSliceTypeError

/-- The `results` dict of `validate_test_case` as built through line 171
(with `errors` deduplicated), i.e. the value the function would return if
line 172 read `list(dict.fromkeys(...))[:3]` as evidently intended. -/
def validationResultsIntended (code : Text) : VRes :=
  let errs1 := requiredRules.foldl (fun acc pm =>
    if searchPat pm.1 code then acc else acc ++ [txt "Missing: " ++ pm.2]) []
  let step2 := prohibitedRules.foldl (fun (acc : List Text × List Text) sm =>
    let ms := pyFindIter sm.1 code
    (acc.1 ++ ms.map (fun _ => txt "Prohibited: " ++ sm.2), acc.2 ++ ms)) (errs1, [])
  { is_valid := step2.1.isEmpty
    errors := pyDedup step2.1
    problematic_lines := (pyDedup step2.2).take 3 }

/-! ## `generate_tests.py`: fixer, naming, saving -/

/-- `fix_common_issues(test_code)`: rewrite every `new\s+Order\s*\([^)]*\)`
to `new Order()`, then every `orderService.getOrderById(` to
`orderService.findOrderById(` (a literal pattern, so `re.sub` coincides with
`str.replace`). -/
def fix_common_issues (code : Text) : Text :=
  pyReplace
    (pySub (fun _ s => (newOrderCallAt false s).map (fun p => (txt "new Order()", p.2))) code)
    (txt "orderService.getOrderById(") (txt "orderService.findOrderById(")

/-- `[a-zA-Z0-9]`. -/
def alnumChar (c : Char) : Bool :=
  (('a' ≤ c && c ≤ 'z') || ('A' ≤ c && c ≤ 'Z') || ('0' ≤ c && c ≤ '9'))

/-- Python `str.capitalize()`: first character upper-cased, the rest
lower-cased (ASCII suffices here). -/
def pyCapitalize (s : Text) : Text :=
  match s with
  | [] => []
  | c :: cs => c.toUpper :: cs.map Char.toLower

/-- `generate_test_class_name(path, method)`:
`re.sub(r'[^a-zA-Z0-9]', '', path.replace('/', '_'))`, capitalized, wrapped in
`Api…{Method}Test`. -/
def generate_test_class_name (path method : Text) : Text :=
  let cleanPath := (path.map (fun c => if c == '/' then '_' else c)).filter alnumChar
  txt "Api" ++ pyCapitalize cleanPath ++ pyCapitalize method ++ txt "Test"

/-- An endpoint record; `parameters`/`response` stand for the
`json.dumps(…, indent=2)` renderings. -/
structure Endpoint where
  path : Text
  method : Text
  parameters : Text
  response : Text
deriving DecidableEq, Repr

/-- Python `str.strip()` (ASCII whitespace). -/
def pyStrip (s : Text) : Text :=
  ((s.dropWhile spaceChar).reverse.dropWhile spaceChar).reverse

/-- `save_test_file`'s destination
`src/test/java/com/example/orderservice/{class_name}.java`. -/
def save_test_path (e : Endpoint) : Text :=
  txt "src/test/java/com/example/orderservice/" ++
    generate_test_class_name e.path e.method ++ txt ".java"

/-- `save_test_file`'s content: the artifact, with the package declaration
prepended when the stripped text does not already start with `package`. -/
def save_test_content (test_code : Text) : Text :=
  if (txt "package").isPrefixOf (pyStrip test_code) then test_code
  else txt "package com.example.orderservice;\n\n" ++ test_code

/-- A filesystem written by `open(path, 'w')`: later writes shadow earlier
ones at the same path. -/
def fsWrite (store : List (Text × Text)) (path content : Text) : List (Text × Text) :=
  (path, content) :: store

/-- Read back the latest content at a path. -/
def fsRead? (store : List (Text × Text)) (path : Text) : Option Text :=
  (store.find? (fun pc => pc.1 == path)).map (fun pc => pc.2)

/-! ## `generate_tests.py`: prompt -/

/-- The fixed part of `build_prompt` up to the endpoint details. -/
def promptHead : Text :=
  txt "\nGenerate a JUnit test class for this Spring Boot endpoint that strictly follows these requirements:\n\n=== ABSOLUTE REQUIREMENTS ===\n1. Order objects MUST ONLY be created with no-arg constructor + setters:\n   CORRECT:\n   Order order = new Order();\n   order.setId(1L);\n   order.setCustomerName(\"test\");\n\n   WRONG (NEVER USE THESE):\n   - Order order = new Order(1L, \"test\");  // BANNED\n   - Order order = Order.builder().id(1L).build();  // BANNED\n   - Any other constructor or builder pattern  // BANNED\n\n2. Service layer mocking MUST ONLY use these exact methods:\n   - Optional<Order> findOrderById(long id)\n   - List<Order> findOrdersByCustomer(String name)\n   - Order saveOrder(Order order)\n   - double getTotalRevenue()\n\n=== TEST STRUCTURE ===\n1. Use @SpringBootTest with MockMvc\n2. Include:\n   - @Autowired MockMvc\n   - @MockBean OrderService\n3. Test both success and error cases\n4. Use proper assertions (status(), jsonPath())\n\n=== ENDPOINT DETAILS ===\nPath: "

/-- `base_prompt` as a function of the endpoint. -/
def promptBase (e : Endpoint) : Text :=
  promptHead ++ e.path ++ txt "\nMethod: " ++ e.method ++
    txt "\nParameters: " ++ e.parameters ++ txt "\nResponse: " ++ e.response ++ txt "\n"

/-- Text preceding the previous-attempt errors in the feedback section. -/
def promptFeedbackPre : Text :=
  txt "\n\n=== PREVIOUS ATTEMPT ERRORS ===\nYour previous attempt contained these errors:\n"

/-- Text following the previous-attempt errors in the feedback section. -/
def promptFeedbackPost : Text :=
  txt "\n\nPlease carefully fix these issues in your new attempt.\n"

/-- The fixed tail of `build_prompt` (example test and output requirements). -/
def promptTail : Text :=
  txt "\n\n=== EXAMPLE TEST ===\n@SpringBootTest\n@AutoConfigureMockMvc\npublic class ExampleTest \x7b\n    @Autowired private MockMvc mockMvc;\n    @MockBean private OrderService orderService;\n\n    @Test\n    void shouldReturnOrder() throws Exception \x7b\n        // CORRECT Order creation\n        Order order = new Order();\n        order.setId(1L);\n        order.setCustomerName(\"test\");\n        order.setAmount(100.0);\n\n        when(orderService.findOrderById(1L)).thenReturn(Optional.of(order));\n\n        mockMvc.perform(get(\"/orders/1\"))\n            .andExpect(status().isOk())\n            .andExpect(jsonPath(\"$.id\").value(1));\n    \x7d\n\x7d\n\n=== OUTPUT REQUIREMENTS ===\nReturn ONLY the complete Java code with:\n1. Package declaration: package com.example.orderservice;\n2. All required imports\n3. Full test class implementation\n4. ABSOLUTELY NO constructor usage other than new Order()\n5. NO explanations or comments outside the code\n"

/-- `build_prompt(endpoint, previous_attempt)`.  The feedback section is added
only when `previous_attempt` is truthy (not `None` and nonempty). -/
def build_prompt (e : Endpoint) (previous : Option Text) : Text :=
  promptBase e ++
    (match previous with
     | some p => if p.isEmpty then [] else promptFeedbackPre ++ p ++ promptFeedbackPost
     | none => []) ++
    promptTail

/-! ## `generate_tests.py`: retry loop

`process_endpoint` is embedded with the oracle transport (the
`requests.post … raise_for_status` chain of `generate_test_case`) and the
validator abstracted into parameters; `validate_test_case` above is the
validator the script actually instantiates.  An `OracleOut.raise` models any
exception raised by the HTTP call (connection error, auth failure,
`raise_for_status`). -/

/-- Outcome of one oracle invocation. -/
inductive OracleOut where
  | ok (text : Text)
  | raise
deriving DecidableEq

/-- One loop iteration: its `attempt` index and the `previous_errors`
feedback passed to `generate_test_case` (hence to `build_prompt`). -/
structure AttemptRec where
  idx : Nat
  feedback : Option Text
deriving DecidableEq, Repr

/-- Terminal state of `process_endpoint` for one endpoint. -/
inductive UnitOutcome where
  | accepted (code : Text)
  | exhausted (debugCode : Text)
  | raised
deriving DecidableEq, Repr

/-- What a `process_endpoint` call did: the oracle calls it made (in order)
and how it ended; `saved` is the `save_test_file` write on acceptance. -/
structure UnitRun where
  attempts : List AttemptRec
  outcome : UnitOutcome
  saved : Option (Text × Text)
deriving DecidableEq, Repr

/-- `self.max_retries = 3`. -/
def max_retries : Nat := 3

/-- The `for attempt in range(self.max_retries)` loop of `process_endpoint`.
`fuel` counts the remaining iterations (`max_retries - idx`), `vr` is
`validation_results`, `lastCode` the current `test_code`.  Any exception from
the oracle call or the validator is caught; on the final attempt it is
re-raised, otherwise the loop continues with `validation_results` unchanged.
When the loop completes, the final `test_code` is written to the debug
directory. -/
def processLoop (e : Endpoint) (oracle : Nat → OracleOut)
    (validator : Text → Except PyErr VRes) :
    Nat → Nat → Option VRes → Option Text → UnitRun
  | 0, _, _, lastCode =>
    { attempts := [], outcome := .exhausted (lastCode.getD []), saved := none }
  | fuel + 1, idx, vr, lastCode =>
    let att : AttemptRec := { idx := idx, feedback := vr.map (fun r => joinNl r.errors) }
    match oracle idx with
    | .raise =>
      if fuel = 0 then { attempts := [att], outcome := .raised, saved := none }
      else
        let r := processLoop e oracle validator fuel (idx + 1) vr lastCode
        { r with attempts := att :: r.attempts }
    | .ok t =>
      let code := fix_common_issues t
      match validator code with
      | .error _ =>
        if fuel = 0 then { attempts := [att], outcome := .raised, saved := none }
        else
          let r := processLoop e oracle validator fuel (idx + 1) vr (some code)
          { r with attempts := att :: r.attempts }
      | .ok res =>
        if res.is_valid then
          { attempts := [att], outcome := .accepted code,
            saved := some (save_test_path e, save_test_content code) }
        else
          let r := processLoop e oracle validator fuel (idx + 1) (some res) (some code)
          { r with attempts := att :: r.attempts }

/-- `process_endpoint(endpoint)` with the stated abstractions. -/
def process_endpoint (oracle : Nat → OracleOut) (validator : Text → Except PyErr VRes)
    (e : Endpoint) : UnitRun :=
  processLoop e oracle validator max_retries 0 none none

/-- `process_endpoints`: each endpoint is processed inside
`try … except: continue`, so a unit whose processing raises never stops the
loop (the initial `cleanup_old_tests` touches only the filesystem). -/
def process_endpoints (validator : Text → Except PyErr VRes)
    (units : List (Endpoint × (Nat → OracleOut))) : List UnitRun :=
  units.map (fun u => process_endpoint u.2 validator u.1)

/-! ## `springboot_test_generator.py`: ask / run control flow -/

/-- The backtick character, which the final fallback of `clean` strips. -/
def backtickChar : Char := Char.ofNat 96

/-- Strip characters satisfying `p` from both ends. -/
def pyStripBy (p : Char → Bool) (s : Text) : Text :=
  ((s.dropWhile p).reverse.dropWhile p).reverse

/-- `CODE_BLOCK`'s match at one position: ` ```(?:java)?\s*([\s\S]*?)``` `,
yielding group 1 (the lazy capture ends at the first closing fence). -/
def codeBlockAt (s : Text) : Option Text :=
  (do
    let r1 ← dropPrefix? (txt "```") s
    let r2 := (dropPrefix? (txt "java") r1).getD r1
    let (_, r3) := span0 spaceChar r2
    let j := pyFind r3 (txt "```")
    if j < 0 then none else some (r3.take j.toNat))

/-- `clean(text)`: the stripped first code-block body if any, else the text
stripped of whitespace and then of backticks. -/
def clean (t : Text) : Text :=
  match (List.range (t.length + 1)).findSome? (fun i => codeBlockAt (t.drop i)) with
  | some g => pyStrip g
  | none => pyStripBy (fun c => c == backtickChar) (pyStrip t)

/-- `Generator.ask`: an `OpenAIError` triggers `sys.exit(f"OpenAI error → {e}")`,
modelled as an `Except.error` that no caller handles; a successful response is
`clean`ed. -/
def generatorAsk (resp : Except Text Text) : Except Text Text :=
  match resp with
  | .error e => .error (txt "OpenAI error → " ++ e)
  | .ok t => .ok (clean t)

/-- The per-unit control flow of `Generator.run`/`Generator.generate`: each
unit's oracle response goes through `ask`; `sys.exit` propagates (neither
`generate` nor `run` catches it), aborting the whole run at the first failing
unit.  The per-unit post-processing and file write are abstracted to the
cleaned text. -/
def generatorRun (units : List (Except Text Text)) : Except Text (List Text) :=
  match units with
  | [] => .ok []
  | u :: us =>
    match generatorAsk u with
    | .error e => .error e
    | .ok t =>
      match generatorRun us with
      | .error e => .error e
      | .ok ts => .ok (t :: ts)

/-! ## Statement-level vocabulary

The following definitions formalise phrases of the specification (not code of
the repository); they are used only to state properties. -/

/-- A "monetary-setter literal": a numeric literal standing directly as the
argument of one of the money setters (`.setTotal(L)`, `.setAmount(L)`,
`.setPrice(L)`, `.setSubtotal(L)`).  Formalisation of the spec's phrase. -/
def moneySetterLitAt (s : Text) : Option (Text × Nat) :=
  moneySetterKeys.findSome? (fun k =>
    (do
      let r1 ← dropPrefix? ('.' :: k) s
      let (lit, r2) ← numLit? r1
      match r2 with
      | ')' :: _ => some (lit, 1 + k.length + lit.length)
      | _ => none))

/-- The values of all monetary-setter literals of an artifact, in text order. -/
def moneySetterLiterals (s : Text) : List Dec :=
  (pyFindIter (fun _ t => moneySetterLitAt t) s).map litValText

/-- The pipeline in the order required by the specification (§4.5): guard
clamping, then numeric-literal coercion, then monetary-type adaptation
("runs after coercion since it wraps the final literal form"), then the
remaining transforms.  Stated from the spec's words, for comparison with the
source-ordered `fixerPipeline`. -/
def specOrderedPipeline (F : FixerFacts) (code : Text) : Text :=
  fix_validation_imports
    (stub_findall
      (patch_revenue_assert
        (add_status_calls
          (adapt_bigdecimal
            (fix_int_vs_double
              (clamp_any_literal
                (clamp_totals code F.guardLimit)
                F.guardLimit)
              F.dMethods)
            F.src)
          F.neededEnum F.neededConst F.enumImport))
      F.repoVar)

/-! ## Concrete scenario data -/

/-- Scenario B, declaring unit: an enum `OrderStatus` in package
`com.example.model`. -/
def unitDeclB : Text :=
  txt "package com.example.model;\npublic enum OrderStatus \x7b COMPLETED, PENDING \x7d"

/-- Scenario B, using unit: references `OrderStatus.COMPLETED`. -/
def unitUseB : Text :=
  txt "package com.example.svc;\nclass S \x7b void f() \x7b if (o.getStatus() == OrderStatus.COMPLETED) \x7b \x7d \x7d \x7d"

/-- Scenario B facts, extracted from the using unit against both units. -/
def factsB : FixerFacts := extractFacts unitUseB [unitDeclB, unitUseB]

/-- Scenario B artifact: one money-setter call, no status-setting call, and
no enum-import line. -/
def artifactB : Text :=
  txt "class T \x7b void t() \x7b Order o = new Order(); o.setTotal(100); \x7d \x7d"

/-- A unit whose source mentions `BigDecimal` and nothing else the analyzer
extracts facts from. -/
def unitBigDecimal : Text :=
  txt "package com.shop;\nclass Svc \x7b BigDecimal subtotal; \x7d"

/-- Facts for a run over the `BigDecimal` unit alone. -/
def factsBigDecimal : FixerFacts := extractFacts unitBigDecimal [unitBigDecimal]

/-- An artifact whose money-setter argument is spaced, so that it matches the
coercion pattern but not `SET_TOTAL`. -/
def artifactSpaced : Text := txt "o.setTotal( 7 );"

/-- A unit with a numeric guard `total > 1.7` and nothing else extractable. -/
def unitSmallGuard : Text :=
  txt "package com.shop;\nclass Svc \x7b void check(double total) \x7b if (total > 1.7) reject(); \x7d \x7d"

/-- Facts for a run over the small-guard unit alone. -/
def factsSmallGuard : FixerFacts := extractFacts unitSmallGuard [unitSmallGuard]

/-- Artifact for the small-guard scenario: a monetary-setter literal `2`
exceeding the ceiling `1.7`. -/
def artifactSmallGuard : Text := txt "order.setAmount(2);"

/-- A unit with both a guard `total > 1000` and a `BigDecimal` money type. -/
def unitGuardBigDecimal : Text :=
  txt "package com.shop;\nclass Svc \x7b BigDecimal total; void check(double total) \x7b if (total > 1000) reject(); \x7d \x7d"

/-- Facts for a run over `unitGuardBigDecimal` alone. -/
def factsGuardBigDecimal : FixerFacts := extractFacts unitGuardBigDecimal [unitGuardBigDecimal]

/-- An endpoint used by concrete run witnesses. -/
def epX : Endpoint :=
  { path := txt "/orders", method := txt "GET", parameters := txt "[]", response := txt "\"r\"" }

/-- Endpoint whose path part is upper-case. -/
def epUpper : Endpoint :=
  { path := txt "/orders/ABC", method := txt "GET", parameters := txt "[]", response := txt "\"r\"" }

/-- Endpoint with the same method and a different path, lower-case. -/
def epLower : Endpoint :=
  { path := txt "/orders/abc", method := txt "GET", parameters := txt "[]", response := txt "\"r\"" }

/-- An artifact with two distinct multi-argument constructions. -/
def artifactDupCtors : Text := txt "new Order(1, 2); new Order(3)"

/-- Scenario B pipeline output: exactly one injected status call, adjacent to
the (coerced) money-setter call, and no import line. -/
def scenarioBOut : Text :=
  txt "class T \x7b void t() \x7b Order o = new Order(); o.setStatus(OrderStatus.COMPLETED);\n        .setTotal(100.0); \x7d \x7d"

/-!
# Claims
-/

/-- C1: `validate_test_case` is not total: for every input text it raises a
`TypeError` at line 172 (`list(dict.fromkeys(results["problematic_lines"])[:3])`
slices the dict built by `dict.fromkeys`), so it never returns a
`ValidationResult`, contradicting the claim that the validator never throws. -/
theorem validate_test_case_always_raises (code : Text) :
    validate_test_case code = Except.error PyErr.dictSliceTypeError := rfl

/-- C4: the `ValidationResult` whose `violations`/`offendingSnippets` the claim
describes is never returned: `validate_test_case` raises on every artifact,
including one with duplicate-producing prohibited constructions.  The dict
construction through line 171 (`validationResultsIntended`, with the evident
intent of line 172 restored) would indeed be duplicate-free with at most 3
snippets. -/
theorem validator_crashes_before_dedup_and_cap :
    validate_test_case artifactDupCtors = Except.error PyErr.dictSliceTypeError ∧
    (validationResultsIntended artifactDupCtors).errors.Nodup ∧
    (validationResultsIntended artifactDupCtors).problematic_lines.Nodup ∧
    (validationResultsIntended artifactDupCtors).problematic_lines.length ≤ 3 := by
  refine ⟨rfl, ?_, ?_, ?_⟩ <;> decide

/-- C10: destination-key derivation is not injective: `/orders/ABC` and
`/orders/abc` are distinct paths with the same method, yet
`generate_test_class_name` collides (Python's `capitalize()` lower-cases the
tail), `save_test_file` derives the same file path, and the later write
shadows the earlier one. -/
theorem dest_key_not_injective :
    epUpper.path ≠ epLower.path ∧
    epUpper.method = epLower.method ∧
    generate_test_class_name epUpper.path epUpper.method =
      generate_test_class_name epLower.path epLower.method ∧
    save_test_path epUpper = save_test_path epLower ∧
    fsRead?
      (fsWrite (fsWrite [] (save_test_path epUpper) (txt "class First"))
        (save_test_path epLower) (txt "class Second"))
      (save_test_path epUpper) = some (txt "class Second") := by
  refine ⟨?_, ?_, ?_, ?_, ?_⟩ <;> decide

/-- C3 (counterexample): in Scenario B — `unitDeclB` declares
`OrderStatus` in `com.example.model`, `unitUseB` references
`OrderStatus.COMPLETED`, the artifact lacks a status-setting call — the
pipeline inserts the status call but injects the owning enum import ZERO
times, not exactly once as claimed: the import guard checks the patched text,
which already references the enum via the inserted call. -/
theorem scenario_b_import_not_injected :
    factsB.neededEnum = some (txt "OrderStatus") ∧
    factsB.neededConst = some (txt "COMPLETED") ∧
    factsB.enumImport = some (txt "com.example.model") ∧
    containsSub artifactB (txt ".setStatus(") = false ∧
    countOccurrences (fixerPipeline factsB artifactB) (txt ".setStatus(") = 1 ∧
    countOccurrences (fixerPipeline factsB artifactB)
      (txt "import com.example.model.OrderStatus") = 0 := by
  refine ⟨?_, ?_, ?_, ?_, ?_, ?_⟩ <;> decide

/-- C3 (amended): the pipeline, applied once or twice, inserts exactly one
status-setting call, textually adjacent to the (coerced) money-setter call,
and injects no import at all. -/
theorem scenario_b_one_status_call_no_import :
    fixerPipeline factsB artifactB = scenarioBOut ∧
    fixerPipeline factsB (fixerPipeline factsB artifactB) = fixerPipeline factsB artifactB ∧
    countOccurrences scenarioBOut (txt ".setStatus(") = 1 ∧
    countOccurrences scenarioBOut (txt "import") = 0 ∧
    containsSub scenarioBOut
      (txt ".setStatus(OrderStatus.COMPLETED);\n        .setTotal(100.0)") = true := by
  refine ⟨?_, ?_, ?_, ?_, ?_⟩ <;> decide

/-- C8 (counterexample): the source pipeline runs monetary-type adaptation
BEFORE numeric-literal coercion, not after it as claimed: on a spaced setter
argument (which only coercion normalises into `SET_TOTAL` form) the source
order leaves the coerced literal unwrapped, while the claimed order wraps it. -/
theorem adaptation_runs_before_coercion :
    fixerPipeline factsBigDecimal artifactSpaced ≠
      specOrderedPipeline factsBigDecimal artifactSpaced ∧
    fixerPipeline factsBigDecimal artifactSpaced = txt "o.setTotal(7.0);" ∧
    specOrderedPipeline factsBigDecimal artifactSpaced =
      txt "o.setTotal(BigDecimal.valueOf(7.0));\nimport java.math.BigDecimal;" := by
  refine ⟨?_, ?_, ?_⟩ <;> decide

/-- C8 (amended): the pipeline order is clamping, then adaptation, then
coercion (then the rest).  Guard clamping still runs before coercion, and a
clamped `SET_TOTAL` literal is wrapped by the adaptation; but a literal that
only coercion brings into `SET_TOTAL` form is not wrapped. -/
theorem pipeline_source_order :
    (∀ (F : FixerFacts) (code : Text),
      fixerPipeline F code =
        fix_validation_imports
          (stub_findall
            (patch_revenue_assert
              (add_status_calls
                (fix_int_vs_double
                  (adapt_bigdecimal
                    (clamp_any_literal (clamp_totals code F.guardLimit) F.guardLimit)
                    F.src)
                  F.dMethods)
                F.neededEnum F.neededConst F.enumImport))
            F.repoVar)) ∧
    fixerPipeline factsGuardBigDecimal (txt "o.setTotal(2000);") =
      txt "o.setTotal(BigDecimal.valueOf(900.0));\nimport java.math.BigDecimal;" ∧
    fixerPipeline factsBigDecimal artifactSpaced = txt "o.setTotal(7.0);" := by
  refine ⟨fun F code => rfl, ?_, ?_⟩ <;> decide

/-- C7 (counterexample): an oracle transport failure does NOT abort the unit
immediately — all three attempts are consumed by `process_endpoint` before the
exception propagates — and in `springboot_test_generator.py` an `OpenAIError`
terminates the whole run via `sys.exit` before any later unit is processed. -/
theorem transport_failure_consumes_attempts_and_aborts_run :
    (process_endpoint (fun _ => OracleOut.raise) validate_test_case epX).attempts.length = 3 ∧
    (process_endpoint (fun _ => OracleOut.raise) validate_test_case epX).attempts.length ≠ 1 ∧
    generatorRun [Except.error (txt "connection refused"), Except.ok (txt "class A \x7b\x7d")] =
      Except.error (txt "OpenAI error → connection refused") := by
  refine ⟨by decide, by decide, rfl⟩

/-- C7 (amended): in `generate_tests.py` a transport failure is caught per
attempt and consumes it; with an always-failing oracle the unit makes exactly
`max_retries` oracle calls and then re-raises, while `process_endpoints`
still processes every unit (no global abort).  In
`springboot_test_generator.py` the first failing unit terminates the whole
run. -/
theorem transport_failure_behaviour :
    (∀ (validator : Text → Except PyErr VRes) (e : Endpoint),
      (process_endpoint (fun _ => OracleOut.raise) validator e).attempts.length = max_retries ∧
      (process_endpoint (fun _ => OracleOut.raise) validator e).outcome = UnitOutcome.raised) ∧
    (∀ (validator : Text → Except PyErr VRes) (units : List (Endpoint × (Nat → OracleOut))),
      (process_endpoints validator units).length = units.length) ∧
    (∀ (msg : Text) (us : List (Except Text Text)),
      generatorRun (Except.error msg :: us) = Except.error (txt "OpenAI error → " ++ msg)) := by
  refine ⟨fun v e => ⟨rfl, rfl⟩, fun v units => by simp [process_endpoints], fun msg us => rfl⟩

/-- A `Dec` comparison means the rational comparison of its values. -/
theorem Dec.le_iff (a b : Dec) : a.le b = true ↔ a.toRat ≤ b.toRat := by
  have h10 : (0 : ℚ) < (10 : ℚ) ^ a.exp := by positivity
  have h10b : (0 : ℚ) < (10 : ℚ) ^ b.exp := by positivity
  simp only [Dec.le, Dec.toRat, decide_eq_true_eq]
  rw [div_le_div_iff h10 h10b]
  constructor
  · intro h
    exact_mod_cast h
  · intro h
    exact_mod_cast h

/-- C2 (counterexample): all three parts of the claim fail on concrete
inputs.  (i) `fix_int_vs_double` and `stub_findall` are not idempotent:
`"\n".join(x.splitlines())` drops a trailing empty line, so a second
application of either changes `"a\n"` (their image of `"a\n\n"`) to `"a"`.
(ii) The whole pipeline is not idempotent: with a `BigDecimal`-using source,
a spaced setter literal is coerced into `SET_TOTAL` form on the first run and
only wrapped (plus import) on the second.  (iii) A transform need not be a
no-op when its triggering pattern is absent: `clamp_totals` rewrites the
compliant literal `100 ≤ 1000` into float form. -/
theorem pipeline_not_idempotent :
    (fix_int_vs_double (txt "a\n\n") [] = txt "a\n" ∧
      fix_int_vs_double (fix_int_vs_double (txt "a\n\n") []) [] = txt "a" ∧
      txt "a\n" ≠ txt "a") ∧
    (stub_findall (txt "a\n\n") (some (txt "repo")) = txt "a\n" ∧
      stub_findall (stub_findall (txt "a\n\n") (some (txt "repo"))) (some (txt "repo")) =
        txt "a") ∧
    fixerPipeline factsBigDecimal (fixerPipeline factsBigDecimal artifactSpaced) ≠
      fixerPipeline factsBigDecimal artifactSpaced ∧
    fixerPipeline factsBigDecimal artifactSpaced = txt "o.setTotal(7.0);" ∧
    fixerPipeline factsBigDecimal (fixerPipeline factsBigDecimal artifactSpaced) =
      txt "o.setTotal(BigDecimal.valueOf(7.0));\nimport java.math.BigDecimal;" ∧
    clamp_totals (txt ".setTotal(100)") (some ⟨1000, 0⟩) = txt ".setTotal(100.0)" ∧
    (litValText (txt "100")).le ⟨1000, 0⟩ = true ∧
    txt ".setTotal(100.0)" ≠ txt ".setTotal(100)" := by
  refine ⟨⟨?_, ?_, ?_⟩, ⟨?_, ?_⟩, ?_, ?_, ?_, ?_, ?_, ?_⟩ <;> decide

/-- C6 (counterexample): with the discovered ceiling `C = 1.7` (from
`total > 1.7`), the monetary-setter literal `2 > C` survives the whole
pipeline: `clamp_any_literal` replaces it by `f"{1.7*0.9:.0f}" = "2"` and the
coercion merely turns it into `2.0`, still exceeding the ceiling. -/
theorem small_ceiling_not_clamped :
    factsSmallGuard.guardLimit = some ⟨17, 1⟩ ∧
    moneySetterLiterals artifactSmallGuard = [⟨2, 0⟩] ∧
    fixerPipeline factsSmallGuard artifactSmallGuard = txt "order.setAmount(2.0);" ∧
    moneySetterLiterals (fixerPipeline factsSmallGuard artifactSmallGuard) = [⟨20, 1⟩] ∧
    ¬ ((⟨20, 1⟩ : Dec).toRat ≤ (⟨17, 1⟩ : Dec).toRat) ∧
    (⟨17, 1⟩ : Dec).toRat < (⟨2, 0⟩ : Dec).toRat := by
  refine ⟨by decide, by decide, by decide, by decide, ?_, ?_⟩ <;>
    norm_num [Dec.toRat]

/-- The retry loop performs at most `fuel` iterations, and the attempt
indices of those iterations are exactly consecutive from the start index. -/
theorem processLoop_spec (e : Endpoint) (oracle : Nat → OracleOut)
    (validator : Text → Except PyErr VRes) :
    ∀ (fuel idx : Nat) (vr : Option VRes) (lc : Option Text),
      (processLoop e oracle validator fuel idx vr lc).attempts.length ≤ fuel ∧
      (processLoop e oracle validator fuel idx vr lc).attempts.map (fun a => a.idx) =
        List.range' idx (processLoop e oracle validator fuel idx vr lc).attempts.length := by
  intro fuel
  induction fuel with
  | zero => intro idx vr lc; simp [processLoop]
  | succ n ih =>
    intro idx vr lc
    cases ho : oracle idx with
    | raise =>
      by_cases hn : n = 0
      · subst hn; simp [processLoop, ho, List.range'_succ]
      · obtain ⟨ihl, ihm⟩ := ih (idx + 1) vr lc
        constructor
        · simp [processLoop, ho, hn]; omega
        · simp [processLoop, ho, hn, List.range'_succ, ihm]
    | ok t =>
      cases hv : validator (fix_common_issues t) with
      | error err =>
        by_cases hn : n = 0
        · subst hn; simp [processLoop, ho, hv, List.range'_succ]
        · obtain ⟨ihl, ihm⟩ := ih (idx + 1) vr (some (fix_common_issues t))
          constructor
          · simp [processLoop, ho, hv, hn]; omega
          · simp [processLoop, ho, hv, hn, List.range'_succ, ihm]
      | ok res =>
        by_cases hval : res.is_valid
        · simp [processLoop, ho, hv, hval, List.range'_succ]
        · obtain ⟨ihl, ihm⟩ := ih (idx + 1) (some res) (some (fix_common_issues t))
          constructor
          · simp [processLoop, ho, hv, hval]; omega
          · simp [processLoop, ho, hv, hval, List.range'_succ, ihm]

/-- C5: for every oracle and validator behaviour, `process_endpoint` makes at
most `max_retries` oracle calls (one per recorded attempt), and the attempt
indices are strictly increasing and bounded by `max_retries`. -/
theorem bounded_retries (oracle : Nat → OracleOut) (validator : Text → Except PyErr VRes)
    (e : Endpoint) :
    (process_endpoint oracle validator e).attempts.length ≤ max_retries ∧
    ((process_endpoint oracle validator e).attempts.map (fun a => a.idx) =
      List.range' 0 (process_endpoint oracle validator e).attempts.length) ∧
    List.Pairwise (· < ·) ((process_endpoint oracle validator e).attempts.map (fun a => a.idx)) ∧
    ∀ a ∈ (process_endpoint oracle validator e).attempts, a.idx < max_retries := by
  obtain ⟨hl, hm⟩ := processLoop_spec e oracle validator max_retries 0 none none
  simp only [process_endpoint]
  refine ⟨hl, hm, ?_, ?_⟩
  · rw [hm]; exact List.pairwise_lt_range' _ _
  · intro a ha
    have hmem : a.idx ∈ List.range' 0
        (processLoop e oracle validator max_retries 0 none none).attempts.length := by
      rw [← hm]; exact List.mem_map_of_mem (fun a => a.idx) ha
    have h2 := (List.mem_range'_1).mp hmem
    omega

/-- In a run whose oracle calls and validations all complete, the `k`-th loop
iteration's feedback is the initial feedback for `k = 0` and otherwise exactly
the newline-joined error list of the validation of the immediately preceding
iteration. -/
theorem processLoop_feedback (e : Endpoint) (ot : Nat → Text) (vres : Text → VRes) :
    ∀ (fuel idx : Nat) (vr : Option VRes) (lc : Option Text) (k : Nat) (a : AttemptRec),
      (processLoop e (fun k => OracleOut.ok (ot k)) (fun c => Except.ok (vres c))
          fuel idx vr lc).attempts[k]? = some a →
      a.feedback = (if k = 0 then vr.map (fun r => joinNl r.errors)
                    else some (joinNl (vres (fix_common_issues (ot (idx + k - 1)))).errors)) := by
  intro fuel
  induction fuel with
  | zero => intro idx vr lc k a h; simp [processLoop] at h
  | succ n ih =>
    intro idx vr lc k a h
    by_cases hval : (vres (fix_common_issues (ot idx))).is_valid
    · simp [processLoop, hval] at h
      cases k with
      | zero => simp at h; simp [← h]
      | succ m => exact absurd h (by simp)
    · simp [processLoop, hval] at h
      cases k with
      | zero => simp at h; simp [← h]
      | succ m =>
        simp only [List.getElem?_cons_succ] at h
        have hh := ih (idx + 1) (some (vres (fix_common_issues (ot idx))))
          (some (fix_common_issues (ot idx))) m a h
        cases m with
        | zero => simpa using hh
        | succ m2 =>
          have harith : idx + 1 + (m2 + 1) - 1 = idx + (m2 + 1 + 1) - 1 := by omega
          simp only [Nat.succ_ne_zero, if_false, harith] at hh ⊢
          exact hh

/-- C9: prompts embed retry feedback verbatim and most-recent-only.  The first
attempt's prompt carries no feedback section; a retry prompt embeds exactly
the newline-joined error list of the immediately preceding attempt's
validation (`previous_errors`), never an accumulation: in a run whose oracle
calls and validations all complete, the feedback of attempt `k + 1` is a
function of attempt `k`'s validation alone. -/
theorem feedback_previous_attempt_only (e : Endpoint) (ot : Nat → Text) (vres : Text → VRes) :
    (build_prompt e none = promptBase e ++ promptTail) ∧
    (∀ p : Text, p ≠ [] →
      build_prompt e (some p) =
        (promptBase e ++ promptFeedbackPre) ++ p ++ (promptFeedbackPost ++ promptTail)) ∧
    (∀ a : AttemptRec,
      (process_endpoint (fun k => OracleOut.ok (ot k))
        (fun c => Except.ok (vres c)) e).attempts[0]? = some a → a.feedback = none) ∧
    (∀ (k : Nat) (a : AttemptRec),
      (process_endpoint (fun k => OracleOut.ok (ot k))
        (fun c => Except.ok (vres c)) e).attempts[(k + 1)]? = some a →
      a.feedback = some (joinNl (vres (fix_common_issues (ot k))).errors)) := by
  refine ⟨by simp [build_prompt], ?_, ?_, ?_⟩
  · intro p hp
    have hne : p.isEmpty = false := by
      cases p with
      | nil => exact absurd rfl hp
      | cons c cs => rfl
    simp [build_prompt, hne, List.append_assoc]
  · intro a ha
    have h := processLoop_feedback e ot vres max_retries 0 none none 0 a ha
    simp only [if_pos] at h
    simpa using h
  · intro k a hk
    have h := processLoop_feedback e ot vres max_retries 0 none none (k + 1) a hk
    simp only [Nat.succ_ne_zero, if_false, Nat.zero_add, Nat.add_sub_cancel] at h
    exact h

/-!
## Toolkit: substrings and junctions

Lemmas relating the executable `containsSub` to `List.IsInfix`, and the
junction analysis of occurrences in concatenations, used by the general
idempotence and clamp-bound proofs below.
-/

/-- `containsSub` decides `List.IsInfix`. -/
theorem containsSub_iff_infix (s sub : Text) : containsSub s sub = true ↔ sub <:+: s := by
  unfold containsSub
  rw [List.any_eq_true]
  constructor
  · rintro ⟨i, _, hp⟩
    rcases List.isPrefixOf_iff_prefix.mp hp with ⟨t, ht⟩
    exact ⟨s.take i, t, by rw [List.append_assoc, ht, List.take_append_drop]⟩
  · rintro ⟨a, b, hab⟩
    subst hab
    refine ⟨a.length, ?_, List.isPrefixOf_iff_prefix.mpr ?_⟩
    · have : a.length ≤ (a ++ sub ++ b).length := by simp
      simp only [List.mem_range]
      omega
    · rw [List.append_assoc, List.drop_left]
      exact ⟨b, rfl⟩

/-- Negative form. -/
theorem containsSub_eq_false_iff (s sub : Text) :
    containsSub s sub = false ↔ ¬ sub <:+: s := by
  rw [← containsSub_iff_infix]
  cases containsSub s sub <;> simp

/-- A prefix of a concatenation is a prefix of the first part or extends it. -/
theorem prefix_append_cases {w a b : Text} (h : w <+: a ++ b) :
    w <+: a ∨ (a <+: w ∧ w.drop a.length <+: b) := by
  rcases h with ⟨t, ht⟩
  rcases le_or_lt w.length a.length with hle | hlt
  · left
    have h1 : (w ++ t).take w.length = w := List.take_left w t
    rw [ht, List.take_append_of_le_length hle] at h1
    rw [← h1]
    exact List.take_prefix _ _
  · right
    have h1 : (w ++ t).take a.length = w.take a.length :=
      List.take_append_of_le_length (Nat.le_of_lt hlt)
    rw [ht, List.take_left a b] at h1
    constructor
    · rw [h1]; exact List.take_prefix _ _
    · refine ⟨t, ?_⟩
      have h2 : (w ++ t).drop a.length = w.drop a.length ++ t :=
        List.drop_append_of_le_length (Nat.le_of_lt hlt)
      rw [ht, List.drop_left a b] at h2
      exact h2.symm

/-- Infixes are prefixes of some suffix-by-drop. -/
theorem infix_iff_prefix_drop {t s : Text} : t <:+: s ↔ ∃ i, t <+: s.drop i := by
  constructor
  · rintro ⟨u, v, huv⟩
    refine ⟨u.length, v, ?_⟩
    have : (u ++ (t ++ v)).drop u.length = t ++ v := List.drop_left u (t ++ v)
    rw [List.append_assoc] at huv
    rw [huv] at this
    exact this.symm
  · rintro ⟨i, u, hu⟩
    refine ⟨s.take i, u, ?_⟩
    rw [List.append_assoc, hu, List.take_append_drop]

/-- An infix of a concatenation lies in one part or splits across the
junction. -/
theorem infix_append_split {w a b : Text} (h : w <:+: a ++ b) :
    w <:+: a ∨ w <:+: b ∨
      ∃ k, 0 < k ∧ k < w.length ∧ w.take k <:+ a ∧ w.drop k <+: b := by
  rcases infix_iff_prefix_drop.mp h with ⟨i, hp⟩
  rcases le_or_lt i a.length with hi | hi
  · rw [List.drop_append_of_le_length hi] at hp
    rcases prefix_append_cases hp with h1 | ⟨h1, h2⟩
    · exact Or.inl (infix_iff_prefix_drop.mpr ⟨i, h1⟩)
    · have hkw : (a.drop i).length ≤ w.length := h1.length_le
      rcases Nat.eq_zero_or_pos (a.drop i).length with hk0 | hkpos
      · rw [hk0, List.drop_zero] at h2
        exact Or.inr (Or.inl h2.isInfix)
      · rcases Nat.lt_or_ge (a.drop i).length w.length with hke | hke
        · refine Or.inr (Or.inr ⟨(a.drop i).length, hkpos, hke, ?_, h2⟩)
          have htk : w.take (a.drop i).length = a.drop i := by
            rcases h1 with ⟨z, hz⟩
            rw [← hz, List.take_left' rfl]
          rw [htk]
          exact List.drop_suffix i a
        · have heq : a.drop i = w :=
            h1.eq_of_length (Nat.le_antisymm hkw hke)
          refine Or.inl ?_
          rw [← heq]
          exact (List.drop_suffix i a).isInfix
  · have hb : (a ++ b).drop i = b.drop (i - a.length) := by
      rw [List.drop_append_eq_append_drop]
      have hnil : a.drop i = [] := List.drop_eq_nil_of_le (Nat.le_of_lt hi)
      rw [hnil, List.nil_append]
    rw [hb] at hp
    exact Or.inr (Or.inl (infix_iff_prefix_drop.mpr ⟨i - a.length, hp⟩))

/-- The head of a nonempty prefix agrees with the head of the whole. -/
theorem head?_of_prefix {u v : Text} (h : u <+: v) (hu : u ≠ []) : u.head? = v.head? := by
  rcases h with ⟨t, ht⟩
  rw [← ht]
  cases u with
  | nil => exact absurd rfl hu
  | cons c cs => rfl

/-!
## Toolkit: `str.replace`

`fix_validation_imports` and half of `fix_common_issues` are plain
`str.replace` calls.  For a replacement pair where no suffix/prefix of the
pattern can recombine with the replacement or with untouched text, the output
contains no occurrence of the pattern, so the call is idempotent.  The
recombination-freeness conditions are decidable and checked by `decide` at
the concrete pairs used in the scripts. -/

/-- Executable recombination-freeness check for a `str.replace` pair. -/
def replacePairOk (old new : Text) : Bool :=
  !old.isEmpty && !containsSub new old && !new.isPrefixOf old &&
  ((List.range old.length).all (fun k =>
    k == 0 ||
    (!(old.drop k).isPrefixOf new && !new.isPrefixOf (old.drop k) &&
     !(old.take k).isSuffixOf new)))

/-- The recombination-freeness conditions, in propositional form. -/
structure ReplacePairSafe (old new : Text) : Prop where
  old_ne : old ≠ []
  not_in_new : ¬ old <:+: new
  new_not_pre : ¬ new <+: old
  drop_not_pre : ∀ k, 0 < k → k < old.length → ¬ old.drop k <+: new
  new_not_pre_drop : ∀ k, 0 < k → k < old.length → ¬ new <+: old.drop k
  take_not_suf : ∀ k, 0 < k → k < old.length → ¬ old.take k <:+ new

/-- `replacePairOk` establishes `ReplacePairSafe`. -/
theorem replacePairOk_spec {old new : Text} (h : replacePairOk old new = true) :
    ReplacePairSafe old new := by
  unfold replacePairOk at h
  simp only [Bool.and_eq_true, List.all_eq_true, Bool.or_eq_true, Bool.not_eq_true',
    beq_iff_eq] at h
  obtain ⟨⟨⟨hne, hnin⟩, hnp⟩, hall⟩ := h
  refine ⟨?_, ?_, ?_, ?_, ?_, ?_⟩
  · intro he; rw [he] at hne; simp at hne
  · intro hi
    rw [← containsSub_iff_infix] at hi
    rw [hnin] at hi
    exact Bool.false_ne_true hi
  · intro hp
    rw [← List.isPrefixOf_iff_prefix] at hp
    rw [hnp] at hp
    exact Bool.false_ne_true hp
  · intro k hk0 hkl hp
    have := hall k (List.mem_range.mpr hkl)
    rcases this with h0 | ⟨⟨h1, _⟩, _⟩
    · omega
    · rw [← List.isPrefixOf_iff_prefix] at hp
      rw [h1] at hp
      exact Bool.false_ne_true hp
  · intro k hk0 hkl hp
    have := hall k (List.mem_range.mpr hkl)
    rcases this with h0 | ⟨⟨_, h2⟩, _⟩
    · omega
    · rw [← List.isPrefixOf_iff_prefix] at hp
      rw [h2] at hp
      exact Bool.false_ne_true hp
  · intro k hk0 hkl hs
    have := hall k (List.mem_range.mpr hkl)
    rcases this with h0 | ⟨_, h3⟩
    · omega
    · rw [← List.isSuffixOf_iff_suffix] at hs
      rw [h3] at hs
      exact Bool.false_ne_true hs

/-- `pyReplaceF` on the empty text. -/
theorem pyReplaceF_nil (old new : Text) (fuel : Nat) : pyReplaceF old new fuel [] = [] := by
  cases fuel <;> rfl

/-- A proper suffix of the pattern prefixing the output already prefixed the
input. -/
theorem pyReplaceF_suffix_transfer {old new : Text} (S : ReplacePairSafe old new) :
    ∀ fuel s k, 0 < k → k ≤ old.length →
      old.drop k <+: pyReplaceF old new fuel s → old.drop k <+: s := by
  intro fuel
  induction fuel with
  | zero => intro s k _ _ h; simpa [pyReplaceF] using h
  | succ f ih =>
    intro s k hk0 hkle h
    rcases Nat.eq_or_lt_of_le hkle with hke | hklt
    · have hnil : old.drop k = [] := by rw [hke]; exact List.drop_length old
      rw [hnil]
      exact List.nil_prefix
    · cases s with
      | nil => simpa [pyReplaceF] using h
      | cons c cs =>
        simp only [pyReplaceF] at h
        by_cases hm : old.isPrefixOf (c :: cs)
        · rw [if_pos hm] at h
          rcases prefix_append_cases h with h1 | ⟨h1, _⟩
          · exact absurd h1 (S.drop_not_pre k hk0 hklt)
          · exact absurd h1 (S.new_not_pre_drop k hk0 hklt)
        · rw [if_neg hm] at h
          have hdk : old.drop k = old[k] :: old.drop (k + 1) :=
            List.drop_eq_getElem_cons hklt
          rw [hdk] at h ⊢
          obtain ⟨hc, htail⟩ := List.cons_prefix_cons.mp h
          exact List.cons_prefix_cons.mpr ⟨hc, ih cs (k + 1) (by omega) (by omega) htail⟩

/-- The pattern never prefixes the output. -/
theorem pyReplaceF_headfree {old new : Text} (S : ReplacePairSafe old new) :
    ∀ fuel s, s.length ≤ fuel → ¬ old <+: pyReplaceF old new fuel s := by
  intro fuel
  induction fuel with
  | zero =>
    intro s hl h
    have hs : s = [] := List.length_eq_zero.mp (Nat.le_zero.mp hl)
    rw [hs] at h
    simp only [pyReplaceF] at h
    exact S.old_ne (List.prefix_nil.mp h)
  | succ f ih =>
    intro s hl h
    cases s with
    | nil =>
      rw [pyReplaceF_nil] at h
      exact S.old_ne (List.prefix_nil.mp h)
    | cons c cs =>
      simp only [pyReplaceF] at h
      by_cases hm : old.isPrefixOf (c :: cs)
      · rw [if_pos hm] at h
        rcases prefix_append_cases h with h1 | ⟨h1, _⟩
        · exact S.not_in_new h1.isInfix
        · exact S.new_not_pre h1
      · rw [if_neg hm] at h
        obtain ⟨o0, otail, ho⟩ : ∃ o0 otail, old = o0 :: otail := by
          cases old with
          | nil => exact absurd rfl S.old_ne
          | cons x xs => exact ⟨x, xs, rfl⟩
        rw [ho] at h
        obtain ⟨hc, htail⟩ := List.cons_prefix_cons.mp h
        have h1 : old.drop 1 <+: cs := by
          apply pyReplaceF_suffix_transfer S f cs 1 (by omega)
            (by rw [ho]; simp)
          rw [ho]
          exact htail
        apply hm
        rw [List.isPrefixOf_iff_prefix, ho]
        refine List.cons_prefix_cons.mpr ⟨hc, ?_⟩
        rw [ho] at h1
        simpa using h1

/-- The output of a safe `str.replace` contains no occurrence of the
pattern. -/
theorem pyReplaceF_no_occ {old new : Text} (S : ReplacePairSafe old new) :
    ∀ fuel s, s.length ≤ fuel → ¬ old <:+: pyReplaceF old new fuel s := by
  intro fuel
  induction fuel with
  | zero =>
    intro s hl h
    have hs : s = [] := List.length_eq_zero.mp (Nat.le_zero.mp hl)
    rw [hs] at h
    simp only [pyReplaceF] at h
    have := h.length_le
    simp at this
    exact S.old_ne this
  | succ f ih =>
    intro s hl h
    cases s with
    | nil =>
      rw [pyReplaceF_nil] at h
      have := h.length_le
      simp at this
      exact S.old_ne this
    | cons c cs =>
      by_cases hm : old.isPrefixOf (c :: cs)
      · have hout : pyReplaceF old new (f + 1) (c :: cs) =
            new ++ pyReplaceF old new f ((c :: cs).drop old.length) := by
          simp only [pyReplaceF, if_pos hm]
        rw [hout] at h
        have hrl : ((c :: cs).drop old.length).length ≤ f := by
          have hol : 0 < old.length := by
            cases old with
            | nil => exact absurd rfl S.old_ne
            | cons x xs => simp
          simp only [List.length_drop, List.length_cons]
          simp only [List.length_cons] at hl
          omega
        rcases infix_append_split h with h1 | h1 | ⟨k, hk0, hkw, htak, hdrp⟩
        · exact S.not_in_new h1
        · exact ih _ hrl h1
        · exact S.take_not_suf k hk0 hkw htak
      · have hout : pyReplaceF old new (f + 1) (c :: cs) =
            c :: pyReplaceF old new f cs := by
          simp only [pyReplaceF, if_neg hm]
        rw [hout] at h
        rcases infix_iff_prefix_drop.mp h with ⟨i, hp⟩
        cases i with
        | zero =>
          rw [List.drop_zero, ← hout] at hp
          exact pyReplaceF_headfree S (f + 1) (c :: cs) hl hp
        | succ j =>
          have : (c :: pyReplaceF old new f cs).drop (j + 1) =
              (pyReplaceF old new f cs).drop j := rfl
          rw [this] at hp
          have hcs : cs.length ≤ f := by
            simp only [List.length_cons] at hl
            omega
          exact ih cs hcs (infix_iff_prefix_drop.mpr ⟨j, hp⟩)

/-- `str.replace` is the identity when the pattern does not occur. -/
theorem pyReplaceF_id_of_no_occ {old new s : Text} (h : ¬ old <:+: s) :
    ∀ fuel, pyReplaceF old new fuel s = s := by
  induction s with
  | nil => intro fuel; exact pyReplaceF_nil old new fuel
  | cons c cs ih =>
    intro fuel
    cases fuel with
    | zero => rfl
    | succ f =>
      have hm : ¬ old.isPrefixOf (c :: cs) := by
        intro hp
        exact h (List.isPrefixOf_iff_prefix.mp hp).isInfix
      simp only [pyReplaceF, if_neg hm]
      have hcs : ¬ old <:+: cs := fun hj => h (List.infix_cons hj)
      rw [ih hcs f]

/-- A safe `str.replace` is idempotent. -/
theorem pyReplace_idem {old new : Text} (S : ReplacePairSafe old new) (s : Text) :
    pyReplace (pyReplace s old new) old new = pyReplace s old new :=
  pyReplaceF_id_of_no_occ (pyReplaceF_no_occ S s.length s (Nat.le_refl _)) _

/-- `fix_validation_imports` is idempotent on every input. -/
theorem fix_validation_imports_idem_general (x : Text) :
    fix_validation_imports (fix_validation_imports x) = fix_validation_imports x :=
  pyReplace_idem (replacePairOk_spec (by decide)) x

/-- Membership in a `str.replace` output comes from the input or the
replacement. -/
theorem mem_pyReplaceF {old new : Text} {c : Char} :
    ∀ fuel s, c ∈ pyReplaceF old new fuel s → c ∈ s ∨ c ∈ new := by
  intro fuel
  induction fuel with
  | zero => intro s h; exact Or.inl h
  | succ f ih =>
    intro s h
    cases s with
    | nil => rw [pyReplaceF_nil] at h; exact absurd h (List.not_mem_nil c)
    | cons a cs =>
      simp only [pyReplaceF] at h
      by_cases hm : old.isPrefixOf (a :: cs)
      · rw [if_pos hm] at h
        rcases List.mem_append.mp h with h1 | h1
        · exact Or.inr h1
        · rcases ih _ h1 with h2 | h2
          · exact Or.inl (List.mem_of_mem_drop h2)
          · exact Or.inr h2
      · rw [if_neg hm] at h
        rcases List.mem_cons.mp h with h1 | h1
        · exact Or.inl (h1 ▸ List.mem_cons_self a cs)
        · rcases ih _ h1 with h2 | h2
          · exact Or.inl (List.mem_cons_of_mem a h2)
          · exact Or.inr h2

/-- A suffix is the drop at its length deficit. -/
theorem suffix_eq_drop {u v : Text} (h : u <:+ v) : u = v.drop (v.length - u.length) := by
  rcases h with ⟨t, ht⟩
  rw [← ht]
  have : (t ++ u).length - u.length = t.length := by simp
  rw [this, List.drop_left]

/-- `pyReplaceF` is fuel-irrelevant above the text length. -/
theorem pyReplaceF_fuel_eq {old new : Text} (h0 : old ≠ []) :
    ∀ f1 f2 s, s.length ≤ f1 → s.length ≤ f2 →
      pyReplaceF old new f1 s = pyReplaceF old new f2 s := by
  intro f1
  induction f1 with
  | zero =>
    intro f2 s h1 _
    have hs : s = [] := List.length_eq_zero.mp (Nat.le_zero.mp h1)
    subst hs
    rw [pyReplaceF_nil, pyReplaceF_nil]
  | succ a ih =>
    intro f2 s h1 h2
    cases s with
    | nil => rw [pyReplaceF_nil, pyReplaceF_nil]
    | cons c cs =>
      cases f2 with
      | zero => simp at h2
      | succ b =>
        simp only [pyReplaceF]
        have hol : 0 < old.length := List.length_pos.mpr h0
        simp only [List.length_cons] at h1 h2
        by_cases hm : old.isPrefixOf (c :: cs)
        · rw [if_pos hm, if_pos hm]
          rw [ih b ((c :: cs).drop old.length) (by simp; omega) (by simp; omega)]
        · rw [if_neg hm, if_neg hm]
          rw [ih b cs (by omega) (by omega)]

/-- First-occurrence decomposition of `str.replace`: either the pattern never
occurs and the call is the identity, or the text splits at the leftmost
occurrence and the output recurses after it. -/
theorem pyReplaceF_decomp (old new : Text) (h0 : old ≠ []) :
    ∀ s, (pyReplaceF old new s.length s = s ∧ ¬ old <:+: s) ∨
    ∃ A rest, s = A ++ old ++ rest ∧
      (∀ j, j < A.length → ¬ old <+: s.drop j) ∧
      pyReplaceF old new s.length s = A ++ new ++ pyReplaceF old new rest.length rest := by
  intro s
  induction s with
  | nil =>
    left
    refine ⟨rfl, fun h => ?_⟩
    have := h.length_le
    simp at this
    exact h0 this
  | cons c cs ih =>
    by_cases hm : old.isPrefixOf (c :: cs)
    · right
      rcases List.isPrefixOf_iff_prefix.mp hm with ⟨rest, hrest⟩
      refine ⟨[], rest, by simpa using hrest.symm, by simp, ?_⟩
      have hfuel : pyReplaceF old new (c :: cs).length (c :: cs) =
          new ++ pyReplaceF old new cs.length ((c :: cs).drop old.length) := by
        simp only [List.length_cons, pyReplaceF, if_pos hm]
      rw [hfuel]
      have hrl : (c :: cs).drop old.length = rest := by
        rw [← hrest, List.drop_left]
      rw [hrl]
      have hlen : rest.length ≤ cs.length := by
        have := congrArg List.length hrest
        simp at this
        have hol : 0 < old.length := List.length_pos.mpr h0
        omega
      simp only [List.nil_append]
      congr 1
      exact (pyReplaceF_fuel_eq h0 cs.length rest.length rest hlen (Nat.le_refl _))
    · have hstep : pyReplaceF old new (c :: cs).length (c :: cs) =
          c :: pyReplaceF old new cs.length cs := by
        simp only [List.length_cons, pyReplaceF, if_neg hm]
      rcases ih with ⟨hid, hno⟩ | ⟨A, rest, hsplit, hscan, hout⟩
      · left
        constructor
        · rw [hstep, hid]
        · intro h
          rcases infix_iff_prefix_drop.mp h with ⟨i, hp⟩
          cases i with
          | zero =>
            rw [List.drop_zero] at hp
            exact hm (List.isPrefixOf_iff_prefix.mpr hp)
          | succ j =>
            exact hno (infix_iff_prefix_drop.mpr ⟨j, hp⟩)
      · right
        refine ⟨c :: A, rest, by simpa using hsplit, ?_, ?_⟩
        · intro j hj
          cases j with
          | zero =>
            rw [List.drop_zero]
            exact fun hp => hm (List.isPrefixOf_iff_prefix.mpr hp)
          | succ i =>
            have : (c :: cs).drop (i + 1) = cs.drop i := rfl
            rw [this]
            exact hscan i (by simpa using hj)
        · rw [hstep, hout]
          simp

/-- The character right before the scan position `i`: the external lookbehind
at the start, the previous character of the text afterwards. -/
def prevAt (prev : Option Char) (s : Text) : Nat → Option Char
  | 0 => prev
  | j + 1 => s.get? j

/-- `substF` is fuel-irrelevant above the text length. -/
theorem substF_fuel_eq (step : Step Text) :
    ∀ f1 f2 prev s, s.length ≤ f1 → s.length ≤ f2 →
      substF step f1 prev s = substF step f2 prev s := by
  intro f1
  induction f1 with
  | zero =>
    intro f2 prev s h1 _
    have hs : s = [] := List.length_eq_zero.mp (Nat.le_zero.mp h1)
    subst hs
    cases f2 <;> rfl
  | succ a ih =>
    intro f2 prev s h1 h2
    cases s with
    | nil => cases f2 <;> rfl
    | cons c cs =>
      cases f2 with
      | zero => simp at h2
      | succ b =>
        cases hstep : step prev (c :: cs) with
        | none =>
          simp only [substF, hstep]
          simp only [List.length_cons] at h1 h2
          rw [ih b (some c) cs (by omega) (by omega)]
        | some p =>
          rcases p with ⟨r, n⟩
          simp only [substF, hstep]
          simp only [List.length_cons] at h1 h2
          rw [ih b ((c :: cs).get? n) (cs.drop n) (by simp; omega) (by simp; omega)]

/-- Stepping the lookbehind over a cons. -/
theorem prevAt_cons (prev : Option Char) (c : Char) (cs : Text) (j : Nat) :
    prevAt (some c) cs j = prevAt prev (c :: cs) (j + 1) := by
  cases j <;> rfl

/-- The lookbehind of a dropped suffix, in terms of the original text. -/
theorem prevAt_drop (prev : Option Char) (s : Text) (m i : Nat) (hm : 0 < m) :
    prevAt (s.get? (m - 1)) (s.drop m) i = prevAt prev s (m + i) := by
  cases i with
  | zero =>
    obtain ⟨k, rfl⟩ : ∃ k, m = k + 1 := ⟨m - 1, by omega⟩
    simp [prevAt]
  | succ j =>
    show (s.drop m).get? j = prevAt prev s (m + (j + 1))
    have h1 : m + (j + 1) = (m + j) + 1 := by omega
    rw [h1]
    show (s.drop m).get? j = s.get? (m + j)
    exact List.get?_drop s m j

/-- First-match decomposition of the `re.sub` scanner: either no position
matches and the scan is the identity, or the text splits at the leftmost
match and the output recurses right after the consumed characters. -/
theorem substF_decomp (step : Step Text) :
    ∀ s prev, (substF step s.length prev s = s ∧
      ∀ j, j < s.length → step (prevAt prev s j) (s.drop j) = none) ∨
    ∃ A r n, A.length < s.length ∧ s.take A.length = A ∧
      (∀ j, j < A.length → step (prevAt prev s j) (s.drop j) = none) ∧
      step (prevAt prev s A.length) (s.drop A.length) = some (r, n) ∧
      substF step s.length prev s =
        A ++ r ++ substF step (s.drop (A.length + n + 1)).length
          (s.get? (A.length + n)) (s.drop (A.length + n + 1)) := by
  intro s
  induction s with
  | nil =>
    intro prev
    left
    exact ⟨rfl, fun j hj => absurd hj (by simp)⟩
  | cons c cs ih =>
    intro prev
    cases hstep : step prev (c :: cs) with
    | some p =>
      rcases p with ⟨r, n⟩
      right
      refine ⟨[], r, n, by simp, by simp, fun j hj => absurd hj (by simp), ?_, ?_⟩
      · simpa [prevAt] using hstep
      · simp only [List.length_cons, substF, hstep, List.length_nil, List.nil_append]
        have hd : (c :: cs).drop (0 + n + 1) = cs.drop n := by
          have : 0 + n + 1 = n + 1 := by omega
          rw [this]
          rfl
        have hg : (c :: cs).get? (0 + n) = (c :: cs).get? n := by
          have : 0 + n = n := by omega
          rw [this]
        rw [hd, hg]
        congr 1
        exact substF_fuel_eq step cs.length (cs.drop n).length ((c :: cs).get? n)
          (cs.drop n) (by simp) (Nat.le_refl _)
    | none =>
      rcases ih (some c) with ⟨hid, hscan⟩ | ⟨A, r, n, hAl, hAtake, hscan, hstep', hout⟩
      · left
        constructor
        · simp only [List.length_cons, substF, hstep]
          rw [hid]
        · intro j hj
          cases j with
          | zero => simpa [prevAt] using hstep
          | succ i =>
            rw [← prevAt_cons prev c cs i]
            exact hscan i (by simpa using hj)
      · right
        refine ⟨c :: A, r, n, by simpa using hAl, ?_, ?_, ?_, ?_⟩
        · simpa using hAtake
        · intro j hj
          cases j with
          | zero => simpa [prevAt] using hstep
          | succ i =>
            rw [← prevAt_cons prev c cs i]
            exact hscan i (by simpa using hj)
        · have h1 : (c :: A).length = A.length + 1 := by simp
          rw [h1, ← prevAt_cons prev c cs A.length]
          exact hstep'
        · simp only [List.length_cons, substF, hstep]
          rw [hout]
          have h2 : A.length + 1 + n + 1 = A.length + n + 1 + 1 := by omega
          have h3 : A.length + 1 + n = A.length + n + 1 := by omega
          rw [h2, h3]
          simp

/-- Position-wise self-stability of a substitution step along a text: every
match's replacement equals the consumed characters. -/
def stepStable (step : Step Text) (prev : Option Char) (y : Text) : Prop :=
  ∀ i r n, step (prevAt prev y i) (y.drop i) = some (r, n) → r = (y.drop i).take (n + 1)

/-- Self-stability is inherited by dropped suffixes (with the induced
lookbehind). -/
theorem stepStable_drop {step : Step Text} {prev : Option Char} {y : Text}
    (H : stepStable step prev y) (m : Nat) (hm : 0 < m) :
    stepStable step (y.get? (m - 1)) (y.drop m) := by
  intro i r n h
  rw [prevAt_drop prev y m i hm] at h
  have hd : (y.drop m).drop i = y.drop (m + i) := by
    rw [List.drop_drop]
  rw [hd] at h
  have := H (m + i) r n h
  rw [this, hd]

/-- A self-stable scan is the identity. -/
theorem substF_fix (step : Step Text) :
    ∀ N y prev, y.length ≤ N → stepStable step prev y →
      substF step y.length prev y = y := by
  intro N
  induction N with
  | zero =>
    intro y prev hl _
    have : y = [] := List.length_eq_zero.mp (Nat.le_zero.mp hl)
    subst this
    rfl
  | succ N ih =>
    intro y prev hl H
    rcases substF_decomp step y prev with ⟨hid, _⟩ | ⟨A, r, n, hAl, hAtake, _, hstep, hout⟩
    · exact hid
    · rw [hout]
      have hr : r = (y.drop A.length).take (n + 1) := H A.length r n hstep
      have hrec : substF step (y.drop (A.length + n + 1)).length
          (y.get? (A.length + n)) (y.drop (A.length + n + 1)) =
          y.drop (A.length + n + 1) := by
        have hs := stepStable_drop H (A.length + n + 1) (by omega)
        have hg : A.length + n + 1 - 1 = A.length + n := by omega
        rw [hg] at hs
        exact ih (y.drop (A.length + n + 1)) (y.get? (A.length + n))
          (by simp; omega) hs
      rw [hrec, hr]
      have h1 : (y.drop A.length).drop (n + 1) = y.drop (A.length + n + 1) := by
        rw [List.drop_drop, Nat.add_assoc]
      calc A ++ (y.drop A.length).take (n + 1) ++ y.drop (A.length + n + 1)
          = A ++ ((y.drop A.length).take (n + 1) ++ (y.drop A.length).drop (n + 1)) := by
            rw [h1, List.append_assoc]
        _ = A ++ y.drop A.length := by rw [List.take_append_drop]
        _ = y := by
            conv_rhs => rw [← List.take_append_drop A.length y]
            rw [hAtake]

/-- `re.sub` is the identity on a self-stable text. -/
theorem pySub_fix {step : Step Text} {y : Text} (H : stepStable step none y) :
    pySub step y = y :=
  substF_fix step y.length y none (Nat.le_refl _) H

/-!
## Toolkit: shapes of the numeric-literal pattern

`\d+(?:\.\d+)?` matches exactly the texts accepted by `litShape`; the greedy
parse `numLit?` is characterised by soundness and completeness lemmas. -/

/-- The texts matched by `\d+(?:\.\d+)?`. -/
def litShape (lit : Text) : Bool :=
  let ip := lit.takeWhile digitChar
  let r := lit.dropWhile digitChar
  !ip.isEmpty &&
    (r.isEmpty || (r.head? == some '.' && !(r.drop 1).isEmpty && (r.drop 1).all digitChar))

/-- `takeWhile` over an append whose first part satisfies the predicate. -/
theorem takeWhile_append_all {p : Char → Bool} {l1 : Text} (l2 : Text)
    (h : ∀ a ∈ l1, p a = true) :
    (l1 ++ l2).takeWhile p = l1 ++ l2.takeWhile p := by
  induction l1 with
  | nil => simp
  | cons c cs ih =>
    have hc : p c = true := h c (List.mem_cons_self c cs)
    simp only [List.cons_append, List.takeWhile_cons, hc, if_true]
    rw [ih (fun a ha => h a (List.mem_cons_of_mem c ha))]

/-- `dropWhile` over an append whose first part satisfies the predicate. -/
theorem dropWhile_append_all {p : Char → Bool} {l1 : Text} (l2 : Text)
    (h : ∀ a ∈ l1, p a = true) :
    (l1 ++ l2).dropWhile p = l2.dropWhile p := by
  induction l1 with
  | nil => simp
  | cons c cs ih =>
    have hc : p c = true := h c (List.mem_cons_self c cs)
    simp only [List.cons_append, List.dropWhile_cons, hc, if_true]
    exact ih (fun a ha => h a (List.mem_cons_of_mem c ha))

/-- An all-digit nonempty run is a literal shape. -/
theorem litShape_int {ds : Text} (hne : ds ≠ []) (hall : ∀ a ∈ ds, digitChar a = true) :
    litShape ds = true := by
  unfold litShape
  have ht : ds.takeWhile digitChar = ds := List.takeWhile_eq_self_iff.mpr hall
  have hd : ds.dropWhile digitChar = [] := List.dropWhile_eq_nil_iff.mpr hall
  simp [ht, hd, hne]

/-- A digits-dot-digits text is a literal shape. -/
theorem litShape_frac {ds fs : Text} (hdne : ds ≠ []) (hfne : fs ≠ [])
    (hds : ∀ a ∈ ds, digitChar a = true) (hfs : ∀ a ∈ fs, digitChar a = true) :
    litShape (ds ++ '.' :: fs) = true := by
  unfold litShape
  have hdot : digitChar '.' = false := by decide
  have ht : (ds ++ '.' :: fs).takeWhile digitChar = ds := by
    rw [takeWhile_append_all _ hds, List.takeWhile_cons_of_neg (by simp [hdot])]
    simp
  have hd : (ds ++ '.' :: fs).dropWhile digitChar = '.' :: fs := by
    rw [dropWhile_append_all _ hds, List.dropWhile_cons_of_neg (by simp [hdot])]
  simp only [ht, hd]
  simp [hdne, hfne, List.all_eq_true.mpr hfs]

/-- Destructor for literal shapes. -/
theorem litShape_elim {lit : Text} (h : litShape lit = true) :
    (lit ≠ [] ∧ ∀ a ∈ lit, digitChar a = true) ∨
    ∃ ds fs, lit = ds ++ '.' :: fs ∧ ds ≠ [] ∧ fs ≠ [] ∧
      (∀ a ∈ ds, digitChar a = true) ∧ ∀ a ∈ fs, digitChar a = true := by
  unfold litShape at h
  simp only [Bool.and_eq_true, Bool.or_eq_true, Bool.not_eq_true'] at h
  obtain ⟨hip, hrest⟩ := h
  have hsplit : lit.takeWhile digitChar ++ lit.dropWhile digitChar = lit :=
    List.takeWhile_append_dropWhile digitChar lit
  rcases hrest with hre | hre
  · left
    have hnil : lit.dropWhile digitChar = [] := by
      simpa [List.isEmpty_iff] using hre
    rw [hnil, List.append_nil] at hsplit
    constructor
    · intro he
      subst he
      simp at hip
    · intro a ha
      rw [← hsplit] at ha
      exact List.mem_takeWhile_imp ha
  · right
    obtain ⟨⟨hh, hne⟩, hall⟩ := hre
    obtain ⟨d0, dr, hdr⟩ : ∃ d0 dr, lit.dropWhile digitChar = d0 :: dr := by
      cases hd : lit.dropWhile digitChar with
      | nil => rw [hd] at hh; simp at hh
      | cons a b => exact ⟨a, b, rfl⟩
    have hd0 : d0 = '.' := by
      rw [hdr] at hh
      simpa using hh
    refine ⟨lit.takeWhile digitChar, dr, ?_, ?_, ?_, ?_, ?_⟩
    · conv_lhs => rw [← hsplit]
      rw [hdr, hd0]
    · intro he
      rw [he] at hip
      simp at hip
    · intro he
      rw [hdr, he] at hne
      simp at hne
    · intro a ha
      exact List.mem_takeWhile_imp ha
    · intro a ha
      rw [hdr] at hall
      simp only [List.drop_succ_cons, List.drop_zero] at hall
      exact List.all_eq_true.mp hall a ha

/-- Head condition: empty, or a head failing `p`. -/
def headNot (p : Char → Bool) (r : Text) : Prop :=
  match r with
  | [] => True
  | c :: _ => p c = false

/-- `takeWhile` of a `headNot` text is empty. -/
theorem takeWhile_eq_nil_of_headNot {p : Char → Bool} {r : Text} (h : headNot p r) :
    r.takeWhile p = [] := by
  cases r with
  | nil => rfl
  | cons c cs => exact List.takeWhile_cons_of_neg (by simpa [headNot] using h)

/-- `dropWhile` of a `headNot` text is itself. -/
theorem dropWhile_eq_self_of_headNot {p : Char → Bool} {r : Text} (h : headNot p r) :
    r.dropWhile p = r := by
  cases r with
  | nil => rfl
  | cons c cs => exact List.dropWhile_cons_of_neg (by simpa [headNot] using h)

/-- The head of a `dropWhile` fails the predicate. -/
theorem headNot_dropWhile (p : Char → Bool) (l : Text) : headNot p (l.dropWhile p) := by
  cases hd : l.dropWhile p with
  | nil => trivial
  | cons c cs =>
    have := List.head?_dropWhile_not p l
    rw [hd] at this
    simpa [headNot] using this

/-- `span1` fires exactly on a maximal nonempty run. -/
theorem span1_append {p : Char → Bool} {a : Text} (b : Text) (ha : a ≠ [])
    (hall : ∀ c ∈ a, p c = true) (hb : headNot p b) :
    span1 p (a ++ b) = some (a, b) := by
  unfold span1
  rw [takeWhile_append_all b hall, takeWhile_eq_nil_of_headNot hb, List.append_nil]
  rw [List.dropWhile_append]
  have h1 : a.dropWhile p = [] := List.dropWhile_eq_nil_iff.mpr hall
  rw [h1]
  simp [ha, dropWhile_eq_self_of_headNot hb]

/-- Soundness of `span1`. -/
theorem span1_sound {p : Char → Bool} {s a b : Text} (h : span1 p s = some (a, b)) :
    s = a ++ b ∧ a ≠ [] ∧ (∀ c ∈ a, p c = true) ∧ headNot p b := by
  unfold span1 at h
  by_cases he : (s.takeWhile p).isEmpty
  · rw [if_pos he] at h; exact absurd h (by simp)
  · rw [if_neg he] at h
    have hinj := Option.some.inj h
    have ha : s.takeWhile p = a := congrArg Prod.fst hinj
    have hb : s.dropWhile p = b := congrArg Prod.snd hinj
    subst ha hb
    refine ⟨(List.takeWhile_append_dropWhile p s).symm, ?_, ?_, headNot_dropWhile p s⟩
    · intro hn; rw [hn] at he; simp at he
    · intro c hc; exact List.mem_takeWhile_imp hc

/-- Head condition for resuming after a greedy numeric literal. -/
def headNotDigitDot (r : Text) : Prop :=
  match r with
  | [] => True
  | c :: _ => digitChar c = false ∧ c ≠ '.'

/-- Completeness of the greedy numeric-literal parse. -/
theorem numLit?_complete {lit : Text} (r : Text) (hsh : litShape lit = true)
    (hr : headNotDigitDot r) : numLit? (lit ++ r) = some (lit, r) := by
  have hrd : headNot digitChar r := by
    cases r with
    | nil => trivial
    | cons c cs => exact hr.1
  rcases litShape_elim hsh with ⟨hne, hall⟩ | ⟨ds, fs, hlit, hdne, hfne, hds, hfs⟩
  · have hsp : span1 digitChar (lit ++ r) = some (lit, r) := span1_append r hne hall hrd
    unfold numLit?
    simp only [hsp]
    cases r with
    | nil => rfl
    | cons c cs =>
      have hc : c ≠ '.' := hr.2
      split
      · rename_i heq
        injection heq with h1 h2
        first
        | exact absurd h1 hc
        | exact absurd h1.symm hc
      · rfl
  · subst hlit
    unfold numLit?
    have h1 : (ds ++ '.' :: fs) ++ r = ds ++ '.' :: (fs ++ r) := by simp
    rw [h1]
    have hsp : span1 digitChar (ds ++ '.' :: (fs ++ r)) = some (ds, '.' :: (fs ++ r)) :=
      span1_append ('.' :: (fs ++ r)) hdne hds (by simp [headNot]; decide)
    simp only [hsp]
    have h2 : span1 digitChar (fs ++ r) = some (fs, r) := span1_append r hfne hfs hrd
    simp only [h2]

/-- Soundness of the greedy numeric-literal parse. -/
theorem numLit?_sound {s lit r : Text} (h : numLit? s = some (lit, r)) :
    s = lit ++ r ∧ litShape lit = true ∧ headNot digitChar r := by
  unfold numLit? at h
  cases hs1 : span1 digitChar s with
  | none =>
    simp only [hs1] at h
    exact Option.noConfusion h
  | some p =>
    rcases p with ⟨ip, r1⟩
    simp only [hs1] at h
    obtain ⟨hsplit, hipne, hipd, hr1⟩ := span1_sound hs1
    split at h
    · rename_i r2
      cases hs2 : span1 digitChar r2 with
      | none =>
        simp only [hs2] at h
        injection h with hpair
        have hl : ip = lit := congrArg Prod.fst hpair
        have hrr : '.' :: r2 = r := congrArg Prod.snd hpair
        subst hl
        rw [← hrr]
        exact ⟨hsplit, litShape_int hipne hipd, hr1⟩
      | some q =>
        rcases q with ⟨fp, r3⟩
        simp only [hs2] at h
        injection h with hpair
        have hl : ip ++ '.' :: fp = lit := congrArg Prod.fst hpair
        have hrr : r3 = r := congrArg Prod.snd hpair
        obtain ⟨hsplit2, hfpne, hfpd, hr3⟩ := span1_sound hs2
        subst hl
        rw [← hrr]
        refine ⟨?_, litShape_frac hipne hfpne hipd hfpd, hr3⟩
        rw [hsplit, hsplit2]
        simp
    · injection h with hpair
      have hl : ip = lit := congrArg Prod.fst hpair
      have hrr : r1 = r := congrArg Prod.snd hpair
      subst hl
      rw [← hrr]
      exact ⟨hsplit, litShape_int hipne hipd, hr1⟩

/-- `dropPrefix?` characterisation. -/
theorem dropPrefix?_eq_some {w s r : Text} : dropPrefix? w s = some r ↔ s = w ++ r := by
  unfold dropPrefix?
  by_cases hp : w.isPrefixOf s
  · rw [if_pos hp]
    constructor
    · intro h
      have hr := Option.some.inj h
      rcases List.isPrefixOf_iff_prefix.mp hp with ⟨t, ht⟩
      rw [← hr, ← ht, List.drop_left]
    · intro h
      rw [h, List.drop_left]
  · rw [if_neg hp]
    constructor
    · intro h; exact absurd h (by simp)
    · intro h
      exact absurd (List.isPrefixOf_iff_prefix.mpr ⟨r, h.symm⟩) hp

/-- Soundness of the `SET_TOTAL` matcher. -/
theorem setTotalAt_sound {s lit : Text} {n : Nat} (h : setTotalAt s = some (lit, n)) :
    ∃ rest, s = txt ".setTotal(" ++ lit ++ ')' :: rest ∧ litShape lit = true ∧
      n = 10 + lit.length := by
  unfold setTotalAt at h
  cases hd : dropPrefix? (txt ".setTotal(") s with
  | none =>
    simp only [hd] at h
    exact Option.noConfusion h
  | some r1 =>
    simp only [hd] at h
    cases hn : numLit? r1 with
    | none =>
      simp only [hn] at h
      exact Option.noConfusion h
    | some p =>
      rcases p with ⟨lit1, r2⟩
      simp only [hn] at h
      obtain ⟨hsplit, hsh, hhn⟩ := numLit?_sound hn
      split at h
      · injection h with hpair
        have hl : lit1 = lit := congrArg Prod.fst hpair
        have hnn : 10 + lit1.length = n := congrArg Prod.snd hpair
        subst hl
        rename_i cs
        refine ⟨cs, ?_, hsh, hnn.symm⟩
        have hds : s = txt ".setTotal(" ++ r1 := dropPrefix?_eq_some.mp hd
        rw [hds, hsplit]
        simp
      · exact absurd h (by simp)

/-- Completeness of the `SET_TOTAL` matcher. -/
theorem setTotalAt_complete {lit : Text} (rest : Text) (hsh : litShape lit = true) :
    setTotalAt (txt ".setTotal(" ++ lit ++ ')' :: rest) = some (lit, 10 + lit.length) := by
  unfold setTotalAt
  have hd : dropPrefix? (txt ".setTotal(") (txt ".setTotal(" ++ lit ++ ')' :: rest) =
      some (lit ++ ')' :: rest) := dropPrefix?_eq_some.mpr (by simp)
  simp only [hd]
  have hn : numLit? (lit ++ ')' :: rest) = some (lit, ')' :: rest) :=
    numLit?_complete (')' :: rest) hsh (by constructor <;> decide)
  simp only [hn]

/-- Characters of a shaped literal are digits or the dot. -/
theorem litShape_chars {lit : Text} (h : litShape lit = true) :
    ∀ c ∈ lit, digitChar c = true ∨ c = '.' := by
  rcases litShape_elim h with ⟨_, hall⟩ | ⟨ds, fs, hlit, _, _, hds, hfs⟩
  · exact fun c hc => Or.inl (hall c hc)
  · intro c hc
    rw [hlit] at hc
    rcases List.mem_append.mp hc with h1 | h1
    · exact Or.inl (hds c h1)
    · rcases List.mem_cons.mp h1 with h2 | h2
      · exact Or.inr h2
      · exact Or.inl (hfs c h2)

/-- A step that ignores its lookbehind. -/
def prevFree {α : Type} (step : Step α) : Prop := ∀ p q s, step p s = step q s

/-- `substF` of a lookbehind-free step does not depend on the lookbehind. -/
theorem substF_prevFree {step : Step Text} (h : prevFree step) :
    ∀ fuel p q s, substF step fuel p s = substF step fuel q s := by
  intro fuel
  induction fuel with
  | zero => intro p q s; rfl
  | succ f ih =>
    intro p q s
    cases s with
    | nil => rfl
    | cons c cs =>
      show (match step p (c :: cs) with
        | some (repl, n) => repl ++ substF step f ((c :: cs).get? n) (cs.drop n)
        | none => c :: substF step f (some c) cs) =
        (match step q (c :: cs) with
        | some (repl, n) => repl ++ substF step f ((c :: cs).get? n) (cs.drop n)
        | none => c :: substF step f (some c) cs)
      rw [h p q (c :: cs)]

/-- The `SET_TOTAL` substitution step ignores its lookbehind. -/
theorem setTotalSub_prevFree (R : Text → Text) : prevFree (setTotalSub R) :=
  fun _ _ _ => rfl

/-- A verbatim occurrence of a full `SET_TOTAL` match inside a text. -/
def setTotalOcc (y lit : Text) : Prop :=
  litShape lit = true ∧ (txt ".setTotal(" ++ lit ++ [')']) <:+: y

/-- A suffix of a concatenation is a suffix of the second part or extends it. -/
theorem suffix_append_cases {u a b : Text} (h : u <:+ a ++ b) :
    u <:+ b ∨ (b <:+ u ∧ u.take (u.length - b.length) <:+ a ∧
      u = u.take (u.length - b.length) ++ b) := by
  have hrev : u.reverse <+: b.reverse ++ a.reverse := by
    rw [← List.reverse_append]
    exact List.reverse_prefix.mpr h
  rcases prefix_append_cases hrev with h1 | ⟨h1, h2⟩
  · exact Or.inl (List.reverse_prefix.mp h1)
  · right
    have hsuf : b <:+ u := by
      have := List.reverse_prefix.mp (by simpa using h1 : b.reverse <+: u.reverse)
      exact this
    have htk : u.take (u.length - b.length) ++ b = u := by
      conv_rhs => rw [← List.take_append_drop (u.length - b.length) u]
      rw [← suffix_eq_drop hsuf]
    refine ⟨hsuf, ?_, htk.symm⟩
    have h3 : u.reverse.drop b.reverse.length = (u.take (u.length - b.length)).reverse := by
      rw [List.drop_reverse]
      congr 1
      simp
    rw [h3] at h2
    exact List.reverse_prefix.mp h2

/-- The last element of a nonempty suffix agrees with the last of the whole. -/
theorem getLast?_of_suffix {u v : Text} (h : u <:+ v) (hu : u ≠ []) :
    u.getLast? = v.getLast? := by
  rw [← List.head?_reverse, ← List.head?_reverse]
  exact head?_of_prefix (List.reverse_prefix.mpr h) (by simpa using hu)

/-- A shaped literal starts with a digit. -/
theorem litShape_head_digit {lit : Text} (h : litShape lit = true) :
    ∃ d t, lit = d :: t ∧ digitChar d = true := by
  rcases litShape_elim h with ⟨hne, hall⟩ | ⟨ds, fs, hlit, hdne, _, hds, _⟩
  · cases lit with
    | nil => exact absurd rfl hne
    | cons d t => exact ⟨d, t, rfl, hall d (List.mem_cons_self d t)⟩
  · cases hds0 : ds with
    | nil => rw [hds0] at hdne; exact absurd rfl hdne
    | cons d t =>
      refine ⟨d, t ++ '.' :: fs, ?_, ?_⟩
      · rw [hlit, hds0]; simp
      · exact hds d (by rw [hds0]; exact List.mem_cons_self d t)

/-- A shaped literal ends with a digit. -/
theorem litShape_getLast_digit {lit : Text} (h : litShape lit = true) :
    ∃ d, lit.getLast? = some d ∧ digitChar d = true := by
  rcases litShape_elim h with ⟨hne, hall⟩ | ⟨ds, fs, hlit, _, hfne, _, hfs⟩
  · obtain ⟨d, hd⟩ := Option.isSome_iff_exists.mp (List.getLast?_isSome.mpr hne)
    exact ⟨d, hd, hall d (List.mem_of_mem_getLast? hd)⟩
  · obtain ⟨d, hd⟩ := Option.isSome_iff_exists.mp (List.getLast?_isSome.mpr hfne)
    refine ⟨d, ?_, hfs d (List.mem_of_mem_getLast? hd)⟩
    rw [hlit]
    rw [List.getLast?_append_of_ne_nil _ (by simp [hfne] : ('.' :: fs : Text) ≠ [])]
    rw [show ('.' :: fs : Text) = ['.'] ++ fs by simp]
    rw [List.getLast?_append_of_ne_nil _ hfne]
    exact hd

/-- An infix of a take-prefix is anchored at a scanned position. -/
theorem infix_take_to_drop {w x : Text} {m : Nat} (hw : w ≠ []) (h : w <:+: x.take m) :
    ∃ j, j < m ∧ w <+: x.drop j := by
  rcases infix_iff_prefix_drop.mp h with ⟨j, hp⟩
  rw [List.drop_take] at hp
  have hj : j < m := by
    by_contra hcon
    push_neg at hcon
    have : m - j = 0 := by omega
    rw [this, List.take_zero] at hp
    exact hw (List.prefix_nil.mp hp)
  exact ⟨j, hj, hp.trans (List.take_prefix _ _)⟩

/-- A scanned-and-failed region contains no full `SET_TOTAL` match. -/
theorem setTotal_scan_fail_no_occ {R : Text → Text} {x : Text} {m : Nat}
    (hscan : ∀ j, j < m → setTotalSub R (prevAt none x j) (x.drop j) = none)
    {lit : Text} (hsh : litShape lit = true) {j : Nat} (hj : j < m)
    (hp : (txt ".setTotal(" ++ lit ++ [')']) <+: x.drop j) : False := by
  rcases hp with ⟨tail, htail⟩
  have hx : x.drop j = txt ".setTotal(" ++ lit ++ ')' :: tail := by
    rw [← htail]; simp
  have hfire : setTotalAt (x.drop j) = some (lit, 10 + lit.length) := by
    rw [hx]; exact setTotalAt_complete tail hsh
  have hnone := hscan j hj
  unfold setTotalSub at hnone
  rw [hfire] at hnone
  simp at hnone

/-- A proper suffix of `".setTotal("` never starts with a dot. -/
theorem dotSuffix_eq_setTotalLit {v : Text} (h : v <:+ txt ".setTotal(")
    (hd : ∃ t, v = '.' :: t) : v = txt ".setTotal(" := by
  obtain ⟨t, ht⟩ := hd
  have hlen : v.length ≤ 10 := by
    have := h.length_le
    simpa using this
  have hveq : v = (txt ".setTotal(").drop (10 - v.length) := by
    have := suffix_eq_drop h
    simpa using this
  have hhead : ((txt ".setTotal(").drop (10 - v.length)).head? = some '.' := by
    rw [← hveq, ht]; rfl
  have hz : 10 - v.length = 0 := by
    set m := 10 - v.length with hm
    have hub : m ≤ 10 := by omega
    clear_value m
    interval_cases m
    · rfl
    all_goals (revert hhead; decide)
  rw [hveq, hz]
  rfl

/-- Zone analysis for `SET_TOTAL` substitutions: when every replacement starts
with `".s"`, ends with `")"`, and its internal full matches satisfy `P`, then
every full match occurring in the output satisfies `P`.  (Full matches cannot
survive inside scanned-and-rejected regions, and the junctions between
untouched text and replacements cannot assemble a new full match.) -/
theorem setTotalSub_occ (R : Text → Text) (P : Text → Prop)
    (H1 : ∀ lit0, litShape lit0 = true → ∃ t, R lit0 = '.' :: 's' :: t)
    (H3 : ∀ lit0, litShape lit0 = true → ∃ t, R lit0 = t ++ [')'])
    (H2 : ∀ lit0 lit, litShape lit0 = true → setTotalOcc (R lit0) lit → P lit) :
    ∀ N x, x.length ≤ N → ∀ lit, setTotalOcc (pySub (setTotalSub R) x) lit → P lit := by
  intro N
  induction N with
  | zero =>
    intro x hl lit hocc
    have hx : x = [] := List.length_eq_zero.mp (Nat.le_zero.mp hl)
    subst hx
    obtain ⟨_, hinf⟩ := hocc
    have := hinf.length_le
    simp [pySub, substF] at this
  | succ N ih =>
    intro x hl lit hocc
    obtain ⟨hsh, hinf⟩ := hocc
    rcases substF_decomp (setTotalSub R) x none with ⟨hid, hscan⟩ |
      ⟨A, r, n, hAl, hAtake, hscan, hstep, hout⟩
    · rw [show pySub (setTotalSub R) x = substF (setTotalSub R) x.length none x from rfl,
        hid] at hinf
      rcases infix_iff_prefix_drop.mp hinf with ⟨j, hp⟩
      have hj : j < x.length := by
        by_contra hcon
        push_neg at hcon
        rw [List.drop_eq_nil_of_le hcon] at hp
        have hnil := List.prefix_nil.mp hp
        simp at hnil
      exact (setTotal_scan_fail_no_occ hscan hsh hj hp).elim
    · have hstep' := hstep
      unfold setTotalSub at hstep'
      cases hat : setTotalAt (x.drop A.length) with
      | none => rw [hat] at hstep'; simp at hstep'
      | some q =>
        rcases q with ⟨lit0, n0⟩
        rw [hat] at hstep'
        simp only [Option.map_some'] at hstep'
        injection hstep' with hpair
        have hr : R lit0 = r := congrArg Prod.fst hpair
        obtain ⟨rest1, hx0, hsh0, hn0⟩ := setTotalAt_sound hat
        have hY : substF (setTotalSub R) (x.drop (A.length + n + 1)).length
            (x.get? (A.length + n)) (x.drop (A.length + n + 1)) =
            pySub (setTotalSub R) (x.drop (A.length + n + 1)) :=
          substF_prevFree (setTotalSub_prevFree R) _ _ _ _
        rw [show pySub (setTotalSub R) x = substF (setTotalSub R) x.length none x from rfl,
          hout, ← hr, hY] at hinf
        rw [List.append_assoc A (R lit0)
          (pySub (setTotalSub R) (x.drop (A.length + n + 1)))] at hinf
        have hx2len : (x.drop (A.length + n + 1)).length ≤ N := by
          simp
          omega
        rcases infix_append_split hinf with hA | hmid | ⟨k, hk0, hkw, htak, hdrp⟩
        · rw [← hAtake] at hA
          obtain ⟨j, hjm, hp⟩ := infix_take_to_drop
            (by intro he; have := congrArg List.length he; simp at this) hA
          exact (setTotal_scan_fail_no_occ hscan hsh hjm hp).elim
        · rcases infix_append_split hmid with hR | hY2 | ⟨k, hk0, hkw, htak, hdrp⟩
          · exact H2 lit0 lit hsh0 ⟨hsh, hR⟩
          · exact ih _ hx2len lit ⟨hsh, hY2⟩
          · obtain ⟨t3, ht3⟩ := H3 lit0 hsh0
            have htkne : (txt ".setTotal(" ++ lit ++ [')']).take k ≠ [] := by
              intro he
              have := congrArg List.length he
              simp at this
              omega
            have hlast : ((txt ".setTotal(" ++ lit ++ [')']).take k).getLast? = some ')' := by
              rw [getLast?_of_suffix htak htkne, ht3,
                List.getLast?_append_of_ne_nil _ (by simp : ([')'] : Text) ≠ [])]
              rfl
            have hk' : k ≤ (txt ".setTotal(" ++ lit).length := by
              have h10 : (txt ".setTotal(").length = 10 := rfl
              simp only [List.length_append, List.length_cons, List.length_nil, h10] at hkw ⊢
              omega
            have hmem : ')' ∈ txt ".setTotal(" ++ lit := by
              have h1 : (txt ".setTotal(" ++ lit ++ [')']).take k =
                  (txt ".setTotal(" ++ lit).take k := by
                rw [show txt ".setTotal(" ++ lit ++ [')'] =
                  (txt ".setTotal(" ++ lit) ++ [')'] by simp,
                  List.take_append_of_le_length hk']
              rw [h1] at hlast
              exact List.mem_of_mem_take (List.mem_of_mem_getLast? hlast)
            rcases List.mem_append.mp hmem with hm | hm
            · exact absurd hm (by decide)
            · rcases litShape_chars hsh ')' hm with hd | hd
              · exact absurd hd (by decide)
              · exact absurd hd (by decide)
        · obtain ⟨t1, ht1⟩ := H1 lit0 hsh0
          rw [ht1] at hdrp
          have hune : (txt ".setTotal(" ++ lit ++ [')']).drop k ≠ [] := by
            intro he
            have hlc := congrArg List.length he
            have h10 : (txt ".setTotal(").length = 10 := rfl
            simp only [List.length_drop, List.length_append, List.length_cons,
              List.length_nil, h10] at hlc hkw
            omega
          have husuf : (txt ".setTotal(" ++ lit ++ [')']).drop k <:+
              txt ".setTotal(" ++ lit ++ [')'] := List.drop_suffix _ _
          have hklen : ((txt ".setTotal(" ++ lit ++ [')']).drop k).length <
              (txt ".setTotal(" ++ lit ++ [')']).length := by
            simp only [List.length_drop]
            have : 0 < (txt ".setTotal(" ++ lit ++ [')']).length := by simp
            omega
          cases hu0 : (txt ".setTotal(" ++ lit ++ [')']).drop k with
          | nil => exact absurd hu0 hune
          | cons c1 u1 =>
            rw [hu0] at hdrp husuf hklen
            have hc1 : c1 = '.' := by
              have hh := head?_of_prefix hdrp (by simp)
              simpa using hh
            subst hc1
            cases hu1 : u1 with
            | nil =>
              rw [hu1] at husuf
              have hla := getLast?_of_suffix husuf (by simp)
              rw [List.getLast?_append_of_ne_nil _ (by simp : ([')'] : Text) ≠ [])] at hla
              simp at hla
            | cons c2 u2 =>
              rw [hu1] at hdrp husuf hklen
              have hc2 : c2 = 's' := by
                have hdrp2 : ('.' :: c2 :: u2 : Text) <+: '.' :: 's' :: (t1 ++
                    pySub (setTotalSub R) (x.drop (A.length + n + 1))) := by
                  simpa using hdrp
                obtain ⟨_, h2⟩ := List.cons_prefix_cons.mp hdrp2
                obtain ⟨hc2, _⟩ := List.cons_prefix_cons.mp h2
                exact hc2
              subst hc2
              rcases suffix_append_cases husuf with hs1 | ⟨hb, hv, hveq⟩
              · have := hs1.length_le
                simp at this
              · -- name the take-part and expose its first two characters
                cases hv0 : ('.' :: 's' :: u2 : Text).take
                    (('.' :: 's' :: u2 : Text).length - ([')'] : Text).length) with
                | nil =>
                  rw [hv0] at hveq
                  simp at hveq
                | cons d1 v1 =>
                  rw [hv0] at hveq hv
                  have hd1 : d1 = '.' := by
                    have := congrArg List.head? hveq
                    simp at this
                    exact this.symm
                  subst hd1
                  cases hv1 : v1 with
                  | nil =>
                    rw [hv1] at hveq
                    simp at hveq
                  | cons d2 v2 =>
                    rw [hv1] at hveq hv
                    have hd2 : d2 = 's' := by
                      have := congrArg (fun l => l.get? 1) hveq
                      simp at this
                      exact this.symm
                    subst hd2
                    -- v = '.' :: 's' :: v2 is a suffix of P ++ lit
                    rcases suffix_append_cases hv with hvl | ⟨hlit2, hp2, hpeq⟩
                    · have hmem : 's' ∈ lit := hvl.subset (by simp)
                      rcases litShape_chars hsh 's' hmem with hd | hd
                      · exact absurd hd (by decide)
                      · exact absurd hd (by decide)
                    · -- p' := v.take (|v| - |lit|), v = p' ++ lit
                      cases hp0 : ('.' :: 's' :: v2 : Text).take
                          (('.' :: 's' :: v2 : Text).length - lit.length) with
                      | nil =>
                        rw [hp0] at hpeq
                        obtain ⟨d, t, hdt, hdig⟩ := litShape_head_digit hsh
                        rw [List.nil_append] at hpeq
                        rw [hdt] at hpeq
                        have : d = '.' := by
                          have h0 := congrArg List.head? hpeq
                          simp at h0
                          exact h0.symm
                        rw [this] at hdig
                        exact absurd hdig (by decide)
                      | cons e1 q1 =>
                        rw [hp0] at hpeq hp2
                        have he1 : e1 = '.' := by
                          have h0 := congrArg List.head? hpeq
                          simp at h0
                          exact h0.symm
                        subst he1
                        cases hq1 : q1 with
                        | nil =>
                          rw [hq1] at hpeq
                          obtain ⟨d, t, hdt, hdig⟩ := litShape_head_digit hsh
                          rw [hdt] at hpeq
                          have : d = 's' := by
                            have h0 := congrArg (fun l => l.get? 1) hpeq
                            simp at h0
                            exact h0.symm
                          rw [this] at hdig
                          exact absurd hdig (by decide)
                        | cons e2 q2 =>
                          rw [hq1] at hpeq hp2
                          have he2 : e2 = 's' := by
                            have h0 := congrArg (fun l => l.get? 1) hpeq
                            simp at h0
                            exact h0.symm
                          subst he2
                          -- p' is a suffix of ".setTotal(" starting with '.':
                          -- p' is all of it
                          have hpP : ('.' :: 's' :: q2 : Text) = txt ".setTotal(" :=
                            dotSuffix_eq_setTotalLit hp2 ⟨'s' :: q2, rfl⟩
                          -- then v = P ++ lit and u = P ++ lit ++ [')'] = the whole
                          -- shape, contradicting k > 0
                          rw [hpP] at hpeq
                          have hufull : ('.' :: 's' :: u2 : Text) =
                              txt ".setTotal(" ++ lit ++ [')'] := by
                            rw [hveq, hpeq]
                          rw [hufull] at hklen
                          omega

/-!
## Toolkit: decimal formatting round-trip

`f"{v}"` of a nonnegative finite-decimal float parses back to the same value,
and formatting that parse reproduces the same text. -/

/-- Digit characters produced by `natToTextF` evaluate back to their value. -/
theorem digitChar_ofNat (k : Nat) (hk : k < 10) :
    (Char.ofNat (48 + k)).toNat - 48 = k ∧ digitChar (Char.ofNat (48 + k)) = true := by
  interval_cases k <;> exact ⟨by decide, by decide⟩

/-- `digitsVal` over a one-digit extension. -/
theorem digitsVal_append_one (a : Text) (c : Char) :
    digitsVal (a ++ [c]) = 10 * digitsVal a + (c.toNat - 48) := by
  unfold digitsVal
  rw [List.foldl_append]
  rfl

/-- `natToTextF` is correct below its fuel bound. -/
theorem natToTextF_spec : ∀ fuel n, n < 10 ^ fuel →
    digitsVal (natToTextF fuel n) = n ∧
      (∀ c ∈ natToTextF fuel n, digitChar c = true) := by
  intro fuel
  induction fuel with
  | zero =>
    intro n hn
    have : n = 0 := by simpa using hn
    subst this
    exact ⟨rfl, by simp [natToTextF]⟩
  | succ f ih =>
    intro n hn
    by_cases h0 : n = 0
    · subst h0
      simp [natToTextF, digitsVal]
    · have hdiv : n / 10 < 10 ^ f := by
        rw [Nat.div_lt_iff_lt_mul (by omega)]
        calc n < 10 ^ (f + 1) := hn
          _ = 10 ^ f * 10 := by ring
      obtain ⟨ihv, ihd⟩ := ih (n / 10) hdiv
      obtain ⟨hcv, hcd⟩ := digitChar_ofNat (n % 10) (Nat.mod_lt n (by omega))
      constructor
      · rw [show natToTextF (f + 1) n =
          natToTextF f (n / 10) ++ [Char.ofNat (48 + n % 10)] by
            simp [natToTextF, h0]]
        rw [digitsVal_append_one, ihv, hcv]
        omega
      · intro c hc
        rw [show natToTextF (f + 1) n =
          natToTextF f (n / 10) ++ [Char.ofNat (48 + n % 10)] by
            simp [natToTextF, h0]] at hc
        rcases List.mem_append.mp hc with h1 | h1
        · exact ihd c h1
        · rw [List.mem_singleton.mp h1]
          exact hcd

/-- `natToTextF` output is bounded by the fuel. -/
theorem natToTextF_length_le : ∀ fuel n, (natToTextF fuel n).length ≤ fuel := by
  intro fuel
  induction fuel with
  | zero => intro n; simp [natToTextF]
  | succ f ih =>
    intro n
    by_cases h0 : n = 0
    · simp [natToTextF, h0]
    · rw [show natToTextF (f + 1) n =
        natToTextF f (n / 10) ++ [Char.ofNat (48 + n % 10)] by simp [natToTextF, h0]]
      simp only [List.length_append, List.length_singleton]
      have := ih (n / 10)
      omega

/-- `natToText` round-trip. -/
theorem digitsVal_natToText (n : Nat) : digitsVal (natToText n) = n := by
  unfold natToText
  by_cases h0 : n = 0
  · subst h0; rfl
  · rw [if_neg h0]
    exact (natToTextF_spec n n (Nat.lt_pow_self (by omega) n)).1

/-- `natToText` emits digits. -/
theorem natToText_digits (n : Nat) : ∀ c ∈ natToText n, digitChar c = true := by
  unfold natToText
  by_cases h0 : n = 0
  · subst h0; intro c hc; simp at hc; rw [hc]; decide
  · rw [if_neg h0]
    exact (natToTextF_spec n n (Nat.lt_pow_self (by omega) n)).2

/-- `natToText` is nonempty. -/
theorem natToText_ne_nil (n : Nat) : natToText n ≠ [] := by
  unfold natToText
  by_cases h0 : n = 0
  · subst h0; simp
  · rw [if_neg h0]
    intro he
    have := congrArg digitsVal he
    rw [(natToTextF_spec n n (Nat.lt_pow_self (by omega) n)).1] at this
    exact h0 (by simpa [digitsVal] using this)

/-- `natToTextF` is fuel-irrelevant above the digit count. -/
theorem natToTextF_fuel_eq : ∀ f1 f2 n, n < 10 ^ f1 → n < 10 ^ f2 →
    natToTextF f1 n = natToTextF f2 n := by
  intro f1
  induction f1 with
  | zero =>
    intro f2 n h1 _
    have h0 : n = 0 := by simpa using h1
    subst h0
    cases f2 <;> simp [natToTextF]
  | succ a ih =>
    intro f2 n h1 h2
    by_cases h0 : n = 0
    · subst h0
      cases f2 <;> simp [natToTextF]
    · cases f2 with
      | zero =>
        simp at h2
        omega
      | succ b =>
        have hdiv1 : n / 10 < 10 ^ a := by
          rw [Nat.div_lt_iff_lt_mul (by omega)]
          calc n < 10 ^ (a + 1) := h1
            _ = 10 ^ a * 10 := by ring
        have hdiv2 : n / 10 < 10 ^ b := by
          rw [Nat.div_lt_iff_lt_mul (by omega)]
          calc n < 10 ^ (b + 1) := h2
            _ = 10 ^ b * 10 := by ring
        rw [show natToTextF (a + 1) n =
            natToTextF a (n / 10) ++ [Char.ofNat (48 + n % 10)] by simp [natToTextF, h0],
          show natToTextF (b + 1) n =
            natToTextF b (n / 10) ++ [Char.ofNat (48 + n % 10)] by simp [natToTextF, h0],
          ih b (n / 10) hdiv1 hdiv2]

/-- `natToText` length bound from a power bound. -/
theorem natToText_length_le {n k : Nat} (hk : 0 < k) (hn : n < 10 ^ k) :
    (natToText n).length ≤ k := by
  unfold natToText
  by_cases h0 : n = 0
  · subst h0; simpa using hk
  · rw [if_neg h0]
    rw [natToTextF_fuel_eq n k n (Nat.lt_pow_self (by omega) n) hn]
    exact natToTextF_length_le k n

/-- Leading zeros do not change `digitsVal`. -/
theorem digitsVal_replicate_zero (k : Nat) (t : Text) :
    digitsVal (List.replicate k '0' ++ t) = digitsVal t := by
  induction k with
  | zero => simp
  | succ m ih =>
    rw [List.replicate_succ, List.cons_append]
    show digitsVal (List.replicate m '0' ++ t) = digitsVal t
    exact ih

/-- `natToTextPad` round-trip. -/
theorem digitsVal_natToTextPad (len n : Nat) : digitsVal (natToTextPad len n) = n := by
  unfold natToTextPad
  rw [digitsVal_replicate_zero, digitsVal_natToText]

/-- `natToTextPad` emits digits. -/
theorem natToTextPad_digits (len n : Nat) :
    ∀ c ∈ natToTextPad len n, digitChar c = true := by
  intro c hc
  unfold natToTextPad at hc
  rcases List.mem_append.mp hc with h1 | h1
  · rw [List.eq_of_mem_replicate h1]; decide
  · exact natToText_digits n c h1

/-- `natToTextPad` is nonempty. -/
theorem natToTextPad_ne_nil (len n : Nat) : natToTextPad len n ≠ [] := by
  unfold natToTextPad
  intro he
  rcases List.append_eq_nil.mp he with ⟨_, h2⟩
  exact natToText_ne_nil n h2

/-- Exact `natToTextPad` length below the power bound. -/
theorem natToTextPad_length {len n : Nat} (h0 : 0 < len) (hn : n < 10 ^ len) :
    (natToTextPad len n).length = len := by
  unfold natToTextPad
  have hle : (natToText n).length ≤ len := natToText_length_le h0 hn
  simp only [List.length_append, List.length_replicate]
  omega

/-- `decCanonF` preserves the rational value along the fuel-equals-exponent
invariant. -/
theorem decCanonF_toRat : ∀ fuel n e, (decCanonF fuel n e).toRat = Dec.toRat ⟨n, e⟩ := by
  intro fuel
  induction fuel with
  | zero => intro n e; rfl
  | succ f ih =>
    intro n e
    cases e with
    | zero => rfl
    | succ e' =>
      show (if n % 10 == 0 then decCanonF f (n / 10) e' else ⟨n, e' + 1⟩).toRat = _
      by_cases hm : n % 10 = 0
      · rw [if_pos (by simpa using hm), ih]
        obtain ⟨m, rfl⟩ : ∃ m, n = 10 * m :=
          ⟨n / 10, by omega⟩
        have hdiv : (10 * m) / 10 = m := by omega
        rw [hdiv]
        unfold Dec.toRat
        push_cast
        rw [pow_succ]
        field_simp
        ring
      · rw [if_neg (by simpa using hm)]

/-- Value preservation of canonicalisation. -/
theorem canon_toRat (d : Dec) : d.canon.toRat = d.toRat := by
  unfold Dec.canon
  rw [decCanonF_toRat]

/-- Canonical-form invariant: exponent zero or last digit nonzero (for fuel
covering the exponent, as `Dec.canon` supplies). -/
theorem decCanonF_inv : ∀ fuel n e, e ≤ fuel → (decCanonF fuel n e).exp = 0 ∨
    (decCanonF fuel n e).num % 10 ≠ 0 := by
  intro fuel
  induction fuel with
  | zero =>
    intro n e he
    have h0 : e = 0 := Nat.le_zero.mp he
    subst h0
    left
    rfl
  | succ f ih =>
    intro n e he
    cases e with
    | zero => left; rfl
    | succ e' =>
      show (if n % 10 == 0 then decCanonF f (n / 10) e' else Dec.mk n (e' + 1)).exp = 0 ∨
        (if n % 10 == 0 then decCanonF f (n / 10) e' else Dec.mk n (e' + 1)).num % 10 ≠ 0
      by_cases hm : n % 10 = 0
      · rw [if_pos (by simpa using hm)]
        exact ih (n / 10) e' (by omega)
      · right
        rw [if_neg (by simpa using hm)]
        simpa using hm

/-- The canonical form of a `Dec` satisfies the canonical invariant. -/
theorem canon_inv (d : Dec) : d.canon.exp = 0 ∨ d.canon.num % 10 ≠ 0 :=
  decCanonF_inv d.exp d.num d.exp (Nat.le_refl _)

/-- Canonicalisation is the identity on canonical values. -/
theorem canon_of_inv {d : Dec} (h : d.exp = 0 ∨ d.num % 10 ≠ 0) : d.canon = d := by
  rcases d with ⟨n, e⟩
  rcases h with h0 | hm
  · simp only at h0
    subst h0
    rfl
  · cases e with
    | zero => rfl
    | succ e' =>
      show (if n % 10 == 0 then decCanonF e' (n / 10) e' else Dec.mk n (e' + 1)) = _
      rw [if_neg (by simpa using hm)]

/-- Canonicalisation preserves nonnegativity. -/
theorem canon_nonneg : ∀ fuel n e, 0 ≤ n → 0 ≤ (decCanonF fuel n e).num := by
  intro fuel
  induction fuel with
  | zero => intro n e hn; exact hn
  | succ f ih =>
    intro n e hn
    cases e with
    | zero => exact hn
    | succ e' =>
      show 0 ≤ (if n % 10 == 0 then decCanonF f (n / 10) e' else Dec.mk n (e' + 1)).num
      by_cases hm : n % 10 = 0
      · rw [if_pos (by simpa using hm)]
        exact ih (n / 10) e' (Int.ediv_nonneg hn (by omega))
      · rw [if_neg (by simpa using hm)]
        exact hn

/-- Parsing a digits-dot-digits text. -/
theorem litValText_frac {ds fs : Text} (hds : ∀ c ∈ ds, digitChar c = true) :
    litValText (ds ++ '.' :: fs) = litVal ds (some fs) := by
  unfold litValText span0
  rw [takeWhile_append_all ('.' :: fs) hds, dropWhile_append_all ('.' :: fs) hds,
    List.takeWhile_cons_of_neg (by decide), List.dropWhile_cons_of_neg (by decide),
    List.append_nil]
  split
  · rename_i f heq
    obtain ⟨h1, h2⟩ := Prod.mk.inj heq
    rw [h1, List.cons.inj h2 |>.2]
  · rename_i ip r hne heq
    obtain ⟨h1, h2⟩ := Prod.mk.inj heq
    exact absurd h2.symm (hne fs)

/-- `litValText` never parses a negative value. -/
theorem litValText_nonneg (t : Text) : 0 ≤ (litValText t).num := by
  unfold litValText
  split
  · unfold litVal
    positivity
  · unfold litVal
    positivity

/-- The decomposition of a formatted canonical nonnegative decimal. -/
theorem fmtFloatCanonAbs_shape (n e : Nat) :
    ∃ ds fs, fmtFloatCanonAbs n e = ds ++ '.' :: fs ∧
      ds ≠ [] ∧ fs ≠ [] ∧ (∀ c ∈ ds, digitChar c = true) ∧
      ∀ c ∈ fs, digitChar c = true := by
  cases e with
  | zero =>
    refine ⟨natToText n, ['0'], ?_, natToText_ne_nil n, by simp, natToText_digits n, ?_⟩
    · rfl
    · intro c hc; simp at hc; rw [hc]; decide
  | succ e' =>
    exact ⟨natToText (n / 10 ^ (e' + 1)), natToTextPad (e' + 1) (n % 10 ^ (e' + 1)), rfl,
      natToText_ne_nil _, natToTextPad_ne_nil _ _, natToText_digits _, natToTextPad_digits _ _⟩

/-- For nonnegative values, `fmtFloat` goes through `fmtFloatCanonAbs`. -/
theorem fmtFloat_eq_canonAbs {d : Dec} (h : 0 ≤ d.num) :
    fmtFloat d = fmtFloatCanonAbs d.canon.num.toNat d.canon.exp := by
  unfold fmtFloat
  have hc : 0 ≤ d.canon.num := canon_nonneg d.exp d.num d.exp h
  rw [if_neg (by omega : ¬ d.canon.num < 0)]

/-- The formatted text of a nonnegative value is a literal shape. -/
theorem litShape_fmtFloat {d : Dec} (h : 0 ≤ d.num) : litShape (fmtFloat d) = true := by
  rw [fmtFloat_eq_canonAbs h]
  obtain ⟨ds, fs, heq, h1, h2, h3, h4⟩ := fmtFloatCanonAbs_shape d.canon.num.toNat d.canon.exp
  rw [heq]
  exact litShape_frac h1 h2 h3 h4

/-- Parsing the formatted text recovers the canonical value exactly. -/
theorem litValText_fmtFloat {d : Dec} (h : 0 ≤ d.num) :
    litValText (fmtFloat d) =
      if d.canon.exp = 0 then ⟨10 * d.canon.num, 1⟩ else d.canon := by
  have hc : 0 ≤ d.canon.num := canon_nonneg d.exp d.num d.exp h
  have hcast : (d.canon.num.toNat : Int) = d.canon.num := Int.toNat_of_nonneg hc
  rw [fmtFloat_eq_canonAbs h]
  cases hce : d.canon.exp with
  | zero =>
    rw [if_pos rfl]
    show litValText (natToText d.canon.num.toNat ++ txt ".0") = _
    have h2 : litValText (natToText d.canon.num.toNat ++ '.' :: ['0']) =
        litVal (natToText d.canon.num.toNat) (some ['0']) :=
      litValText_frac (natToText_digits _)
    rw [show (txt ".0") = '.' :: ['0'] from rfl, h2]
    simp only [litVal]
    rw [digitsVal_natToText]
    have h0 : digitsVal ['0'] = 0 := rfl
    rw [h0]
    simp [hcast]
    omega
  | succ e' =>
    rw [if_neg (by omega)]
    show litValText (natToText (d.canon.num.toNat / 10 ^ (e' + 1)) ++
      '.' :: natToTextPad (e' + 1) (d.canon.num.toNat % 10 ^ (e' + 1))) = _
    rw [litValText_frac (natToText_digits _)]
    simp only [litVal]
    rw [digitsVal_natToText, digitsVal_natToTextPad,
      natToTextPad_length (by omega) (Nat.mod_lt _ (by positivity))]
    have hsum : (↑(d.canon.num.toNat / 10 ^ (e' + 1)) * (10 : Int) ^ (e' + 1) +
        ↑(d.canon.num.toNat % 10 ^ (e' + 1))) = d.canon.num := by
      rw [← hcast]
      exact_mod_cast Nat.div_add_mod' d.canon.num.toNat (10 ^ (e' + 1))
    rw [hsum]
    rcases hcanon : d.canon with ⟨cn, cexp⟩
    rw [hcanon] at hce
    simp only at hce ⊢
    rw [hce]

/-- Re-formatting the parse of a formatted nonnegative value reproduces the
text. -/
theorem fmtFloat_litValText_fmtFloat {d : Dec} (h : 0 ≤ d.num) :
    fmtFloat (litValText (fmtFloat d)) = fmtFloat d := by
  have hc : 0 ≤ d.canon.num := canon_nonneg d.exp d.num d.exp h
  rw [litValText_fmtFloat h]
  cases hce : d.canon.exp with
  | zero =>
    rw [if_pos rfl]
    have hcanon : Dec.canon ⟨10 * d.canon.num, 1⟩ = ⟨d.canon.num, 0⟩ := by
      show decCanonF 1 (10 * d.canon.num) 1 = _
      have hm : (10 * d.canon.num) % 10 = 0 := by omega
      show (if (10 * d.canon.num) % 10 == 0 then decCanonF 0 ((10 * d.canon.num) / 10) 0
        else Dec.mk (10 * d.canon.num) 1) = _
      rw [if_pos (by simpa using hm)]
      show Dec.mk ((10 * d.canon.num) / 10) 0 = _
      congr 1
      omega
    have hX : 0 ≤ (⟨10 * d.canon.num, 1⟩ : Dec).num := by simp; omega
    rw [fmtFloat_eq_canonAbs hX, fmtFloat_eq_canonAbs h, hcanon, hce]
  | succ e' =>
    rw [if_neg (by omega)]
    have hcanon : (d.canon).canon = d.canon := canon_of_inv (canon_inv d)
    rw [fmtFloat_eq_canonAbs (show 0 ≤ d.canon.num from hc), fmtFloat_eq_canonAbs h, hcanon]

/-- Value equality transfers Boolean comparisons. -/
theorem Dec.le_congr {a b : Dec} (h : a.toRat = b.toRat) (l : Dec) : a.le l = b.le l := by
  cases hA : a.le l <;> cases hB : b.le l
  · rfl
  · exfalso
    have h2 := (Dec.le_iff b l).mp hB
    rw [← h] at h2
    have h3 := (Dec.le_iff a l).mpr h2
    rw [hA] at h3
    exact Bool.false_ne_true h3
  · exfalso
    have h2 := (Dec.le_iff a l).mp hA
    rw [h] at h2
    have h3 := (Dec.le_iff b l).mpr h2
    rw [hB] at h3
    exact Bool.false_ne_true h3
  · rfl

/-- The canonical value compares like the original. -/
theorem canon_le_congr (d l : Dec) : d.canon.le l = d.le l :=
  Dec.le_congr (canon_toRat d) l

/-- `limit * 0.9` stays below a nonnegative limit. -/
theorem mul_decNine_le {l : Dec} (h : 0 ≤ l.num) : (l.mul decNine).le l = true := by
  show decide ((l.num * 9) * (10 : Int) ^ l.exp ≤ l.num * (10 : Int) ^ (l.exp + 1)) = true
  rw [decide_eq_true_eq, pow_succ]
  have hp : (0 : Int) ≤ 10 ^ l.exp := by positivity
  nlinarith

/-- The parse of a formatted nonnegative value has the same rational value. -/
theorem litValText_fmtFloat_toRat {d : Dec} (h : 0 ≤ d.num) :
    (litValText (fmtFloat d)).toRat = d.toRat := by
  rw [litValText_fmtFloat h, ← canon_toRat d]
  by_cases hce : d.canon.exp = 0
  · rw [if_pos hce]
    unfold Dec.toRat
    rw [hce]
    push_cast
    field_simp
  · rw [if_neg hce]

/-- The replacement function of `clamp_totals` at a fixed limit. -/
def ctR (l : Dec) : Text → Text := fun lit =>
  txt ".setTotal(" ++
    fmtFloat (if (litValText lit).le l then litValText lit else l.mul decNine) ++ txt ")"

/-- `clamp_totals` with a discovered limit is the `SET_TOTAL` substitution with
replacement `ctR`. -/
theorem clamp_totals_eq (code : Text) (l : Dec) :
    clamp_totals code (some l) = pySub (setTotalSub (ctR l)) code := rfl

/-- The replacement text of a formatted compliant value is stable. -/
theorem ctR_stable_fmt {l : Dec} (w0 : Dec) (hw : 0 ≤ w0.num) (hle : w0.le l = true) :
    ctR l (fmtFloat w0) = txt ".setTotal(" ++ fmtFloat w0 ++ [')'] := by
  unfold ctR
  have hleq : (litValText (fmtFloat w0)).le l = w0.le l :=
    Dec.le_congr (litValText_fmtFloat_toRat hw) l
  rw [hleq] at *
  rw [if_pos hle]
  rw [fmtFloat_litValText_fmtFloat hw]
  rfl

/-- The clamped value written by `ctR` is nonnegative and compliant. -/
theorem ctR_value_ok {l : Dec} (hl : 0 ≤ l.num) (lit0 : Text) :
    0 ≤ (if (litValText lit0).le l then litValText lit0 else l.mul decNine).num ∧
      (if (litValText lit0).le l then litValText lit0 else l.mul decNine).le l = true := by
  by_cases hc : (litValText lit0).le l = true
  · rw [if_pos hc]
    exact ⟨litValText_nonneg lit0, hc⟩
  · rw [if_neg hc]
    constructor
    · show 0 ≤ l.num * 9
      positivity
    · exact mul_decNine_le hl

/-- Internal `SET_TOTAL` occurrences of a `ctR` replacement carry exactly the
formatted literal, whose replacement is stable. -/
theorem ctR_inner_occ {l : Dec} (hl : 0 ≤ l.num) (lit0 lit : Text)
    (hsh0 : litShape lit0 = true) (hocc : setTotalOcc (ctR l lit0) lit) :
    ctR l lit = txt ".setTotal(" ++ lit ++ [')'] := by
  obtain ⟨hw0, hwle⟩ := ctR_value_ok hl lit0
  set w0 : Dec := if (litValText lit0).le l then litValText lit0 else l.mul decNine with hw0def
  have hshw : litShape (fmtFloat w0) = true := litShape_fmtFloat hw0
  obtain ⟨hsh, hinf⟩ := hocc
  have hlitfmt : lit = fmtFloat w0 := by
    have hRform : ctR l lit0 = (txt ".setTotal(" ++ fmtFloat w0) ++ [')'] := by
      show txt ".setTotal(" ++ fmtFloat w0 ++ txt ")" = _
      rw [show (txt ")" : Text) = [')'] from rfl]
    rw [hRform] at hinf
    have hlen : lit.length ≤ (fmtFloat w0).length := by
      have := hinf.length_le
      simp at this
      omega
    rcases infix_append_split hinf with hin | hin | ⟨k, hk0, hkw, htak, hdrp⟩
    · exfalso
      have hmem : ')' ∈ txt ".setTotal(" ++ fmtFloat w0 := hin.subset (by simp)
      rcases List.mem_append.mp hmem with hm | hm
      · exact absurd hm (by decide)
      · rcases litShape_chars hshw ')' hm with hd | hd
        · exact absurd hd (by decide)
        · exact absurd hd (by decide)
    · exfalso
      have h2 := hin.length_le
      simp at h2
      have h10 : (txt ".setTotal(").length = 10 := rfl
      omega
    · -- the shape's final paren must be the replacement's final paren
      have h10 : (txt ".setTotal(").length = 10 := rfl
      have hk1 : (txt ".setTotal(" ++ lit ++ [')']).length - k ≤ 1 := by
        have := hdrp.length_le
        simpa using this
      have hkval : k = 10 + lit.length := by
        have h1 : (txt ".setTotal(" ++ lit ++ [')']).length = 10 + lit.length + 1 := by
          simp only [List.length_append, List.length_cons, List.length_nil, h10]
        omega
      have htake : (txt ".setTotal(" ++ lit ++ [')']).take k = txt ".setTotal(" ++ lit := by
        rw [hkval,
          show txt ".setTotal(" ++ lit ++ [')'] = (txt ".setTotal(" ++ lit) ++ [')'] by simp,
          List.take_left' (by rw [List.length_append, h10])]
      rw [htake] at htak
      rcases suffix_append_cases htak with hin2 | ⟨hsuf2, htak2, heq2⟩
      · exfalso
        have hmem : 's' ∈ fmtFloat w0 :=
          hin2.subset (List.mem_append.mpr (Or.inl (by decide)))
        rcases litShape_chars hshw 's' hmem with hd | hd
        · exact absurd hd (by decide)
        · exact absurd hd (by decide)
      · -- `fmtFloat w0` is a suffix of `".setTotal(" ++ lit` covering at least `lit`
        have hlen2 : (fmtFloat w0).length ≤ 10 + lit.length := by
          have := hsuf2.length_le
          simpa using this
        set j := (txt ".setTotal(" ++ lit).length - (fmtFloat w0).length with hjdef
        have hjlen : j = 10 + lit.length - (fmtFloat w0).length := by
          rw [hjdef, List.length_append, h10]
        have hj10 : j ≤ 10 := by omega
        have hdropfmt : fmtFloat w0 = (txt ".setTotal(" ++ lit).drop j := by
          have := suffix_eq_drop hsuf2
          simpa [hjdef] using this
        rcases Nat.eq_or_lt_of_le hj10 with hj | hj
        · -- the suffix is exactly `lit`
          have hfl : (fmtFloat w0).length = lit.length := by omega
          rw [hj] at hdropfmt
          rw [show (txt ".setTotal(" ++ lit).drop 10 = lit by
            rw [show (10 : Nat) = (txt ".setTotal(").length from rfl, List.drop_left]] at hdropfmt
          exact hdropfmt.symm
        · exfalso
          obtain ⟨dg, tg, hfmtcons, hdg⟩ := litShape_head_digit hshw
          have hdropj : (txt ".setTotal(" ++ lit).drop j = (txt ".setTotal(").drop j ++ lit :=
            List.drop_append_of_le_length (by rw [h10]; omega)
          rw [hdropj, hfmtcons] at hdropfmt
          have hhead : some dg = ((txt ".setTotal(").drop j ++ lit).head? := by
            rw [← hdropfmt]
            rfl
          have hne : (txt ".setTotal(").drop j ≠ [] := by
            intro he
            have h2 := congrArg List.length he
            rw [List.length_drop, h10] at h2
            simp at h2
            omega
          have hh2 : ((txt ".setTotal(").drop j ++ lit).head? =
              ((txt ".setTotal(").drop j).head? := by
            cases hc : (txt ".setTotal(").drop j with
            | nil => exact absurd hc hne
            | cons a b => rfl
          rw [hh2] at hhead
          have hdig : ∀ jj, jj < 10 → ∀ c, ((txt ".setTotal(").drop jj).head? = some c →
              digitChar c = false := by decide
          have h3 := hdig j hj dg hhead.symm
          rw [hdg] at h3
          exact Bool.noConfusion h3
  rw [hlitfmt]
  exact ctR_stable_fmt w0 hw0 hwle

/-- `clamp_totals` at a nonnegative discovered ceiling is idempotent. -/
theorem clamp_totals_idem {l : Dec} (hl : 0 ≤ l.num) (x : Text) :
    clamp_totals (clamp_totals x (some l)) (some l) = clamp_totals x (some l) := by
  rw [clamp_totals_eq, clamp_totals_eq]
  apply pySub_fix
  intro i r n hstep
  have hstep' : Option.map (fun p => (ctR l p.1, p.2))
      (setTotalAt ((pySub (setTotalSub (ctR l)) x).drop i)) = some (r, n) := hstep
  cases hat : setTotalAt ((pySub (setTotalSub (ctR l)) x).drop i) with
  | none => rw [hat] at hstep'; exact Option.noConfusion hstep'
  | some q =>
    rcases q with ⟨lit, n0⟩
    rw [hat] at hstep'
    simp only [Option.map_some'] at hstep'
    injection hstep' with hpair
    have hr : ctR l lit = r := congrArg Prod.fst hpair
    have hnn : n0 = n := congrArg Prod.snd hpair
    obtain ⟨rest, hxd, hsh, hn0⟩ := setTotalAt_sound hat
    have hocc : setTotalOcc (pySub (setTotalSub (ctR l)) x) lit := by
      refine ⟨hsh, infix_iff_prefix_drop.mpr ⟨i, ⟨rest, ?_⟩⟩⟩
      rw [hxd]
      simp
    have hP := setTotalSub_occ (ctR l)
      (fun lit => ctR l lit = txt ".setTotal(" ++ lit ++ [')'])
      (fun lit0 hsh0 => ⟨txt "etTotal(" ++
        fmtFloat (if (litValText lit0).le l then litValText lit0 else l.mul decNine) ++
        txt ")", rfl⟩)
      (fun lit0 hsh0 => ⟨txt ".setTotal(" ++
        fmtFloat (if (litValText lit0).le l then litValText lit0 else l.mul decNine),
        by
          show txt ".setTotal(" ++ _ ++ txt ")" = _
          rw [show (txt ")" : Text) = [')'] from rfl]⟩)
      (fun lit0 lit hsh0 hocc0 => ctR_inner_occ hl lit0 lit hsh0 hocc0)
      x.length x (Nat.le_refl _) lit hocc
    rw [← hr, hP, hxd]
    have hnval : n + 1 = 11 + lit.length := by omega
    rw [hnval]
    rw [show txt ".setTotal(" ++ lit ++ ')' :: rest =
      (txt ".setTotal(" ++ lit ++ [')']) ++ rest by simp]
    rw [List.take_left' (by
      simp only [List.length_append, List.length_cons, List.length_nil,
        show (txt ".setTotal(").length = 10 from rfl]
      omega)]

/-- Characters that can appear in a full `SET_TOTAL` match. -/
def stChar (c : Char) : Bool := (txt ".setTotal()").contains c || digitChar c

/-- All characters of a full match satisfy `stChar`. -/
theorem shape_chars {lit : Text} (hsh : litShape lit = true) :
    ∀ c ∈ txt ".setTotal(" ++ lit ++ [')'], stChar c = true := by
  intro c hc
  rcases List.mem_append.mp hc with h1 | h1
  · rcases List.mem_append.mp h1 with h2 | h2
    · unfold stChar
      have h3 : (txt ".setTotal()").contains c = true :=
        (by decide : ∀ x ∈ txt ".setTotal(", (txt ".setTotal()").contains x = true) c h2
      rw [h3, Bool.true_or]
    · rcases litShape_chars hsh c h2 with hd | hd
      · simp [stChar, hd]
      · subst hd
        decide
  · rw [List.mem_singleton.mp h1]
    decide

/-- A dot inside a shaped literal is followed by a digit. -/
theorem litShape_dot_next {lit : Text} (hsh : litShape lit = true) (m : Nat) {z : Text}
    (hdrop : lit.drop m = '.' :: z) : ∃ d z', z = d :: z' ∧ digitChar d = true := by
  rcases litShape_elim hsh with ⟨_, hall⟩ | ⟨ds, fs, hlit, _, hfne, hds, hfs⟩
  · exfalso
    have hmem : '.' ∈ lit := by
      have : '.' ∈ lit.drop m := by rw [hdrop]; simp
      exact List.mem_of_mem_drop this
    have := hall '.' hmem
    simp [digitChar] at this
  · subst hlit
    rcases Nat.lt_or_ge m ds.length with hm | hm
    · exfalso
      have hdp : (ds ++ '.' :: fs).drop m = ds.drop m ++ '.' :: fs :=
        List.drop_append_of_le_length (Nat.le_of_lt hm)
      rw [hdp] at hdrop
      have hne : ds.drop m ≠ [] := by
        intro he
        have := congrArg List.length he
        simp at this
        omega
      obtain ⟨d0, dr0, hd0⟩ : ∃ d0 dr0, ds.drop m = d0 :: dr0 := by
        cases hc : ds.drop m with
        | nil => exact absurd hc hne
        | cons a b => exact ⟨a, b, rfl⟩
      rw [hd0] at hdrop
      have : d0 = '.' := by
        have := congrArg List.head? hdrop
        simpa using this
      have hd0mem : d0 ∈ ds := List.mem_of_mem_drop (by rw [hd0]; simp)
      have := hds d0 hd0mem
      rw [this] at *
      rename_i hdig
      rw [‹d0 = '.'›] at hd0mem
      have := hds '.' hd0mem
      simp [digitChar] at this
    · rcases Nat.eq_or_lt_of_le hm with hme | hml
      · rw [← hme] at hdrop
        rw [List.drop_append_of_le_length (Nat.le_refl _), List.drop_length,
          List.nil_append] at hdrop
        have hz : z = fs := (List.cons.inj hdrop).2.symm
        subst hz
        cases hfs0 : z with
        | nil => exact absurd hfs0 hfne
        | cons f0 fr =>
          exact ⟨f0, fr, rfl, hfs f0 (by rw [hfs0]; simp)⟩
      · exfalso
        have hdp : (ds ++ '.' :: fs).drop m = ('.' :: fs).drop (m - ds.length) := by
          rw [List.drop_append_eq_append_drop, List.drop_eq_nil_of_le (Nat.le_of_lt hml),
            List.nil_append]
        rw [hdp] at hdrop
        obtain ⟨mm, hmm⟩ : ∃ mm, m - ds.length = mm + 1 := ⟨m - ds.length - 1, by omega⟩
        rw [hmm] at hdrop
        have hfs2 : fs.drop mm = '.' :: z := hdrop
        have hmemdot : '.' ∈ fs := List.mem_of_mem_drop (by rw [hfs2]; simp)
        have := hfs '.' hmemdot
        simp [digitChar] at this

/-- Infix of the right part of an append. -/
theorem infix_of_right {w b : Text} (h : w <:+: b) (a : Text) : w <:+: a ++ b := by
  rcases h with ⟨u, v, huv⟩
  exact ⟨a ++ u, v, by rw [← huv]; simp⟩

/-- Infix of the left part of an append. -/
theorem infix_of_left {w a : Text} (h : w <:+: a) (b : Text) : w <:+: a ++ b := by
  rcases h with ⟨u, v, huv⟩
  exact ⟨u, v ++ b, by rw [← huv]; simp⟩

/-- The replacement function of `adapt_bigdecimal`. -/
def abdR : Text → Text := fun lit =>
  txt ".setTotal(BigDecimal.valueOf(" ++ lit ++ txt "))"

/-- No full `SET_TOTAL` match occurs inside an `adapt_bigdecimal`
replacement (the wrapped literal is followed by `BigDecimal.valueOf`, not by
digits). -/
theorem abdR_no_inner_occ (lit0 lit : Text) (hsh0 : litShape lit0 = true)
    (hocc : setTotalOcc (abdR lit0) lit) : False := by
  obtain ⟨hsh, hinf⟩ := hocc
  have hR : abdR lit0 = txt ".setTotal(BigDecimal.valueOf(" ++ (lit0 ++ txt "))") := by
    unfold abdR
    simp
  rw [hR] at hinf
  rcases infix_iff_prefix_drop.mp hinf with ⟨j, hp⟩
  obtain ⟨dg, tg, hlcons, hdg⟩ := litShape_head_digit hsh
  rcases Nat.lt_or_ge j 29 with hj | hj
  · rw [List.drop_append_of_le_length (by rw [show (txt ".setTotal(BigDecimal.valueOf(").length = 29 from rfl]; omega)] at hp
    have hne : (txt ".setTotal(BigDecimal.valueOf(").drop j ≠ [] := by
      intro he
      have h2 := congrArg List.length he
      rw [List.length_drop, show (txt ".setTotal(BigDecimal.valueOf(").length = 29 from rfl] at h2
      simp at h2
      omega
    have hw0 : (txt ".setTotal(" ++ lit ++ [')']).head? = some '.' := rfl
    have hhead := head?_of_prefix hp (by simp)
    rw [hw0] at hhead
    have hh2 : ((txt ".setTotal(BigDecimal.valueOf(").drop j ++ (lit0 ++ txt "))")).head? =
        ((txt ".setTotal(BigDecimal.valueOf(").drop j).head? := by
      cases hc : (txt ".setTotal(BigDecimal.valueOf(").drop j with
      | nil => exact absurd hc hne
      | cons a b => rfl
    rw [hh2] at hhead
    have hdot : ∀ jj, jj < 29 → ((txt ".setTotal(BigDecimal.valueOf(").drop jj).head? =
        some '.' → jj = 0 ∨ jj = 20 := by decide
    rcases hdot j hj hhead.symm with h0 | h20
    · subst h0
      rw [List.drop_zero] at hp
      have hsplit : txt ".setTotal(BigDecimal.valueOf(" =
          txt ".setTotal(" ++ txt "BigDecimal.valueOf(" := rfl
      rw [hsplit] at hp
      rw [List.append_assoc (txt ".setTotal(") lit [')']] at hp
      rw [List.append_assoc (txt ".setTotal(") (txt "BigDecimal.valueOf(")
        (lit0 ++ txt "))")] at hp
      have hp2 : lit ++ [')'] <+: txt "BigDecimal.valueOf(" ++ (lit0 ++ txt "))") :=
        (List.prefix_append_right_inj (txt ".setTotal(")).mp hp
      have hh3 := head?_of_prefix hp2 (by rw [hlcons]; simp)
      rw [hlcons] at hh3
      have h4 : some dg = some 'B' := hh3
      rw [Option.some.inj h4] at hdg
      exact absurd hdg (by decide)
    · subst h20
      have hd20 : (txt ".setTotal(BigDecimal.valueOf(").drop 20 = txt ".valueOf(" := rfl
      rw [hd20] at hp
      have hwcons : txt ".setTotal(" ++ lit ++ [')'] =
          '.' :: 's' :: (txt "etTotal(" ++ lit ++ [')']) := rfl
      have hvcons : txt ".valueOf(" ++ (lit0 ++ txt "))") =
          '.' :: 'v' :: (txt "alueOf(" ++ (lit0 ++ txt "))")) := rfl
      rw [hwcons, hvcons] at hp
      obtain ⟨_, hp3⟩ := List.cons_prefix_cons.mp hp
      obtain ⟨hsv, _⟩ := List.cons_prefix_cons.mp hp3
      exact absurd hsv (by decide)
  · have hdrop : (txt ".setTotal(BigDecimal.valueOf(" ++ (lit0 ++ txt "))")).drop j =
        (lit0 ++ txt "))").drop (j - 29) := by
      rw [List.drop_append_eq_append_drop]
      rw [List.drop_eq_nil_of_le (by rw [show (txt ".setTotal(BigDecimal.valueOf(").length = 29 from rfl]; omega),
        List.nil_append,
        show (txt ".setTotal(BigDecimal.valueOf(").length = 29 from rfl]
    rw [hdrop] at hp
    rcases Nat.lt_or_ge (j - 29) lit0.length with hm | hm
    · rw [List.drop_append_of_le_length (Nat.le_of_lt hm)] at hp
      have hne : lit0.drop (j - 29) ≠ [] := by
        intro he
        have := congrArg List.length he
        simp at this
        omega
      obtain ⟨c0, z0, hc0⟩ : ∃ c0 z0, lit0.drop (j - 29) = c0 :: z0 := by
        cases hc : lit0.drop (j - 29) with
        | nil => exact absurd hc hne
        | cons a b => exact ⟨a, b, rfl⟩
      rw [hc0] at hp
      have hw0 : (txt ".setTotal(" ++ lit ++ [')']).head? = some '.' := rfl
      have hhead := head?_of_prefix hp (by simp)
      rw [hw0] at hhead
      have hc0dot : c0 = '.' := by simpa using hhead.symm
      subst hc0dot
      obtain ⟨d2, z2, hz2, hd2⟩ := litShape_dot_next hsh0 (j - 29) hc0
      rw [hz2] at hp
      have hwcons : txt ".setTotal(" ++ lit ++ [')'] =
          '.' :: 's' :: (txt "etTotal(" ++ lit ++ [')']) := rfl
      rw [hwcons] at hp
      obtain ⟨_, hp3⟩ := List.cons_prefix_cons.mp hp
      obtain ⟨hsv, _⟩ := List.cons_prefix_cons.mp (by simpa using hp3)
      rw [← hsv] at hd2
      exact absurd hd2 (by decide)
    · have hlen := hp.length_le
      have h2 : ((lit0 ++ txt "))").drop (j - 29)).length ≤ 2 := by
        simp only [List.length_drop, List.length_append]
        rw [show (txt "))").length = 2 from rfl]
        omega
      have h3 : (txt ".setTotal(" ++ lit ++ [')']).length = 10 + lit.length + 1 := by
        rw [List.length_append, List.length_append,
          show (txt ".setTotal(").length = 10 from rfl]
        rfl
      rw [h3] at hlen
      omega

/-- A text without full matches is untouched by any `SET_TOTAL` substitution. -/
theorem pySub_id_of_no_occ {R : Text → Text} {y : Text}
    (hno : ∀ lit, ¬ setTotalOcc y lit) : pySub (setTotalSub R) y = y := by
  apply pySub_fix
  intro i r n hstep
  unfold setTotalSub at hstep
  cases hat : setTotalAt (y.drop i) with
  | none => rw [hat] at hstep; exact absurd hstep (by simp)
  | some q =>
    rcases q with ⟨lit, n0⟩
    obtain ⟨rest, hxd, hsh, _⟩ := setTotalAt_sound hat
    exfalso
    apply hno lit
    refine ⟨hsh, infix_iff_prefix_drop.mpr ⟨i, ⟨rest, ?_⟩⟩⟩
    rw [hxd]
    simp

/-- Inserting junction-inert text preserves the absence of full matches. -/
theorem setTotalOcc_insert {c2 ins : Text} (idx : Nat)
    (hno : ∀ lit, ¬ setTotalOcc c2 lit)
    (hne : ins ≠ [])
    (hpar : '(' ∉ ins)
    (hhead : ∀ c, ins.head? = some c → stChar c = false)
    (hlast : ∀ c, ins.getLast? = some c → stChar c = false) :
    ∀ lit, ¬ setTotalOcc (pyInsertAt c2 idx ins) lit := by
  rintro lit ⟨hsh, hinf⟩
  unfold pyInsertAt at hinf
  rw [List.append_assoc (c2.take idx) ins (c2.drop idx)] at hinf
  rcases infix_append_split hinf with h1 | h2 | ⟨k, hk0, hkw, htak, hdrp⟩
  · exact hno lit ⟨hsh, h1.trans (List.take_prefix idx c2).isInfix⟩
  · rcases infix_append_split h2 with h3 | h4 | ⟨k, hk0, hkw, htak, hdrp⟩
    · refine hpar (h3.subset ?_)
      exact List.mem_append.mpr (Or.inl (List.mem_append.mpr (Or.inl (by decide))))
    · exact hno lit ⟨hsh, h4.trans (List.drop_suffix idx c2).isInfix⟩
    · have htkne : (txt ".setTotal(" ++ lit ++ [')']).take k ≠ [] := by
        intro he
        have := congrArg List.length he
        simp at this
        omega
      have hlastc := getLast?_of_suffix htak htkne
      obtain ⟨c, hc⟩ : ∃ c, ((txt ".setTotal(" ++ lit ++ [')']).take k).getLast? = some c :=
        Option.isSome_iff_exists.mp (List.getLast?_isSome.mpr htkne)
      have hcw : c ∈ txt ".setTotal(" ++ lit ++ [')'] :=
        List.mem_of_mem_take (List.mem_of_mem_getLast? hc)
      have h5 := shape_chars hsh c hcw
      have h6 := hlast c (by rw [← hlastc, hc])
      rw [h5] at h6
      exact Bool.noConfusion h6
  · obtain ⟨c0, insr, hc0⟩ : ∃ c0 insr, ins = c0 :: insr := by
      cases hc : ins with
      | nil => exact absurd hc hne
      | cons a b => exact ⟨a, b, rfl⟩
    have hdk : (txt ".setTotal(" ++ lit ++ [')']).drop k ≠ [] := by
      intro he
      have h2 := congrArg List.length he
      rw [List.length_drop, List.length_nil] at h2
      omega
    have hhead2 := head?_of_prefix hdrp hdk
    obtain ⟨c1, hc1⟩ : ∃ c1, ((txt ".setTotal(" ++ lit ++ [')']).drop k).head? = some c1 := by
      cases hc : (txt ".setTotal(" ++ lit ++ [')']).drop k with
      | nil => exact absurd hc hdk
      | cons a b => exact ⟨a, rfl⟩
    have hc1w : c1 ∈ txt ".setTotal(" ++ lit ++ [')'] :=
      List.mem_of_mem_drop (List.mem_of_mem_head? hc1)
    have h5 := shape_chars hsh c1 hc1w
    have hinshead : (ins ++ c2.drop idx).head? = some c0 := by
      rw [hc0]
      rfl
    rw [hc1, hinshead] at hhead2
    have h6 := hhead c0 (by rw [hc0]; rfl)
    have : c1 = c0 := by simpa using hhead2
    rw [this, h6] at h5
    exact Bool.noConfusion h5

/-- `adapt_bigdecimal`, with its local binding expanded. -/
theorem adapt_bigdecimal_eq (code src : Text) :
    adapt_bigdecimal code src =
      if containsSub src (txt "BigDecimal") then
        (if containsSub (pySub (setTotalSub abdR) code) (txt "BigDecimal") &&
            !containsSub (pySub (setTotalSub abdR) code)
              (txt "import java.math.BigDecimal;") then
          insertAfterPackage (pySub (setTotalSub abdR) code)
            (txt "\nimport java.math.BigDecimal;")
        else pySub (setTotalSub abdR) code)
      else code := rfl

/-- The substituted text of `adapt_bigdecimal` contains no full `SET_TOTAL`
match. -/
theorem abd_sub_no_occ (code : Text) :
    ∀ lit, ¬ setTotalOcc (pySub (setTotalSub abdR) code) lit := by
  intro lit hocc
  exact setTotalSub_occ abdR (fun _ => False)
    (fun lit0 h0 => ⟨txt "etTotal(BigDecimal.valueOf(" ++ lit0 ++ txt "))", rfl⟩)
    (fun lit0 h0 => ⟨txt ".setTotal(BigDecimal.valueOf(" ++ lit0 ++ [')'], by
      show txt ".setTotal(BigDecimal.valueOf(" ++ lit0 ++ txt "))" = _
      rw [show (txt "))") = ([')'] ++ [')'] : Text) from rfl]
      simp⟩)
    abdR_no_inner_occ code.length code (Nat.le_refl _) lit hocc

/-- `adapt_bigdecimal` is idempotent on every input. -/
theorem adapt_bigdecimal_idem (code src : Text) :
    adapt_bigdecimal (adapt_bigdecimal code src) src = adapt_bigdecimal code src := by
  by_cases hb : containsSub src (txt "BigDecimal") = true
  · by_cases hcond : (containsSub (pySub (setTotalSub abdR) code) (txt "BigDecimal") &&
        !containsSub (pySub (setTotalSub abdR) code)
          (txt "import java.math.BigDecimal;")) = true
    · have hy : adapt_bigdecimal code src =
          insertAfterPackage (pySub (setTotalSub abdR) code)
            (txt "\nimport java.math.BigDecimal;") := by
        rw [adapt_bigdecimal_eq, if_pos hb, if_pos hcond]
      have hyocc : ∀ lit, ¬ setTotalOcc (insertAfterPackage (pySub (setTotalSub abdR) code)
          (txt "\nimport java.math.BigDecimal;")) lit := by
        unfold insertAfterPackage
        exact setTotalOcc_insert _ (abd_sub_no_occ code) (by decide) (by decide)
          (by intro c hc; injection hc with h; rw [← h]; decide)
          (by intro c hc;
              rw [show (txt "\nimport java.math.BigDecimal;").getLast? = some ';' from rfl] at hc;
              injection hc with h; rw [← h]; decide)
      have hyimp : containsSub (insertAfterPackage (pySub (setTotalSub abdR) code)
          (txt "\nimport java.math.BigDecimal;")) (txt "import java.math.BigDecimal;") =
          true := by
        rw [ containsSub_iff_infix]
        unfold insertAfterPackage pyInsertAt
        have h1 : txt "import java.math.BigDecimal;" <:+:
            txt "\nimport java.math.BigDecimal;" :=
          ⟨['\n'], [], by simp only [List.append_nil]; rfl⟩
        exact infix_of_left (infix_of_right h1 _) _
      rw [hy, adapt_bigdecimal_eq, if_pos hb]
      rw [pySub_id_of_no_occ hyocc]
      rw [if_neg (by simp [hyimp])]
    · have hy : adapt_bigdecimal code src = pySub (setTotalSub abdR) code := by
        rw [adapt_bigdecimal_eq, if_pos hb, if_neg hcond]
      rw [hy, adapt_bigdecimal_eq, if_pos hb]
      rw [pySub_id_of_no_occ (abd_sub_no_occ code)]
      rw [if_neg hcond]
  · have hb' : containsSub src (txt "BigDecimal") = false := by
      cases h : containsSub src (txt "BigDecimal")
      · rfl
      · exact absurd h hb
    have h1 : adapt_bigdecimal code src = code := by
      rw [adapt_bigdecimal_eq, hb']
      rfl
    rw [h1, h1]

/-- A `SET_TOTAL` substitution either leaves a match-free text unchanged or
embeds some replacement verbatim in its output. -/
theorem pySub_setTotal_cases (R : Text → Text) (code : Text) :
    (pySub (setTotalSub R) code = code ∧ ∀ lit, ¬ setTotalOcc code lit) ∨
    ∃ lit0, litShape lit0 = true ∧ R lit0 <:+: pySub (setTotalSub R) code := by
  rcases substF_decomp (setTotalSub R) code none with ⟨hid, hscan⟩ |
    ⟨A, r, n, _, _, _, hstep, hout⟩
  · left
    refine ⟨hid, ?_⟩
    rintro lit ⟨hsh, hinf⟩
    rcases infix_iff_prefix_drop.mp hinf with ⟨j, hp⟩
    have hj : j < code.length := by
      by_contra hcon
      push_neg at hcon
      rw [List.drop_eq_nil_of_le hcon] at hp
      have hnil := List.prefix_nil.mp hp
      simp at hnil
    exact setTotal_scan_fail_no_occ hscan hsh hj hp
  · right
    have hstep' := hstep
    unfold setTotalSub at hstep'
    cases hat : setTotalAt (code.drop A.length) with
    | none => rw [hat] at hstep'; exact absurd hstep' (by simp)
    | some q =>
      rcases q with ⟨lit0, n0⟩
      rw [hat] at hstep'
      simp only [Option.map_some'] at hstep'
      injection hstep' with hpair
      have hr : R lit0 = r := congrArg Prod.fst hpair
      obtain ⟨_, _, hsh0, _⟩ := setTotalAt_sound hat
      refine ⟨lit0, hsh0, ?_⟩
      show R lit0 <:+: substF (setTotalSub R) code.length none code
      rw [hout, hr]
      exact infix_of_left (infix_of_right (⟨[], [], by simp⟩ : r <:+: r) A) _

/-- Inserting pattern-free junction-inert text cannot create an occurrence of
a constant pattern. -/
theorem const_no_occ_insert {w c2 ins : Text} (idx : Nat)
    (hno : ¬ w <:+: c2)
    (hinsw : ¬ w <:+: ins)
    (hne : ins ≠ [])
    (hhead : ∀ c, ins.head? = some c → c ∉ w)
    (hlast : ∀ c, ins.getLast? = some c → c ∉ w) :
    ¬ w <:+: pyInsertAt c2 idx ins := by
  intro hinf
  have hwne : w ≠ [] := by
    intro he
    subst he
    exact hno ⟨[], c2, rfl⟩
  unfold pyInsertAt at hinf
  rw [List.append_assoc (c2.take idx) ins (c2.drop idx)] at hinf
  rcases infix_append_split hinf with h1 | h2 | ⟨k, hk0, hkw, htak, hdrp⟩
  · exact hno (h1.trans (List.take_prefix idx c2).isInfix)
  · rcases infix_append_split h2 with h3 | h4 | ⟨k, hk0, hkw, htak, hdrp⟩
    · exact hinsw h3
    · exact hno (h4.trans (List.drop_suffix idx c2).isInfix)
    · have htkne : w.take k ≠ [] := by
        intro he
        have h2 := congrArg List.length he
        rw [List.length_take, List.length_nil] at h2
        omega
      have hlastc := getLast?_of_suffix htak htkne
      obtain ⟨c, hc⟩ : ∃ c, (w.take k).getLast? = some c :=
        Option.isSome_iff_exists.mp (List.getLast?_isSome.mpr htkne)
      have hcw : c ∈ w := List.mem_of_mem_take (List.mem_of_mem_getLast? hc)
      exact hlast c (by rw [← hlastc, hc]) hcw
  · obtain ⟨c0, insr, hc0⟩ : ∃ c0 insr, ins = c0 :: insr := by
      cases hc : ins with
      | nil => exact absurd hc hne
      | cons a b => exact ⟨a, b, rfl⟩
    have hdk : w.drop k ≠ [] := by
      intro he
      have h2 := congrArg List.length he
      rw [List.length_drop, List.length_nil] at h2
      omega
    obtain ⟨c1, w1, hc1⟩ : ∃ c1 w1, w.drop k = c1 :: w1 := by
      cases hc : w.drop k with
      | nil => exact absurd hc hdk
      | cons a b => exact ⟨a, b, rfl⟩
    have hhead2 := head?_of_prefix hdrp hdk
    rw [hc1, hc0] at hhead2
    have hc1c0 : c1 = c0 := by simpa using hhead2
    have hc1w : c1 ∈ w := List.mem_of_mem_drop (by rw [hc1]; simp)
    rw [hc1c0] at hc1w
    exact hhead c0 (by rw [hc0]; rfl) hc1w

/-- The replacement function of `add_status_calls`. -/
def ascR (en cst : Text) : Text → Text := fun lit =>
  txt ".setStatus(" ++ en ++ '.' :: cst ++ txt ");\n        .setTotal(" ++ lit ++ txt ")"

/-- `add_status_calls` without an enum import, with the binding expanded. -/
theorem add_status_calls_eq_none (code en : Text) (cst : Option Text) :
    add_status_calls code (some en) cst none =
      if containsSub code (txt ".setStatus(") then code
      else pySub (setTotalSub (ascR en (cst.getD []))) code := rfl

/-- `add_status_calls` with an enum import, with the binding expanded. -/
theorem add_status_calls_eq_some (code en imp : Text) (cst : Option Text) :
    add_status_calls code (some en) cst (some imp) =
      if containsSub code (txt ".setStatus(") then code
      else
        (if !imp.isEmpty &&
            !containsSub (pySub (setTotalSub (ascR en (cst.getD []))) code) en then
          insertAfterPackage (pySub (setTotalSub (ascR en (cst.getD []))) code)
            (txt "\nimport " ++ imp ++ '.' :: en ++ txt ";")
        else pySub (setTotalSub (ascR en (cst.getD []))) code) := rfl

/-- The status-call marker heads every `add_status_calls` replacement. -/
theorem ascR_marker (en cst lit0 : Text) :
    txt ".setStatus(" <+: ascR en cst lit0 := by
  refine ⟨en ++ '.' :: cst ++ txt ");\n        .setTotal(" ++ lit0 ++ txt ")", ?_⟩
  simp [ascR]

/-- The enum name occurs in every `add_status_calls` replacement. -/
theorem ascR_enum (en cst lit0 : Text) : en <:+: ascR en cst lit0 := by
  refine ⟨txt ".setStatus(",
    '.' :: cst ++ txt ");\n        .setTotal(" ++ lit0 ++ txt ")", ?_⟩
  simp [ascR]

/-- `add_status_calls` is idempotent when the enum name is made of word
characters and the import path of word characters and dots. -/
theorem add_status_calls_idem (code en : Text) (cst eimp : Option Text)
    (hen : ∀ c ∈ en, wordChar c = true)
    (himp : ∀ imp, eimp = some imp → ∀ c ∈ imp, wordDot c = true) :
    add_status_calls (add_status_calls code (some en) cst eimp) (some en) cst eimp =
      add_status_calls code (some en) cst eimp := by
  by_cases hss : containsSub code (txt ".setStatus(") = true
  · cases eimp with
    | none =>
      have h1 : add_status_calls code (some en) cst none = code := by
        rw [add_status_calls_eq_none, if_pos hss]
      rw [h1, h1]
    | some imp =>
      have h1 : add_status_calls code (some en) cst (some imp) = code := by
        rw [add_status_calls_eq_some, if_pos hss]
      rw [h1, h1]
  · rcases pySub_setTotal_cases (ascR en (cst.getD [])) code with ⟨hid, hnoocc⟩ |
      ⟨lit0, hsh0, hRinf⟩
    · -- no replacement fired: the substitution is the identity
      cases eimp with
      | none =>
        have hy : add_status_calls code (some en) cst none = code := by
          rw [add_status_calls_eq_none, if_neg hss, hid]
        rw [hy, add_status_calls_eq_none, if_neg hss, hid]
      | some imp =>
        by_cases hcnd : (!imp.isEmpty &&
            !containsSub (pySub (setTotalSub (ascR en (cst.getD []))) code) en) = true
        · -- the import is inserted
          have himp' := himp imp rfl
          set ins := txt "\nimport " ++ imp ++ '.' :: en ++ txt ";" with hins
          have hinsne : ins ≠ [] := by
            rw [hins]
            intro he
            have := congrArg List.length he
            simp at this
          have hnl : ins.head? = some '\n' := by rw [hins]; rfl
          have hsc : ins.getLast? = some ';' := by
            rw [hins, show txt "\nimport " ++ imp ++ '.' :: en ++ txt ";" =
              (txt "\nimport " ++ imp ++ '.' :: en) ++ [';'] by
                rw [show (txt ";" : Text) = [';'] from rfl],
              List.getLast?_append_of_ne_nil _ (by simp : ([';'] : Text) ≠ [])]
            rfl
          have hparen : '(' ∉ ins := by
            rw [hins]
            intro hmem
            rcases List.mem_append.mp hmem with h1 | h1
            · rcases List.mem_append.mp h1 with h2 | h2
              · rcases List.mem_append.mp h2 with h3 | h3
                · revert h3; decide
                · have := himp' '(' h3
                  exact absurd this (by decide)
              · rcases List.mem_cons.mp h2 with h3 | h3
                · exact absurd h3 (by decide)
                · have := hen '(' h3
                  exact absurd this (by decide)
            · revert h1; decide
          have hy : add_status_calls code (some en) cst (some imp) =
              insertAfterPackage code ins := by
            rw [add_status_calls_eq_some, if_neg hss, if_pos hcnd, hid]
          have hss2 : containsSub (insertAfterPackage code ins)
              (txt ".setStatus(") = false := by
            rw [containsSub_eq_false_iff]
            unfold insertAfterPackage
            apply const_no_occ_insert
            · rw [← containsSub_eq_false_iff]
              cases h : containsSub code (txt ".setStatus(")
              · rfl
              · exact absurd h hss
            · intro hbad
              exact hparen (hbad.subset (show '(' ∈ txt ".setStatus(" by decide))
            · exact hinsne
            · intro c hc
              rw [hnl] at hc
              injection hc with h
              rw [← h]
              decide
            · intro c hc
              rw [hsc] at hc
              injection hc with h
              rw [← h]
              decide
          have hnoy : ∀ lit, ¬ setTotalOcc (insertAfterPackage code ins) lit := by
            unfold insertAfterPackage
            apply setTotalOcc_insert _ hnoocc hinsne hparen
            · intro c hc
              rw [hnl] at hc
              injection hc with h
              rw [← h]
              decide
            · intro c hc
              rw [hsc] at hc
              injection hc with h
              rw [← h]
              decide
          have hsuby : pySub (setTotalSub (ascR en (cst.getD [])))
              (insertAfterPackage code ins) = insertAfterPackage code ins :=
            pySub_id_of_no_occ hnoy
          have heny : containsSub (insertAfterPackage code ins) en = true := by
            rw [ containsSub_iff_infix]
            unfold insertAfterPackage pyInsertAt
            have h2 : en <:+: ins :=
              ⟨txt "\nimport " ++ imp ++ ['.'], txt ";", by rw [hins]; simp⟩
            exact infix_of_left (infix_of_right h2 _) _
          rw [hy, add_status_calls_eq_some, if_neg (by rw [hss2]; simp), hsuby,
            if_neg (by rw [heny]; simp)]
        · -- no insertion either way
          have hy : add_status_calls code (some en) cst (some imp) = code := by
            rw [add_status_calls_eq_some, if_neg hss, if_neg hcnd, hid]
          rw [hy, add_status_calls_eq_some, if_neg hss, if_neg hcnd, hid]
    · -- a replacement fired: the output carries the marker and the enum name
      have hmark : containsSub (pySub (setTotalSub (ascR en (cst.getD []))) code)
          (txt ".setStatus(") = true := by
        rw [ containsSub_iff_infix]
        exact ((ascR_marker en (cst.getD []) lit0).isInfix).trans hRinf
      have henin : containsSub (pySub (setTotalSub (ascR en (cst.getD []))) code) en =
          true := by
        rw [ containsSub_iff_infix]
        exact (ascR_enum en (cst.getD []) lit0).trans hRinf
      cases eimp with
      | none =>
        have hy : add_status_calls code (some en) cst none =
            pySub (setTotalSub (ascR en (cst.getD []))) code := by
          rw [add_status_calls_eq_none, if_neg hss]
        rw [hy, add_status_calls_eq_none, if_pos hmark]
      | some imp =>
        have hy : add_status_calls code (some en) cst (some imp) =
            pySub (setTotalSub (ascR en (cst.getD []))) code := by
          rw [add_status_calls_eq_some, if_neg hss, if_neg (by rw [henin]; simp)]
        rw [hy, add_status_calls_eq_some, if_pos hmark]


/-- A constant invalid validation result used by the feedback witness. -/
def vresE1 : VRes := { is_valid := false, errors := [txt "E1"], problematic_lines := [] }

/-- Witness for C9 at a concrete run: a constant invalid validator and a
constant oracle; the second attempt's feedback is the first attempt's error
list, embedded verbatim in the prompt. -/
theorem feedback_previous_attempt_only_witness :
    ((txt "E1") ≠ ([] : Text)) ∧
    (build_prompt epX (some (txt "E1")) =
      (promptBase epX ++ promptFeedbackPre) ++ txt "E1" ++ (promptFeedbackPost ++ promptTail)) ∧
    ((process_endpoint (fun _ => OracleOut.ok (txt "x"))
        (fun _ => Except.ok vresE1) epX).attempts[(0 + 1)]? = some ⟨1, some (txt "E1")⟩) ∧
    ((⟨1, some (txt "E1")⟩ : AttemptRec).feedback =
      some (joinNl ((fun _ : Text => vresE1) (fix_common_issues ((fun _ : Nat => txt "x") 0))).errors)) :=
  ⟨by decide,
   (feedback_previous_attempt_only epX (fun _ => txt "x") (fun _ => vresE1)).2.1
     (txt "E1") (by decide),
   by decide,
   (feedback_previous_attempt_only epX (fun _ => txt "x") (fun _ => vresE1)).2.2.2
     0 ⟨1, some (txt "E1")⟩ (by decide)⟩

/-!
## Idempotence of `clamp_any_literal`

The lookarounds `(?<![\w.])` and `(?![\w.])` keep distinct matches separated
by a non-word-dot character, and a clamped site re-matches to the very same
replacement, so one pass reaches a fixed point of the scan. -/

/-- Digits are word-dot characters. -/
theorem digit_wordDot {c : Char} (h : digitChar c = true) : wordDot c = true := by
  unfold digitChar at h
  unfold wordDot wordChar
  rw [h]
  simp

/-- Characters of a shaped literal are word-dot characters. -/
theorem litShape_wordDot {lit : Text} (h : litShape lit = true) :
    ∀ c ∈ lit, wordDot c = true := by
  intro c hc
  rcases litShape_chars h c hc with hd | hd
  · exact digit_wordDot hd
  · rw [hd]; decide

/-- The clamp step fails on the empty text. -/
theorem clampLitStep_nil (l : Dec) (p : Option Char) : clampLitStep l p [] = none := by
  unfold clampLitStep
  cases p with
  | none => rfl
  | some c => cases hw : wordDot c <;> simp [hw, numLit?, span1]

/-- The clamp step fails right after a word-or-dot character. -/
theorem clampLitStep_prevBad {d : Char} (l : Dec) (hd : wordDot d = true) (s : Text) :
    clampLitStep l (some d) s = none := by
  unfold clampLitStep
  simp [hd]

/-- The clamp step under a passing lookbehind. -/
theorem clampLitStep_prevOk {l : Dec} {p : Option Char}
    (hp : ∀ c, p = some c → wordDot c = false) (s : Text) :
    clampLitStep l p s =
      match numLit? s with
      | none => none
      | some (lit, r2) =>
        if (match r2 with | [] => true | c :: _ => !wordDot c) then
          some ((if l.lt (litValText lit) then intToText (pyRound0 (l.mul decNine)) else lit),
            lit.length - 1)
        else none := by
  cases p with
  | none => rfl
  | some c =>
    have hw := hp c rfl
    simp only [clampLitStep, hw, Bool.not_false, if_true]

/-- Completeness of the clamp step: shaped literal, passing lookarounds. -/
theorem clampLitStep_complete {l : Dec} {p : Option Char} (lit r2 : Text)
    (hsh : litShape lit = true)
    (hp : ∀ c, p = some c → wordDot c = false)
    (hr2 : ∀ c, r2.head? = some c → wordDot c = false) :
    clampLitStep l p (lit ++ r2) =
      some ((if l.lt (litValText lit) then intToText (pyRound0 (l.mul decNine)) else lit),
        lit.length - 1) := by
  rw [clampLitStep_prevOk hp]
  have hnum : numLit? (lit ++ r2) = some (lit, r2) := by
    apply numLit?_complete _ hsh
    cases r2 with
    | nil => trivial
    | cons c cs =>
      have hwc := hr2 c rfl
      constructor
      · cases hd : digitChar c
        · rfl
        · rw [digit_wordDot hd] at hwc; exact Bool.noConfusion hwc
      · intro he
        rw [he] at hwc
        exact absurd hwc (by decide)
  simp only [hnum]
  cases r2 with
  | nil => rfl
  | cons c cs =>
    have hwc := hr2 c rfl
    simp [hwc]

/-- Soundness of the clamp step. -/
theorem clampLitStep_sound {l : Dec} {p : Option Char} {s r : Text} {n : Nat}
    (h : clampLitStep l p s = some (r, n)) :
    ∃ lit r2, s = lit ++ r2 ∧ litShape lit = true ∧
      (∀ c, p = some c → wordDot c = false) ∧
      (∀ c, r2.head? = some c → wordDot c = false) ∧
      r = (if l.lt (litValText lit) then intToText (pyRound0 (l.mul decNine)) else lit) ∧
      n + 1 = lit.length := by
  have hp : ∀ c, p = some c → wordDot c = false := by
    intro c hc
    subst hc
    cases hw : wordDot c with
    | false => rfl
    | true =>
      rw [clampLitStep_prevBad l hw] at h
      exact Option.noConfusion h
  rw [clampLitStep_prevOk hp] at h
  cases hnl : numLit? s with
  | none =>
    rw [hnl] at h
    exact Option.noConfusion h
  | some q =>
    rcases q with ⟨lit, r2⟩
    simp only [hnl] at h
    obtain ⟨hs, hsh, _⟩ := numLit?_sound hnl
    split at h
    · rename_i hnx
      injection h with h1
      injection h1 with hr hn
      have hlen : 1 ≤ lit.length := by
        rcases litShape_head_digit hsh with ⟨d, t, hdt, _⟩
        rw [hdt]
        simp
      refine ⟨lit, r2, hs, hsh, hp, ?_, hr.symm, by omega⟩
      intro c hc
      cases r2 with
      | nil => exact Option.noConfusion hc
      | cons d cs =>
        injection hc with hdc
        rw [← hdc]
        simpa using hnx
    · exact Option.noConfusion h

/-- The scanner on the empty text. -/
theorem substF_nil (step : Step Text) (fuel : Nat) (p : Option Char) :
    substF step fuel p [] = [] := by
  cases fuel <;> rfl

/-- Round-half-even of a nonnegative decimal is nonnegative. -/
theorem pyRound0_nonneg {d : Dec} (h : 0 ≤ d.num) : 0 ≤ pyRound0 d := by
  have hp : (0 : Int) < 10 ^ d.exp := pow_pos (by norm_num) _
  have hf : 0 ≤ Int.fdiv d.num ((10 : Int) ^ d.exp) := Int.fdiv_nonneg h (le_of_lt hp)
  simp only [pyRound0]
  split
  · exact hf
  · split
    · omega
    · split
      · exact hf
      · omega

/-- `intToText` of a nonnegative integer is the digit text of its magnitude. -/
theorem intToText_ofNonneg {k : Int} (h : 0 ≤ k) : intToText k = natToText k.toNat := by
  unfold intToText
  rw [if_neg (by omega)]

/-- Natural-number digit texts are shaped literals. -/
theorem litShape_natToText (n : Nat) : litShape (natToText n) = true :=
  litShape_int (natToText_ne_nil n) (natToText_digits n)

/-- The clamped replacement digits form a shaped literal. -/
theorem litShape_clampRepl {l : Dec} (hl : 0 ≤ l.num) :
    litShape (intToText (pyRound0 (l.mul decNine))) = true := by
  have h9 : 0 ≤ (l.mul decNine).num := by
    show 0 ≤ l.num * (9 : Int)
    omega
  rw [intToText_ofNonneg (pyRound0_nonneg h9)]
  exact litShape_natToText _

/-- One clamp pass is scan-stable: every literal the output still matches is
replaced by itself, either because it was kept (within the limit) or because
it already is the clamp digits. -/
theorem clampLit_stable (l : Dec) (hl : 0 ≤ l.num) :
    ∀ N x prev, x.length ≤ N →
      stepStable (clampLitStep l) prev (substF (clampLitStep l) x.length prev x) := by
  intro N
  induction N with
  | zero =>
    intro x prev hx
    have hx0 : x = [] := List.length_eq_zero.mp (Nat.le_zero.mp hx)
    subst hx0
    intro i r n h
    rw [substF_nil, List.drop_nil, clampLitStep_nil] at h
    exact Option.noConfusion h
  | succ N ih =>
    intro x prev hx
    rcases substF_decomp (clampLitStep l) x prev with ⟨hid, hfail⟩ |
      ⟨A, r1, n1, hAl, hAtake, hfail, hstep, hout⟩
    · rw [hid]
      intro i r n h
      by_cases hi : i < x.length
      · rw [hfail i hi] at h
        exact Option.noConfusion h
      · rw [List.drop_eq_nil_of_le (le_of_not_lt hi), clampLitStep_nil] at h
        exact Option.noConfusion h
    · obtain ⟨lit, r2, hsplit, hsh, hpOk, hnOk, hr1, hn1⟩ := clampLitStep_sound hstep
      have hlitlen : 1 ≤ lit.length := by
        rcases litShape_head_digit hsh with ⟨d, t, hdt, _⟩
        rw [hdt]
        simp
      have hr1sh : litShape r1 = true := by
        rw [hr1]
        split
        · exact litShape_clampRepl hl
        · exact hsh
      have hr1len : 1 ≤ r1.length := by
        rcases litShape_head_digit hr1sh with ⟨d, t, hdt, _⟩
        rw [hdt]
        simp
      have hxlen : A.length + lit.length + r2.length = x.length := by
        have h2 := congrArg List.length hsplit
        rw [List.length_drop, List.length_append] at h2
        omega
      have hr2N : r2.length ≤ N := by omega
      have hrest : x.drop (A.length + n1 + 1) = r2 := by
        rw [show A.length + n1 + 1 = A.length + (n1 + 1) by omega, ← List.drop_drop,
          hsplit, hn1, List.drop_left]
      rw [hout, hrest]
      set out := substF (clampLitStep l) r2.length (x.get? (A.length + n1)) r2 with hdefout
      have houthead : ∀ c0, out.head? = some c0 → wordDot c0 = false := by
        intro c0 hc0
        cases hr2c : r2 with
        | nil =>
          rw [hdefout, hr2c, substF_nil] at hc0
          exact Option.noConfusion hc0
        | cons c cs =>
          obtain ⟨d, hpd, hdig⟩ : ∃ d, x.get? (A.length + n1) = some d ∧
              digitChar d = true := by
            rcases litShape_getLast_digit hsh with ⟨d, hd, hdig⟩
            refine ⟨d, ?_, hdig⟩
            have h3 : x.get? (A.length + n1) = (x.drop A.length).get? n1 := by
              rw [List.get?_drop]
            rw [h3, hsplit, List.get?_append (show n1 < lit.length by omega)]
            rw [List.getLast?_eq_get?] at hd
            rw [show n1 = lit.length - 1 by omega]
            exact hd
          have hstep0 : clampLitStep l (x.get? (A.length + n1)) (c :: cs) = none := by
            rw [hpd]
            exact clampLitStep_prevBad l (digit_wordDot hdig) _
          rw [hdefout, hr2c] at hc0
          have hone : substF (clampLitStep l) (c :: cs).length (x.get? (A.length + n1))
              (c :: cs) = c :: substF (clampLitStep l) cs.length (some c) cs := by
            simp only [List.length_cons, substF, hstep0]
          rw [hone] at hc0
          injection hc0 with hc0'
          rw [← hc0']
          exact hnOk c (by rw [hr2c]; rfl)
      have hgetA : ∀ j, j < A.length → x.get? j = A.get? j := by
        intro j hj
        rw [← hAtake, List.get?_take hj]
      have hgetY : ∀ j, j < A.length → (A ++ r1 ++ out).get? j = A.get? j := by
        intro j hj
        rw [List.append_assoc, List.get?_append hj]
      have hprevEq : ∀ i0, i0 ≤ A.length →
          prevAt prev (A ++ r1 ++ out) i0 = prevAt prev x i0 := by
        intro i0 hi0
        cases i0 with
        | zero => rfl
        | succ j =>
          show (A ++ r1 ++ out).get? j = x.get? j
          rw [hgetY j (by omega), hgetA j (by omega)]
      intro i r n h
      by_cases hia : i < A.length
      · -- a match strictly inside the untouched zone would have fired in the pass
        exfalso
        obtain ⟨lit', r2', hsplit', hsh', hpOk', hnOk', _, _⟩ := clampLitStep_sound h
        obtain ⟨ca, hca⟩ : ∃ ca, A.get? (A.length - 1) = some ca := by
          have h4 : A.length - 1 < A.length := by omega
          exact ⟨A.get ⟨A.length - 1, h4⟩, List.get?_eq_get h4⟩
        have hcaw : wordDot ca = false := by
          apply hpOk ca
          obtain ⟨k, hk⟩ : ∃ k, A.length = k + 1 := ⟨A.length - 1, by omega⟩
          rw [hk]
          show x.get? k = some ca
          rw [hgetA k (by omega), show k = A.length - 1 by omega]
          exact hca
        have hlitlen' : 1 ≤ lit'.length := by
          rcases litShape_head_digit hsh' with ⟨d, t, hdt, _⟩
          rw [hdt]
          simp
        have hbound : i + lit'.length < A.length := by
          by_contra hcon
          push_neg at hcon
          have h5 : lit'.get? (A.length - 1 - i) = some ca := by
            have h6 : lit'.get? (A.length - 1 - i) =
                ((A ++ r1 ++ out).drop i).get? (A.length - 1 - i) := by
              rw [hsplit', List.get?_append (show A.length - 1 - i < lit'.length by omega)]
            rw [h6, List.get?_drop, show i + (A.length - 1 - i) = A.length - 1 by omega,
              hgetY (A.length - 1) (by omega)]
            exact hca
          have h7 := litShape_wordDot hsh' ca (List.get?_mem h5)
          rw [hcaw] at h7
          exact Bool.noConfusion h7
        have hAdrop : (A ++ r1 ++ out).drop i = A.drop i ++ (r1 ++ out) := by
          rw [List.append_assoc, List.drop_append_of_le_length (by omega)]
        have hlitpre : (A.drop i).take lit'.length = lit' := by
          have h7 : ((A ++ r1 ++ out).drop i).take lit'.length = lit' := by
            rw [hsplit', List.take_left]
          rw [hAdrop, List.take_append_of_le_length
            (by rw [List.length_drop]; omega)] at h7
          exact h7
        have hudef : A.drop i = lit' ++ (A.drop i).drop lit'.length := by
          conv_lhs => rw [← List.take_append_drop lit'.length (A.drop i)]
          rw [hlitpre]
        have hulen : 1 ≤ ((A.drop i).drop lit'.length).length := by
          rw [List.length_drop, List.length_drop]
          omega
        have hr2'eq : r2' = (A.drop i).drop lit'.length ++ (r1 ++ out) := by
          have h8 : lit' ++ r2' = lit' ++ ((A.drop i).drop lit'.length ++ (r1 ++ out)) := by
            rw [← List.append_assoc, ← hudef, ← hAdrop, ← hsplit']
          exact List.append_cancel_left h8
        have hheadu : ∀ c, ((A.drop i).drop lit'.length).head? = some c →
            wordDot c = false := by
          intro c hc
          apply hnOk' c
          rw [hr2'eq]
          cases hu : (A.drop i).drop lit'.length with
          | nil =>
            rw [hu] at hulen
            simp at hulen
          | cons u0 us =>
            rw [hu] at hc
            exact hc
        have hxdrop : x.drop i = lit' ++ ((A.drop i).drop lit'.length ++ (lit ++ r2)) := by
          have h9 : x.drop i = A.drop i ++ (lit ++ r2) := by
            conv_lhs => rw [← List.take_append_drop A.length x]
            rw [hAtake, hsplit, List.drop_append_of_le_length (by omega)]
          rw [h9]
          conv_lhs => rw [hudef]
          rw [List.append_assoc]
        have hpx : ∀ c, prevAt prev x i = some c → wordDot c = false := by
          intro c hc
          apply hpOk' c
          rw [hprevEq i (by omega)]
          exact hc
        have htail : ∀ c, ((A.drop i).drop lit'.length ++ (lit ++ r2)).head? = some c →
            wordDot c = false := by
          intro c hc
          apply hheadu c
          cases hu : (A.drop i).drop lit'.length with
          | nil =>
            rw [hu] at hulen
            simp at hulen
          | cons u0 us =>
            rw [hu] at hc
            exact hc
        have hcontra := @clampLitStep_complete l (prevAt prev x i) lit'
          ((A.drop i).drop lit'.length ++ (lit ++ r2)) hsh' hpx htail
        rw [← hxdrop, hfail i hia] at hcontra
        exact Option.noConfusion hcontra
      · have hdropa : (A ++ r1 ++ out).drop A.length = r1 ++ out := by
          rw [List.append_assoc, List.drop_left]
        by_cases hia2 : i = A.length
        · -- the replaced site re-matches and re-emits itself
          subst hia2
          have hpOkY : ∀ c, prevAt prev (A ++ r1 ++ out) A.length = some c →
              wordDot c = false := by
            intro c hc
            apply hpOk c
            rw [← hprevEq A.length le_rfl]
            exact hc
          have hmatch := @clampLitStep_complete l
            (prevAt prev (A ++ r1 ++ out) A.length) r1 out hr1sh hpOkY houthead
          rw [hdropa, hmatch] at h
          injection h with h1
          injection h1 with hreq hneq
          rw [hdropa, show n + 1 = r1.length by omega, List.take_left, ← hreq]
          by_cases hlt : l.lt (litValText lit) = true
          · rw [if_pos hlt] at hr1
            rw [hr1]
            exact ite_self _
          · rw [if_neg hlt] at hr1
            rw [hr1, if_neg hlt]
        · by_cases him : i ≤ A.length + r1.length
          · -- inside the replacement: the left neighbour is a literal character
            exfalso
            obtain ⟨j, hj⟩ : ∃ j, i = j + 1 := ⟨i - 1, by omega⟩
            have hjb : A.length ≤ j ∧ j - A.length < r1.length := by omega
            obtain ⟨cb, hcb⟩ : ∃ cb, r1.get? (j - A.length) = some cb :=
              ⟨r1.get ⟨j - A.length, hjb.2⟩, List.get?_eq_get hjb.2⟩
            have hw := litShape_wordDot hr1sh cb (List.get?_mem hcb)
            have hprev : prevAt prev (A ++ r1 ++ out) i = some cb := by
              rw [hj]
              show (A ++ r1 ++ out).get? j = some cb
              rw [List.append_assoc, List.get?_append_right hjb.1,
                List.get?_append hjb.2]
              exact hcb
            rw [hprev, clampLitStep_prevBad l hw] at h
            exact Option.noConfusion h
          · -- beyond the replacement: the recursion output is stable by induction
            have hj1 : A.length + r1.length < i := by omega
            have hiy : (A ++ r1 ++ out).drop i =
                out.drop (i - (A.length + r1.length)) := by
              have hlen12 : (A ++ r1).length = A.length + r1.length := by
                rw [List.length_append]
              have h1 : (A ++ r1 ++ out).drop i =
                  ((A ++ r1) ++ out).drop ((A ++ r1).length + (i - (A.length + r1.length))) := by
                rw [hlen12]
                congr 1
                omega
              rw [h1, ← List.drop_drop, List.drop_left]
            obtain ⟨j0, hj0⟩ : ∃ j0, i - (A.length + r1.length) = j0 + 1 :=
              ⟨i - (A.length + r1.length) - 1, by omega⟩
            obtain ⟨k, hk⟩ : ∃ k, i = k + 1 := ⟨i - 1, by omega⟩
            have hprevY : prevAt prev (A ++ r1 ++ out) i =
                prevAt (x.get? (A.length + n1)) out (i - (A.length + r1.length)) := by
              rw [hj0, hk]
              show (A ++ r1 ++ out).get? k = out.get? j0
              rw [List.append_assoc, List.get?_append_right (show A.length ≤ k by omega),
                List.get?_append_right (show r1.length ≤ k - A.length by omega)]
              congr 1
              omega
            rw [hiy, hprevY] at h
            rw [hiy]
            exact ih r2 (x.get? (A.length + n1)) hr2N (i - (A.length + r1.length)) r n h

/-- `clamp_any_literal` with a discovered ceiling of nonnegative value is
idempotent. -/
theorem clamp_any_literal_idem {l : Dec} (hl : 0 ≤ l.num) (x : Text) :
    clamp_any_literal (clamp_any_literal x (some l)) (some l) =
      clamp_any_literal x (some l) := by
  show pySub (clampLitStep l) (pySub (clampLitStep l) x) = pySub (clampLitStep l) x
  exact pySub_fix (clampLit_stable l hl x.length x none le_rfl)

/-!
## Idempotence of `patch_revenue_assert`

Two facts carry the proof: substituting the revenue sum into the
`assertEquals` groups leaves the `SET_TOTAL` capture list unchanged (so the
second pass computes the same sum), and the substituted text is a fixed
point of the `ASSERT_EQ` scan. -/

/-- The `SET_TOTAL` marker fails on any text not starting with a dot. -/
theorem setTotalAt_cons_ne {c : Char} (hc : c ≠ '.') (t : Text) :
    setTotalAt (c :: t) = none := by
  unfold setTotalAt
  have hd : dropPrefix? (txt ".setTotal(") (c :: t) = none := by
    unfold dropPrefix?
    rw [if_neg]
    intro hp
    rcases List.isPrefixOf_iff_prefix.mp hp with ⟨u, hu⟩
    have h2 : '.' :: (txt "setTotal(" ++ u) = c :: t := by
      rw [← hu]
      rfl
    injection h2 with h3 _
    exact hc h3.symm
  simp only [hd]

/-- The `SET_TOTAL` marker fails on a dot not followed by `s`. -/
theorem setTotalAt_dot_ne {c : Char} (hc : c ≠ 's') (t : Text) :
    setTotalAt ('.' :: c :: t) = none := by
  unfold setTotalAt
  have hd : dropPrefix? (txt ".setTotal(") ('.' :: c :: t) = none := by
    unfold dropPrefix?
    rw [if_neg]
    intro hp
    rcases List.isPrefixOf_iff_prefix.mp hp with ⟨u, hu⟩
    have h2 : '.' :: 's' :: (txt "etTotal(" ++ u) = '.' :: c :: t := by
      rw [← hu]
      rfl
    injection h2 with _ h3
    injection h3 with h4 _
    exact hc h4.symm
  simp only [hd]

/-- Texts none of whose suffixes can start a `SET_TOTAL` match, whatever
follows them. -/
def stInert (v : Text) : Prop :=
  ∀ j z, j < v.length → setTotalAt (v.drop j ++ z) = none

/-- Inertness is closed under append. -/
theorem stInert_append {v1 v2 : Text} (h1 : stInert v1) (h2 : stInert v2) :
    stInert (v1 ++ v2) := by
  intro j z hj
  rw [List.length_append] at hj
  by_cases hjv : j < v1.length
  · rw [List.drop_append_of_le_length (le_of_lt hjv), List.append_assoc]
    exact h1 j (v2 ++ z) hjv
  · have h3 : (v1 ++ v2).drop j = v2.drop (j - v1.length) := by
      have h4 : (v1 ++ v2).drop j = (v1 ++ v2).drop (v1.length + (j - v1.length)) := by
        congr 1
        omega
      rw [h4, ← List.drop_drop, List.drop_left]
    rw [h3]
    exact h2 (j - v1.length) z (by omega)

/-- A dot-free text is inert. -/
theorem stInert_no_dot {v : Text} (h : ∀ c ∈ v, c ≠ '.') : stInert v := by
  intro j z hj
  have hd : v.drop j = v.get ⟨j, hj⟩ :: v.drop (j + 1) := List.drop_eq_getElem_cons hj
  rw [hd, List.cons_append]
  exact setTotalAt_cons_ne (h _ (List.get_mem v j hj)) _

/-- A shaped literal is inert: its only dots are followed by digits. -/
theorem stInert_lit {lit : Text} (hsh : litShape lit = true) : stInert lit := by
  intro j z hj
  have hd : lit.drop j = lit.get ⟨j, hj⟩ :: lit.drop (j + 1) := List.drop_eq_getElem_cons hj
  by_cases hdot : lit.get ⟨j, hj⟩ = '.'
  · have hd2 : lit.drop j = '.' :: lit.drop (j + 1) := by rw [hd, hdot]
    obtain ⟨d, z2, hz, hdig⟩ := litShape_dot_next hsh j hd2
    rw [hd2, hz, List.cons_append, List.cons_append]
    apply setTotalAt_dot_ne
    intro hds
    rw [hds] at hdig
    exact absurd hdig (by decide)
  · rw [hd, List.cons_append]
    exact setTotalAt_cons_ne hdot _

/-- `collectF` is fuel-irrelevant above the text length. -/
theorem collectF_fuel_eq {α : Type} (step : Step α) :
    ∀ f1 f2 prev s, s.length ≤ f1 → s.length ≤ f2 →
      collectF step f1 prev s = collectF step f2 prev s := by
  intro f1
  induction f1 with
  | zero =>
    intro f2 prev s h1 _
    have hs : s = [] := List.length_eq_zero.mp (Nat.le_zero.mp h1)
    subst hs
    cases f2 <;> rfl
  | succ a ih =>
    intro f2 prev s h1 h2
    cases s with
    | nil => cases f2 <;> rfl
    | cons c cs =>
      cases f2 with
      | zero => simp at h2
      | succ b =>
        simp only [List.length_cons] at h1 h2
        cases hstep : step prev (c :: cs) with
        | some p =>
          rcases p with ⟨x, n⟩
          simp only [collectF, hstep]
          congr 1
          apply ih
          · rw [List.length_drop]; omega
          · rw [List.length_drop]; omega
        | none =>
          simp only [collectF, hstep]
          apply ih
          · omega
          · omega

/-- `collectF` of a lookbehind-free step does not depend on the lookbehind. -/
theorem collectF_prevFree {α : Type} {step : Step α} (h : prevFree step) :
    ∀ fuel p q s, collectF step fuel p s = collectF step fuel q s := by
  intro fuel
  induction fuel with
  | zero => intro p q s; rfl
  | succ f ih =>
    intro p q s
    cases s with
    | nil => rfl
    | cons c cs =>
      show (match step p (c :: cs) with
        | some (a, n) => a :: collectF step f ((c :: cs).get? n) (cs.drop n)
        | none => collectF step f (some c) cs) =
        (match step q (c :: cs) with
        | some (a, n) => a :: collectF step f ((c :: cs).get? n) (cs.drop n)
        | none => collectF step f (some c) cs)
      rw [h p q (c :: cs)]

/-- One failing scan step of `collectF`. -/
theorem collectF_cons_none {α : Type} {step : Step α} {p : Option Char} {c : Char}
    {cs : Text} (h : step p (c :: cs) = none) :
    collectF step (c :: cs).length p (c :: cs) = collectF step cs.length (some c) cs := by
  simp only [List.length_cons, collectF, h]

/-- One matching scan step of `collectF`. -/
theorem collectF_cons_some {α : Type} {step : Step α} {p : Option Char} {c : Char}
    {cs : Text} {a : α} {n : Nat} (h : step p (c :: cs) = some (a, n)) :
    collectF step (c :: cs).length p (c :: cs) =
      a :: collectF step cs.length ((c :: cs).get? n) (cs.drop n) := by
  simp only [List.length_cons, collectF, h]

/-- The capture step ignores its lookbehind. -/
theorem setTotalCap_prevFree : prevFree setTotalCap := fun _ _ _ => rfl

/-- The capture scan walks over an inert segment without collecting. -/
theorem collect_skip : ∀ (v z : Text) (p : Option Char), stInert v →
    collectF setTotalCap (v ++ z).length p (v ++ z) =
      collectF setTotalCap z.length none z := by
  intro v
  induction v with
  | nil =>
    intro z p _
    exact collectF_prevFree setTotalCap_prevFree z.length p none z
  | cons c v' ih =>
    intro z p hin
    have h0 : setTotalCap p (c :: (v' ++ z)) = none := hin 0 z (by simp)
    have hstep : collectF setTotalCap ((c :: v') ++ z).length p ((c :: v') ++ z) =
        collectF setTotalCap (v' ++ z).length (some c) (v' ++ z) := by
      rw [show (c :: v') ++ z = c :: (v' ++ z) from rfl]
      exact collectF_cons_none h0
    rw [hstep]
    apply ih
    intro j z' hj
    exact hin (j + 1) z' (by rw [List.length_cons]; omega)

/-- A `SET_TOTAL` match in front of text starting `as…` lies entirely in the
front part: the instance is a prefix-segment of `u`. -/
theorem setTotalAt_front {u w lit : Text} {n : Nat}
    (hw0 : w.get? 0 = some 'a') (hw1 : w.get? 1 = some 's')
    (h : setTotalAt (u ++ w) = some (lit, n)) :
    txt ".setTotal(" ++ lit ++ [')'] <+: u ∧ litShape lit = true ∧ n = 10 + lit.length := by
  obtain ⟨rest, hs, hsh, hn⟩ := setTotalAt_sound h
  refine ⟨?_, hsh, hn⟩
  have h10 : (txt ".setTotal(").length = 10 := rfl
  have hIlen : (txt ".setTotal(" ++ lit ++ [')']).length = 11 + lit.length := by
    rw [List.length_append, List.length_append, h10]
    simp
    omega
  have hsplit : u ++ w = (txt ".setTotal(" ++ lit ++ [')']) ++ rest := by
    rw [hs]
    simp
  by_cases hle : (txt ".setTotal(" ++ lit ++ [')']).length ≤ u.length
  · have h1 : (u ++ w).take (txt ".setTotal(" ++ lit ++ [')']).length =
        txt ".setTotal(" ++ lit ++ [')'] := by
      rw [hsplit, List.take_left]
    rw [List.take_append_of_le_length hle] at h1
    refine ⟨u.drop (txt ".setTotal(" ++ lit ++ [')']).length, ?_⟩
    conv_rhs => rw [← List.take_append_drop (txt ".setTotal(" ++ lit ++ [')']).length u]
    rw [h1]
  · exfalso
    push_neg at hle
    have hw2 : u.length < (txt ".setTotal(" ++ lit ++ [')']).length := hle
    have hca : (txt ".setTotal(" ++ lit ++ [')']).get? u.length = some 'a' := by
      have h2 : (u ++ w).get? u.length = some 'a' := by
        rw [List.get?_append_right (le_refl _)]
        simpa using hw0
      rw [hsplit, List.get?_append hw2] at h2
      exact h2
    have hI2 : (txt ".setTotal(" ++ lit ++ [')'] : Text) =
        txt ".setTotal(" ++ (lit ++ [')']) := by
      rw [List.append_assoc]
    by_cases hu10 : u.length < 10
    · have hm : (txt ".setTotal(").get? u.length = some 'a' := by
        rw [hI2, List.get?_append (by rw [h10]; omega)] at hca
        exact hca
      have hu7 : u.length = 7 := by
        have hk : ∀ k < 10, (txt ".setTotal(").get? k = some 'a' → k = 7 := by decide
        exact hk u.length hu10 hm
      have hc8 : (txt ".setTotal(" ++ lit ++ [')']).get? 8 = some 's' := by
        have h3 : (u ++ w).get? (u.length + 1) = some 's' := by
          rw [List.get?_append_right (by omega)]
          simpa using hw1
        rw [hsplit, List.get?_append (by rw [hIlen]; omega), hu7] at h3
        exact h3
      rw [hI2, List.get?_append (by rw [h10]; omega)] at hc8
      exact absurd hc8 (by decide)
    · push_neg at hu10
      rw [hI2, List.get?_append_right (by rw [h10]; omega), h10] at hca
      have hmem : 'a' ∈ lit ++ [')'] := List.get?_mem hca
      rcases List.mem_append.mp hmem with h4 | h4
      · rcases litShape_chars hsh 'a' h4 with h5 | h5
        · exact absurd h5 (by decide)
        · exact absurd h5 (by decide)
      · simp at h4

/-- The `SET_TOTAL` step cannot tell apart two continuations that both start
`as…`: any match lies in the shared front. -/
theorem setTotalAt_agree (u w1 w2 : Text)
    (h10 : w1.get? 0 = some 'a') (h11 : w1.get? 1 = some 's')
    (h20 : w2.get? 0 = some 'a') (h21 : w2.get? 1 = some 's') :
    setTotalAt (u ++ w1) = setTotalAt (u ++ w2) := by
  have key : ∀ {wa wb : Text}, wa.get? 0 = some 'a' → wa.get? 1 = some 's' →
      ∀ {lit : Text} {n : Nat}, setTotalAt (u ++ wa) = some (lit, n) →
        setTotalAt (u ++ wb) = some (lit, n) := by
    intro wa wb ha0 ha1 lit n h
    obtain ⟨hpre, hsh, hn⟩ := setTotalAt_front ha0 ha1 h
    rcases hpre with ⟨u', hu⟩
    have hs2 : u ++ wb = txt ".setTotal(" ++ lit ++ ')' :: (u' ++ wb) := by
      rw [← hu]
      simp
    rw [hs2, setTotalAt_complete _ hsh, hn]
  cases h1 : setTotalAt (u ++ w1) with
  | some p =>
    rcases p with ⟨lit, n⟩
    exact (key h10 h11 h1).symm
  | none =>
    cases h2 : setTotalAt (u ++ w2) with
    | none => rfl
    | some p =>
      rcases p with ⟨lit, n⟩
      rw [key h20 h21 h2] at h1
      exact Option.noConfusion h1

/-- The capture scan steps over the two shared junction characters. -/
theorem collect_front_base (w : Text) (p : Option Char) :
    collectF setTotalCap ('a' :: 's' :: w).length p ('a' :: 's' :: w) =
      collectF setTotalCap w.length (some 's') w := by
  have h1 : setTotalCap p ('a' :: 's' :: w) = none := setTotalAt_cons_ne (by decide) _
  have h2 : setTotalCap (some 'a') ('s' :: w) = none := setTotalAt_cons_ne (by decide) _
  rw [collectF_cons_none h1, collectF_cons_none h2]

/-- Joint decomposition of the capture scan over a shared front `u` followed
by two different continuations that both start `as…`: the front contributes
the same capture list to both. -/
theorem collect_front :
    ∀ N u w1 w2 p1 p2, u.length ≤ N →
      ∃ L,
        collectF setTotalCap (u ++ 'a' :: 's' :: w1).length p1 (u ++ 'a' :: 's' :: w1) =
          L ++ collectF setTotalCap w1.length (some 's') w1 ∧
        collectF setTotalCap (u ++ 'a' :: 's' :: w2).length p2 (u ++ 'a' :: 's' :: w2) =
          L ++ collectF setTotalCap w2.length (some 's') w2 := by
  intro N
  induction N with
  | zero =>
    intro u w1 w2 p1 p2 hu
    have hu0 : u = [] := List.length_eq_zero.mp (Nat.le_zero.mp hu)
    subst hu0
    exact ⟨[], collect_front_base w1 p1, collect_front_base w2 p2⟩
  | succ N ih =>
    intro u w1 w2 p1 p2 hu
    cases u with
    | nil => exact ⟨[], collect_front_base w1 p1, collect_front_base w2 p2⟩
    | cons c u' =>
      have hag := setTotalAt_agree (c :: u') ('a' :: 's' :: w1) ('a' :: 's' :: w2)
        rfl rfl rfl rfl
      cases hst : setTotalAt ((c :: u') ++ 'a' :: 's' :: w1) with
      | none =>
        have hst2 : setTotalAt ((c :: u') ++ 'a' :: 's' :: w2) = none := by
          rw [← hag]
          exact hst
        obtain ⟨L, hL1, hL2⟩ := ih u' w1 w2 (some c) (some c) (by simp at hu; omega)
        refine ⟨L, ?_, ?_⟩
        · rw [show (c :: u') ++ 'a' :: 's' :: w1 = c :: (u' ++ 'a' :: 's' :: w1) from rfl,
            collectF_cons_none
              (show setTotalCap p1 (c :: (u' ++ 'a' :: 's' :: w1)) = none from hst)]
          exact hL1
        · rw [show (c :: u') ++ 'a' :: 's' :: w2 = c :: (u' ++ 'a' :: 's' :: w2) from rfl,
            collectF_cons_none
              (show setTotalCap p2 (c :: (u' ++ 'a' :: 's' :: w2)) = none from hst2)]
          exact hL2
      | some q =>
        rcases q with ⟨lit, n⟩
        have hst2 : setTotalAt ((c :: u') ++ 'a' :: 's' :: w2) = some (lit, n) := by
          rw [← hag]
          exact hst
        obtain ⟨hpre, hsh, hn⟩ :=
          @setTotalAt_front (c :: u') ('a' :: 's' :: w1) lit n rfl rfl hst
        have hIlen : (txt ".setTotal(" ++ lit ++ [')']).length = 11 + lit.length := by
          rw [List.length_append, List.length_append,
            show (txt ".setTotal(").length = 10 from rfl]
          simp
          omega
        have hinstlen : 11 + lit.length ≤ u'.length + 1 := by
          have h5 := hpre.length_le
          rw [hIlen] at h5
          simpa using h5
        have hnu : n ≤ u'.length := by omega
        have hdropeq : ∀ (w : Text), (u' ++ 'a' :: 's' :: w).drop n =
            u'.drop n ++ 'a' :: 's' :: w := fun w =>
          List.drop_append_of_le_length hnu
        obtain ⟨L', hL1', hL2'⟩ := ih (u'.drop n) w1 w2
          ((c :: (u' ++ 'a' :: 's' :: w1)).get? n) ((c :: (u' ++ 'a' :: 's' :: w2)).get? n)
          (by rw [List.length_drop]; simp at hu; omega)
        refine ⟨lit :: L', ?_, ?_⟩
        · rw [show (c :: u') ++ 'a' :: 's' :: w1 = c :: (u' ++ 'a' :: 's' :: w1) from rfl,
            collectF_cons_some
              (show setTotalCap p1 (c :: (u' ++ 'a' :: 's' :: w1)) = some (lit, n) from hst)]
          rw [hdropeq w1]
          rw [collectF_fuel_eq setTotalCap (u' ++ 'a' :: 's' :: w1).length
            (u'.drop n ++ 'a' :: 's' :: w1).length _ _
            (by simp [List.length_drop]) (le_refl _)]
          rw [hL1']
          simp
        · rw [show (c :: u') ++ 'a' :: 's' :: w2 = c :: (u' ++ 'a' :: 's' :: w2) from rfl,
            collectF_cons_some
              (show setTotalCap p2 (c :: (u' ++ 'a' :: 's' :: w2)) = some (lit, n) from hst2)]
          rw [hdropeq w2]
          rw [collectF_fuel_eq setTotalCap (u' ++ 'a' :: 's' :: w2).length
            (u'.drop n ++ 'a' :: 's' :: w2).length _ _
            (by simp [List.length_drop]) (le_refl _)]
          rw [hL2']
          simp

/-- `span0` over a satisfying run followed by a blocked head. -/
theorem span0_append {p : Char → Bool} {a : Text} (b : Text)
    (hall : ∀ c ∈ a, p c = true) (hb : headNot p b) :
    span0 p (a ++ b) = (a, b) := by
  unfold span0
  rw [takeWhile_append_all b hall, takeWhile_eq_nil_of_headNot hb, List.append_nil]
  rw [List.dropWhile_append]
  have h1 : a.dropWhile p = [] := List.dropWhile_eq_nil_iff.mpr hall
  rw [h1]
  simp [dropWhile_eq_self_of_headNot hb]

/-- Soundness of the `ASSERT_EQ` step. -/
theorem assertEqStep_sound {S s r : Text} {n : Nat} {p : Option Char}
    (h : assertEqStep S p s = some (r, n)) :
    ∃ lit sp z, s = txt "assertEquals(" ++ lit ++ ',' :: sp ++ txt "result)" ++ z ∧
      litShape lit = true ∧ (∀ c ∈ sp, spaceChar c = true) ∧
      r = pyReplace (txt "assertEquals(" ++ lit ++ ',' :: sp ++ txt "result)") lit S ∧
      n + 1 = 21 + lit.length + sp.length := by
  unfold assertEqStep at h
  cases hd : dropPrefix? (txt "assertEquals(") s with
  | none =>
    simp only [hd] at h
    exact Option.noConfusion h
  | some r1 =>
    simp only [hd] at h
    cases hnl : numLit? r1 with
    | none =>
      simp only [hnl] at h
      exact Option.noConfusion h
    | some q =>
      rcases q with ⟨lit, r2⟩
      simp only [hnl] at h
      split at h
      · rename_i r3
        simp only [span0] at h
        split at h
        · rename_i hres
          injection h with h1
          injection h1 with hr hn
          obtain ⟨hr1split, hshl, _⟩ := numLit?_sound hnl
          rcases List.isPrefixOf_iff_prefix.mp hres with ⟨z, hz⟩
          refine ⟨lit, r3.takeWhile spaceChar, z, ?_, hshl,
            fun c hc => List.mem_takeWhile_imp hc, hr.symm, by omega⟩
          have hs1 : s = txt "assertEquals(" ++ r1 := dropPrefix?_eq_some.mp hd
          have hr3 : r3 = r3.takeWhile spaceChar ++ (txt "result)" ++ z) := by
            conv_lhs => rw [← List.takeWhile_append_dropWhile spaceChar r3]
            rw [← hz]
          rw [hs1, hr1split]
          conv_lhs => rw [hr3]
          simp
        · exact Option.noConfusion h
      · exact Option.noConfusion h

/-- Completeness of the `ASSERT_EQ` step. -/
theorem assertEqStep_complete (S lit sp z : Text) (p : Option Char)
    (hsh : litShape lit = true) (hsp : ∀ c ∈ sp, spaceChar c = true) :
    assertEqStep S p (txt "assertEquals(" ++ lit ++ ',' :: sp ++ txt "result)" ++ z) =
      some (pyReplace (txt "assertEquals(" ++ lit ++ ',' :: sp ++ txt "result)") lit S,
        20 + lit.length + sp.length) := by
  unfold assertEqStep
  have hd : dropPrefix? (txt "assertEquals(")
      (txt "assertEquals(" ++ lit ++ ',' :: sp ++ txt "result)" ++ z) =
      some (lit ++ ',' :: (sp ++ (txt "result)" ++ z))) := by
    apply dropPrefix?_eq_some.mpr
    simp
  simp only [hd]
  have hnum : numLit? (lit ++ ',' :: (sp ++ (txt "result)" ++ z))) =
      some (lit, ',' :: (sp ++ (txt "result)" ++ z))) :=
    numLit?_complete _ hsh (by constructor <;> decide)
  simp only [hnum]
  have hhn : headNot spaceChar (txt "result)" ++ z) := by
    show spaceChar 'r' = false
    decide
  have hsp0 : span0 spaceChar (sp ++ (txt "result)" ++ z)) = (sp, txt "result)" ++ z) :=
    span0_append _ hsp hhn
  simp only [hsp0]
  rw [if_pos ( List.isPrefixOf_iff_prefix.mpr (List.prefix_append _ _))]
  have harith : 13 + lit.length + 1 + sp.length + 7 - 1 = 20 + lit.length + sp.length := by
    omega
  rw [harith]

/-- A pattern cannot prefix a text whose head differs from its own. -/
theorem isPrefixOf_false_of_head {d c : Char} {w t : Text} (hne : d ≠ c) :
    (d :: w).isPrefixOf (c :: t) = false := by
  by_contra hcon
  have h1 : (d :: w).isPrefixOf (c :: t) = true := by
    cases h0 : (d :: w).isPrefixOf (c :: t) with
    | false => exact absurd h0 hcon
    | true => rfl
  rcases List.isPrefixOf_iff_prefix.mp h1 with ⟨z, hz⟩
  rw [List.cons_append] at hz
  exact hne (List.head_eq_of_cons_eq hz)

/-- A blank character is not a digit. -/
theorem space_not_digit {c : Char} (h : spaceChar c = true) : digitChar c = false := by
  simp only [spaceChar, Bool.or_eq_true, beq_iff_eq] at h
  rcases h with ((((h | h) | h) | h) | h) | h <;> subst h <;> decide

/-- A shaped literal cannot occur inside a digit-free text. -/
theorem no_occ_digits_head {lit t : Text} (hsh : litShape lit = true)
    (ht : ∀ c ∈ t, digitChar c = false) : ¬ lit <:+: t := by
  intro h
  obtain ⟨d, tg, hdt, hdg⟩ := litShape_head_digit hsh
  have hmem : d ∈ t := h.subset (by rw [hdt]; exact List.mem_cons_self d tg)
  rw [ht d hmem] at hdg
  exact Bool.noConfusion hdg

/-- The replacement scan copies verbatim any front where the pattern never
matches. -/
theorem pyReplaceF_walk {old new : Text} :
    ∀ (pre s : Text) (fuel : Nat),
      (∀ j, j < pre.length → old.isPrefixOf ((pre ++ s).drop j) = false) →
      (pre ++ s).length ≤ fuel →
      pyReplaceF old new fuel (pre ++ s) =
        pre ++ pyReplaceF old new (fuel - pre.length) s := by
  intro pre
  induction pre with
  | nil =>
    intro s fuel hf hl
    simp
  | cons c pre' ih =>
    intro s fuel hf hl
    cases fuel with
    | zero =>
      rw [List.cons_append, List.length_cons] at hl
      omega
    | succ f =>
      have h0 : old.isPrefixOf (c :: (pre' ++ s)) = false := by
        have h1 := hf 0 (by rw [List.length_cons]; omega)
        simpa using h1
      have h0' : ¬ old.isPrefixOf (c :: (pre' ++ s)) = true := by
        rw [h0]
        exact Bool.noConfusion
      rw [show ((c :: pre') ++ s : Text) = c :: (pre' ++ s) from rfl]
      show (if old.isPrefixOf (c :: (pre' ++ s)) then
          new ++ pyReplaceF old new f ((c :: (pre' ++ s)).drop old.length)
        else c :: pyReplaceF old new f (pre' ++ s)) = _
      rw [if_neg h0']
      have hf' : ∀ j, j < pre'.length →
          old.isPrefixOf ((pre' ++ s).drop j) = false := by
        intro j hj
        have h2 := hf (j + 1) (by rw [List.length_cons]; omega)
        simpa using h2
      have hl' : (pre' ++ s).length ≤ f := by
        rw [List.cons_append, List.length_cons] at hl
        omega
      rw [ih s f hf' hl']
      rw [show ((f : Nat) + 1) - (c :: pre').length = f - pre'.length by
        rw [List.length_cons]; omega]
      rfl

/-- The replacement scan fires at an occurrence sitting at the front. -/
theorem pyReplaceF_head (old new t : Text) (f : Nat) (hne : old ≠ []) :
    pyReplaceF old new (f + 1) (old ++ t) = new ++ pyReplaceF old new f t := by
  obtain ⟨c, w, hcw⟩ : ∃ c w, old = c :: w := by
    cases old with
    | nil => exact absurd rfl hne
    | cons a b => exact ⟨a, b, rfl⟩
  subst hcw
  have hdrop : (c :: (w ++ t)).drop (c :: w).length = t := List.drop_left (c :: w) t
  show (if (c :: w).isPrefixOf (c :: (w ++ t)) then
      new ++ pyReplaceF (c :: w) new f ((c :: (w ++ t)).drop (c :: w).length)
    else c :: pyReplaceF (c :: w) new f (w ++ t)) = _
  rw [if_pos ( List.isPrefixOf_iff_prefix.mpr ⟨t, by simp⟩), hdrop]

/-- Replacing the literal inside its own `assertEquals` group substitutes only
the literal slot. -/
theorem pyReplace_group (lit S sp : Text) (hsh : litShape lit = true)
    (hsp : ∀ c ∈ sp, spaceChar c = true) :
    pyReplace (txt "assertEquals(" ++ lit ++ ',' :: sp ++ txt "result)") lit S =
      txt "assertEquals(" ++ S ++ ',' :: sp ++ txt "result)" := by
  obtain ⟨d, tg, hdt, hdg⟩ := litShape_head_digit hsh
  have h13 : (txt "assertEquals(").length = 13 := rfl
  have hGr : txt "assertEquals(" ++ lit ++ ',' :: sp ++ txt "result)" =
      txt "assertEquals(" ++ (lit ++ (',' :: (sp ++ txt "result)"))) := by
    simp
  unfold pyReplace
  rw [hGr]
  have hside : ∀ j, j < (txt "assertEquals(").length →
      lit.isPrefixOf ((txt "assertEquals(" ++
        (lit ++ (',' :: (sp ++ txt "result)")))).drop j) = false := by
    intro j hj
    have hjlt : j < (txt "assertEquals(").length := hj
    have hd1 : (txt "assertEquals(" ++
        (lit ++ (',' :: (sp ++ txt "result)")))).drop j =
        (txt "assertEquals(").drop j ++ (lit ++ (',' :: (sp ++ txt "result)"))) :=
      List.drop_append_of_le_length (by omega)
    rw [hd1]
    have hdj : (txt "assertEquals(").drop j =
        (txt "assertEquals(").get ⟨j, hjlt⟩ :: (txt "assertEquals(").drop (j + 1) :=
      List.drop_eq_getElem_cons hjlt
    rw [hdj, List.cons_append, hdt]
    apply isPrefixOf_false_of_head
    intro he
    have hnd : ∀ jj, jj < 13 → ∀ c, (txt "assertEquals(").get? jj = some c →
        digitChar c = false := by decide
    have hcj : (txt "assertEquals(").get? j =
        some ((txt "assertEquals(").get ⟨j, hjlt⟩) := List.get?_eq_get hjlt
    have hq := hnd j (by omega) _ hcj
    rw [he, hq] at hdg
    exact Bool.noConfusion hdg
  rw [pyReplaceF_walk (txt "assertEquals(") (lit ++ (',' :: (sp ++ txt "result)")))
    _ hside le_rfl]
  have hfa : (txt "assertEquals(" ++
      (lit ++ (',' :: (sp ++ txt "result)")))).length -
      (txt "assertEquals(").length = (lit ++ (',' :: (sp ++ txt "result)"))).length := by
    rw [List.length_append]
    omega
  rw [hfa]
  obtain ⟨f, hf⟩ : ∃ f, (lit ++ (',' :: (sp ++ txt "result)"))).length = f + 1 := by
    refine ⟨(lit ++ (',' :: (sp ++ txt "result)"))).length - 1, ?_⟩
    rw [List.length_append, hdt, List.length_cons]
    omega
  rw [hf, pyReplaceF_head _ _ _ _ (by rw [hdt]; exact List.cons_ne_nil d tg)]
  have htnd : ∀ c ∈ (',' :: (sp ++ txt "result)") : Text), digitChar c = false := by
    intro c hc
    rcases List.mem_cons.mp hc with hc1 | hc2
    · rw [hc1]; decide
    · rcases List.mem_append.mp hc2 with hc3 | hc4
      · exact space_not_digit (hsp c hc3)
      · exact (by decide : ∀ x ∈ txt "result)", digitChar x = false) c hc4
  rw [pyReplaceF_id_of_no_occ (no_occ_digits_head hsh htnd) f]
  simp

/-- A blank character is not the dot. -/
theorem space_ne_dot {c : Char} (h : spaceChar c = true) : c ≠ '.' := by
  intro he
  subst he
  exact absurd h (by decide)

/-- The `assertEquals` comma-and-spacing zone is inert. -/
theorem stInert_commaSp {sp : Text} (hsp : ∀ c ∈ sp, spaceChar c = true) :
    stInert (',' :: sp) := by
  apply stInert_no_dot
  intro c hc
  rcases List.mem_cons.mp hc with h | h
  · subst h
    decide
  · exact space_ne_dot (hsp c h)

/-- The group minus its two leading characters is inert when the literal slot
holds an inert text. -/
theorem stInert_groupTail {mid sp : Text} (hmid : stInert mid)
    (hsp : ∀ c ∈ sp, spaceChar c = true) :
    stInert (txt "sertEquals(" ++ mid ++ ',' :: sp ++ txt "result)") := by
  apply stInert_append
  apply stInert_append
  apply stInert_append
  · exact stInert_no_dot (by decide)
  · exact hmid
  · exact stInert_commaSp hsp
  · exact stInert_no_dot (by decide)

/-- Substituting the revenue sum leaves the `SET_TOTAL` capture list alone:
the group rewritten is dotless outside its literal slot, and both the old
literal and the injected sum are inert. -/
theorem totals_preserved {S : Text} (hS : stInert S) :
    ∀ N x prev, x.length ≤ N →
      collectF setTotalCap (substF (assertEqStep S) x.length prev x).length none
          (substF (assertEqStep S) x.length prev x) =
        collectF setTotalCap x.length none x := by
  intro N
  induction N with
  | zero =>
    intro x prev hx
    have hx0 : x = [] := List.length_eq_zero.mp (Nat.le_zero.mp hx)
    subst hx0
    rfl
  | succ N ih =>
    intro x prev hx
    rcases substF_decomp (assertEqStep S) x prev with ⟨hid, _⟩ |
      ⟨A, r, n, hAl, hAtake, _, hstep, hout⟩
    · rw [hid]
    · obtain ⟨lit, sp, z, hsplit, hsh, hspc, hr, hn⟩ := assertEqStep_sound hstep
      have hrG : r = txt "assertEquals(" ++ S ++ ',' :: sp ++ txt "result)" := by
        rw [hr]
        exact pyReplace_group lit S sp hsh hspc
      have hGlen : n + 1 =
          (txt "assertEquals(" ++ lit ++ ',' :: sp ++ txt "result)").length := by
        rw [List.length_append, List.length_append, List.length_append,
          List.length_cons, show (txt "assertEquals(").length = 13 from rfl,
          show (txt "result)").length = 7 from rfl]
        omega
      have hrest : x.drop (A.length + n + 1) = z := by
        rw [show A.length + n + 1 = A.length + (n + 1) by omega, ← List.drop_drop,
          hsplit, List.append_assoc, hGlen]
        rw [← List.append_assoc, List.drop_left]
      have hzlen : z.length ≤ N := by
        have h1 := congrArg List.length hrest
        rw [List.length_drop] at h1
        omega
      rw [hout, hrest]
      have hx2 : x = A ++ 'a' :: 's' ::
          ((txt "sertEquals(" ++ lit ++ ',' :: sp ++ txt "result)") ++ z) := by
        conv_lhs => rw [← List.take_append_drop A.length x]
        rw [hAtake, hsplit]
        rfl
      have hy2 : A ++ r ++ substF (assertEqStep S) z.length (x.get? (A.length + n)) z =
          A ++ 'a' :: 's' ::
            ((txt "sertEquals(" ++ S ++ ',' :: sp ++ txt "result)") ++
              substF (assertEqStep S) z.length (x.get? (A.length + n)) z) := by
        rw [hrG, List.append_assoc]
        rfl
      rw [hy2]
      conv_rhs => rw [hx2]
      obtain ⟨L, hL1, hL2⟩ := collect_front A.length A
        ((txt "sertEquals(" ++ S ++ ',' :: sp ++ txt "result)") ++
          substF (assertEqStep S) z.length (x.get? (A.length + n)) z)
        ((txt "sertEquals(" ++ lit ++ ',' :: sp ++ txt "result)") ++ z)
        none none le_rfl
      rw [hL1, hL2]
      congr 1
      rw [collect_skip _ _ _ (stInert_groupTail hS hspc),
        collect_skip _ _ _ (stInert_groupTail (stInert_lit hsh) hspc)]
      exact ih z (x.get? (A.length + n)) hzlen

/-- The `ASSERT_EQ` step fails on the empty text. -/
theorem assertEqStep_nil (S : Text) (p : Option Char) : assertEqStep S p [] = none := rfl

/-- The `ASSERT_EQ` step ignores its lookbehind. -/
theorem assertEqStep_prevFree (S : Text) : prevFree (assertEqStep S) := fun _ _ _ => rfl

/-- No `assertEquals` group can start strictly inside another group: the
junction characters `a`, `s` occur at no interior offset. -/
theorem group_no_inner_as {lit sp : Text} (hsh : litShape lit = true)
    (hsp : ∀ c ∈ sp, spaceChar c = true) {t : Text} {k : Nat} (hk : 0 < k)
    (hklen : k < (txt "assertEquals(" ++ lit ++ ',' :: sp ++ txt "result)").length)
    (ha : ((txt "assertEquals(" ++ lit ++ ',' :: sp ++ txt "result)") ++ t).get? k =
      some 'a')
    (hs : ((txt "assertEquals(" ++ lit ++ ',' :: sp ++ txt "result)") ++ t).get? (k + 1) =
      some 's') : False := by
  have hGa : (txt "assertEquals(" ++ lit ++ ',' :: sp ++ txt "result)").get? k =
      some 'a' := by
    rw [List.get?_append hklen] at ha
    exact ha
  have hassoc : txt "assertEquals(" ++ lit ++ ',' :: sp ++ txt "result)" =
      txt "assertEquals(" ++ (lit ++ (',' :: (sp ++ txt "result)"))) := by
    simp
  have h13 : (txt "assertEquals(").length = 13 := rfl
  by_cases hk13 : k < 13
  · have hm : (txt "assertEquals(").get? k = some 'a' := by
      rw [hassoc, List.get?_append (by rw [h13]; omega)] at hGa
      exact hGa
    have hk9 : k = 9 := by
      have hdec : ∀ j, j < 13 → 0 < j → (txt "assertEquals(").get? j = some 'a' →
          j = 9 := by decide
      exact hdec k hk13 hk hm
    have hGlen : 21 ≤ (txt "assertEquals(" ++ lit ++ ',' :: sp ++ txt "result)").length := by
      rw [List.length_append, List.length_append, List.length_append, List.length_cons,
        h13, show (txt "result)").length = 7 from rfl]
      omega
    have hs10 : (txt "assertEquals(" ++ lit ++ ',' :: sp ++ txt "result)").get? 10 =
        some 's' := by
      rw [List.get?_append (by omega)] at hs
      rw [← show k + 1 = 10 by omega]
      exact hs
    rw [hassoc, List.get?_append (by rw [h13]; omega)] at hs10
    exact absurd hs10 (by decide)
  · push_neg at hk13
    rw [hassoc, List.get?_append_right (by rw [h13]; omega)] at hGa
    have hmem : 'a' ∈ lit ++ (',' :: (sp ++ txt "result)")) := List.get?_mem hGa
    rcases List.mem_append.mp hmem with h1 | h1
    · rcases litShape_chars hsh 'a' h1 with h2 | h2
      · exact absurd h2 (by decide)
      · exact absurd h2 (by decide)
    · rcases List.mem_cons.mp h1 with h2 | h2
      · exact absurd h2 (by decide)
      · rcases List.mem_append.mp h2 with h3 | h3
        · exact absurd (hsp 'a' h3) (by decide)
        · exact absurd h3 (by decide)

/-- An `ASSERT_EQ` match in front of text whose next two characters are `a`,
`s` lies entirely in the front part. -/
theorem assertEqAt_front {S u w r : Text} {n : Nat} {p : Option Char}
    (hu : u ≠ []) (hw0 : w.get? 0 = some 'a') (hw1 : w.get? 1 = some 's')
    (h : assertEqStep S p (u ++ w) = some (r, n)) :
    ∃ lit sp, litShape lit = true ∧ (∀ c ∈ sp, spaceChar c = true) ∧
      txt "assertEquals(" ++ lit ++ ',' :: sp ++ txt "result)" <+: u := by
  obtain ⟨lit, sp, z, hs0, hsh, hsp, _, _⟩ := assertEqStep_sound h
  refine ⟨lit, sp, hsh, hsp, ?_⟩
  by_cases hle : (txt "assertEquals(" ++ lit ++ ',' :: sp ++ txt "result)").length ≤
      u.length
  · have h1 : (u ++ w).take
        (txt "assertEquals(" ++ lit ++ ',' :: sp ++ txt "result)").length =
        txt "assertEquals(" ++ lit ++ ',' :: sp ++ txt "result)" := by
      rw [hs0, List.take_left]
    rw [List.take_append_of_le_length hle] at h1
    refine ⟨u.drop (txt "assertEquals(" ++ lit ++ ',' :: sp ++ txt "result)").length, ?_⟩
    conv_rhs => rw [← List.take_append_drop
      (txt "assertEquals(" ++ lit ++ ',' :: sp ++ txt "result)").length u]
    rw [h1]
  · exfalso
    push_neg at hle
    have hk0 : 0 < u.length := List.length_pos.mpr hu
    have ha : ((txt "assertEquals(" ++ lit ++ ',' :: sp ++ txt "result)") ++ z).get?
        u.length = some 'a' := by
      have h2 : (u ++ w).get? u.length = some 'a' := by
        rw [List.get?_append_right (le_refl _)]
        simpa using hw0
      rw [hs0] at h2
      exact h2
    have hsc : ((txt "assertEquals(" ++ lit ++ ',' :: sp ++ txt "result)") ++ z).get?
        (u.length + 1) = some 's' := by
      have h2 : (u ++ w).get? (u.length + 1) = some 's' := by
        rw [List.get?_append_right (by omega)]
        rw [show u.length + 1 - u.length = 1 by omega]
        exact hw1
      rw [hs0] at h2
      exact h2
    exact group_no_inner_as hsh hsp hk0 hle ha hsc

/-- One substitution pass of the revenue patch is scan-stable when the
injected sum is itself a shaped literal: every group the output still matches
already holds `S`, so re-firing emits the consumed text. -/
theorem assertEq_stable {S : Text} (hSsh : litShape S = true) :
    ∀ N x prev, x.length ≤ N →
      stepStable (assertEqStep S) prev (substF (assertEqStep S) x.length prev x) := by
  intro N
  induction N with
  | zero =>
    intro x prev hx
    have hx0 : x = [] := List.length_eq_zero.mp (Nat.le_zero.mp hx)
    subst hx0
    intro i r n h
    rw [substF_nil, List.drop_nil, assertEqStep_nil] at h
    exact Option.noConfusion h
  | succ N ih =>
    intro x prev hx
    rcases substF_decomp (assertEqStep S) x prev with ⟨hid, hfail⟩ |
      ⟨A, r1, n1, hAl, hAtake, hfail, hstep, hout⟩
    · rw [hid]
      intro i r n h
      by_cases hi : i < x.length
      · rw [hfail i hi] at h
        exact Option.noConfusion h
      · rw [List.drop_eq_nil_of_le (le_of_not_lt hi), assertEqStep_nil] at h
        exact Option.noConfusion h
    · obtain ⟨lit, sp, z, hsplit, hsh, hspc, hr, hn⟩ := assertEqStep_sound hstep
      have hrG : r1 = txt "assertEquals(" ++ S ++ ',' :: sp ++ txt "result)" :=
        hr.trans (pyReplace_group lit S sp hsh hspc)
      have hGlen : n1 + 1 =
          (txt "assertEquals(" ++ lit ++ ',' :: sp ++ txt "result)").length := by
        rw [List.length_append, List.length_append, List.length_append,
          List.length_cons, show (txt "assertEquals(").length = 13 from rfl,
          show (txt "result)").length = 7 from rfl]
        omega
      have hG2len : (txt "assertEquals(" ++ S ++ ',' :: sp ++ txt "result)").length =
          21 + S.length + sp.length := by
        rw [List.length_append, List.length_append, List.length_append,
          List.length_cons, show (txt "assertEquals(").length = 13 from rfl,
          show (txt "result)").length = 7 from rfl]
        omega
      have hrest : x.drop (A.length + n1 + 1) = z := by
        rw [show A.length + n1 + 1 = A.length + (n1 + 1) by omega, ← List.drop_drop,
          hsplit, List.append_assoc, hGlen]
        rw [← List.append_assoc, List.drop_left]
      have hzlen : z.length ≤ N := by
        have h1 := congrArg List.length hrest
        rw [List.length_drop] at h1
        omega
      rw [hout, hrest, hrG]
      set out := substF (assertEqStep S) z.length (x.get? (A.length + n1)) z with hdefout
      intro i r n h
      by_cases hia : i < A.length
      · -- a match in the untouched zone would have fired in the pass
        exfalso
        have hAdrop : (A ++ (txt "assertEquals(" ++ S ++ ',' :: sp ++ txt "result)") ++
            out).drop i = A.drop i ++
            ((txt "assertEquals(" ++ S ++ ',' :: sp ++ txt "result)") ++ out) := by
          rw [List.append_assoc, List.drop_append_of_le_length (le_of_lt hia)]
        rw [hAdrop] at h
        have hune : A.drop i ≠ [] := by
          intro hnil
          have h2 := congrArg List.length hnil
          rw [List.length_drop] at h2
          simp at h2
          omega
        obtain ⟨lit', sp', hsh', hsp', hpre⟩ := assertEqAt_front hune
          (by rfl) (by rfl) h
        rcases hpre with ⟨u', hu'⟩
        have hx3 : x.drop i = A.drop i ++
            (txt "assertEquals(" ++ lit ++ ',' :: sp ++ txt "result)" ++ z) := by
          conv_lhs => rw [← List.take_append_drop A.length x]
          rw [hAtake, hsplit]
          rw [List.drop_append_of_le_length (le_of_lt hia)]
        have hxd : x.drop i =
            txt "assertEquals(" ++ lit' ++ ',' :: sp' ++ txt "result)" ++
              (u' ++ (txt "assertEquals(" ++ lit ++ ',' :: sp ++ txt "result)" ++ z)) := by
          rw [hx3, ← hu', List.append_assoc
            (txt "assertEquals(" ++ lit' ++ ',' :: sp' ++ txt "result)") u' _]
        have hcontra := assertEqStep_complete S lit' sp'
          (u' ++ (txt "assertEquals(" ++ lit ++ ',' :: sp ++ txt "result)" ++ z))
          (prevAt prev x i) hsh' hsp'
        rw [← hxd, hfail i hia] at hcontra
        exact Option.noConfusion hcontra
      · have hdropa : (A ++ (txt "assertEquals(" ++ S ++ ',' :: sp ++ txt "result)") ++
            out).drop A.length =
            (txt "assertEquals(" ++ S ++ ',' :: sp ++ txt "result)") ++ out := by
          rw [List.append_assoc, List.drop_left]
        by_cases hia2 : i = A.length
        · -- the replaced site re-matches and re-emits itself
          subst hia2
          have hmatch := assertEqStep_complete S S sp out
            (prevAt prev (A ++ (txt "assertEquals(" ++ S ++ ',' :: sp ++
              txt "result)") ++ out) A.length) hSsh hspc
          rw [hdropa] at h
          rw [hmatch] at h
          injection h with h1
          injection h1 with hreq hneq
          rw [hdropa, ← hreq, pyReplace_group S S sp hSsh hspc]
          rw [show n + 1 =
            (txt "assertEquals(" ++ S ++ ',' :: sp ++ txt "result)").length by
              rw [hG2len]; omega]
          exact (List.take_left _ _).symm
        · by_cases him : i < A.length +
              (txt "assertEquals(" ++ S ++ ',' :: sp ++ txt "result)").length
          · -- no group can start strictly inside the injected group
            exfalso
            have hiy : (A ++ (txt "assertEquals(" ++ S ++ ',' :: sp ++ txt "result)") ++
                out).drop i =
                ((txt "assertEquals(" ++ S ++ ',' :: sp ++ txt "result)") ++ out).drop
                  (i - A.length) := by
              rw [List.append_assoc]
              have h1 : (A ++ ((txt "assertEquals(" ++ S ++ ',' :: sp ++
                  txt "result)") ++ out)).drop i =
                  (A ++ ((txt "assertEquals(" ++ S ++ ',' :: sp ++
                    txt "result)") ++ out)).drop (A.length + (i - A.length)) := by
                congr 1
                omega
              rw [h1, ← List.drop_drop, List.drop_left]
            rw [hiy] at h
            obtain ⟨lit'', sp'', z'', hsplit'', _, _, _, _⟩ := assertEqStep_sound h
            have ha : ((txt "assertEquals(" ++ S ++ ',' :: sp ++ txt "result)") ++
                out).get? (i - A.length) = some 'a' := by
              have h2 : (((txt "assertEquals(" ++ S ++ ',' :: sp ++ txt "result)") ++
                  out).drop (i - A.length)).get? 0 = some 'a' := by
                rw [hsplit'']
                rfl
              rw [List.get?_drop] at h2
              simpa using h2
            have hsc : ((txt "assertEquals(" ++ S ++ ',' :: sp ++ txt "result)") ++
                out).get? (i - A.length + 1) = some 's' := by
              have h2 : (((txt "assertEquals(" ++ S ++ ',' :: sp ++ txt "result)") ++
                  out).drop (i - A.length)).get? 1 = some 's' := by
                rw [hsplit'']
                rfl
              rw [List.get?_drop] at h2
              exact h2
            exact group_no_inner_as hSsh hspc (by omega) (by omega) ha hsc
          · -- beyond the injected group: stable by induction
            have hj1 : A.length +
                (txt "assertEquals(" ++ S ++ ',' :: sp ++ txt "result)").length ≤ i := by
              omega
            have hiy : (A ++ (txt "assertEquals(" ++ S ++ ',' :: sp ++ txt "result)") ++
                out).drop i = out.drop (i - (A.length +
                  (txt "assertEquals(" ++ S ++ ',' :: sp ++ txt "result)").length)) := by
              have hlen12 : (A ++ (txt "assertEquals(" ++ S ++ ',' :: sp ++
                  txt "result)")).length = A.length +
                  (txt "assertEquals(" ++ S ++ ',' :: sp ++ txt "result)").length := by
                rw [List.length_append]
              have h1 : (A ++ (txt "assertEquals(" ++ S ++ ',' :: sp ++ txt "result)") ++
                  out).drop i =
                  ((A ++ (txt "assertEquals(" ++ S ++ ',' :: sp ++ txt "result)")) ++
                    out).drop ((A ++ (txt "assertEquals(" ++ S ++ ',' :: sp ++
                      txt "result)")).length + (i - (A.length +
                      (txt "assertEquals(" ++ S ++ ',' :: sp ++
                        txt "result)").length))) := by
                rw [hlen12]
                congr 1
                omega
              rw [h1, ← List.drop_drop, List.drop_left]
            rw [hiy] at h
            rw [hiy]
            have h2 : assertEqStep S (prevAt (x.get? (A.length + n1)) out
                (i - (A.length + (txt "assertEquals(" ++ S ++ ',' :: sp ++
                  txt "result)").length)))
                (out.drop (i - (A.length + (txt "assertEquals(" ++ S ++ ',' :: sp ++
                  txt "result)").length))) = some (r, n) := h
            exact ih z (x.get? (A.length + n1)) hzlen _ r n h2

/-- An exact decimal sum of nonnegative values is nonnegative. -/
theorem dec_add_nonneg {a b : Dec} (ha : 0 ≤ a.num) (hb : 0 ≤ b.num) :
    0 ≤ (Dec.add a b).num := by
  show 0 ≤ a.num * (10 : Int) ^ (max a.exp b.exp - a.exp) +
    b.num * (10 : Int) ^ (max a.exp b.exp - b.exp)
  have h1 : (0 : Int) ≤ (10 : Int) ^ (max a.exp b.exp - a.exp) :=
    pow_nonneg (by norm_num) _
  have h2 : (0 : Int) ≤ (10 : Int) ^ (max a.exp b.exp - b.exp) :=
    pow_nonneg (by norm_num) _
  have h3 := mul_nonneg ha h1
  have h4 := mul_nonneg hb h2
  omega

/-- The revenue sum over captured literal values is nonnegative. -/
theorem foldl_add_litVals_nonneg : ∀ (T : List Text) (a : Dec), 0 ≤ a.num →
    0 ≤ ((T.map litValText).foldl Dec.add a).num := by
  intro T
  induction T with
  | nil =>
    intro a ha
    exact ha
  | cons t ts ih =>
    intro a ha
    simp only [List.map_cons, List.foldl_cons]
    exact ih (Dec.add a (litValText t)) (dec_add_nonneg ha (litValText_nonneg t))

/-- `patch_revenue_assert` is idempotent: substituting the sum does not touch
the `SET_TOTAL` captures (so the second pass computes the same sum), and the
substituted text is a fixed point of the `ASSERT_EQ` scan. -/
theorem patch_revenue_assert_idem (code : Text) :
    patch_revenue_assert (patch_revenue_assert code) = patch_revenue_assert code := by
  have hSsh : litShape (if ((pyFindIter setTotalCap code).map litValText).isEmpty
      then txt "0"
      else fmtFloat (((pyFindIter setTotalCap code).map litValText).foldl Dec.add
        ⟨0, 0⟩)) = true := by
    split
    · decide
    · exact litShape_fmtFloat (foldl_add_litVals_nonneg _ _ (le_refl 0))
  have htp : pyFindIter setTotalCap (patch_revenue_assert code) =
      pyFindIter setTotalCap code :=
    totals_preserved (stInert_lit hSsh) code.length code none le_rfl
  have hfix : pySub (assertEqStep (if ((pyFindIter setTotalCap code).map
      litValText).isEmpty then txt "0"
      else fmtFloat (((pyFindIter setTotalCap code).map litValText).foldl Dec.add
        ⟨0, 0⟩))) (patch_revenue_assert code) = patch_revenue_assert code :=
    pySub_fix (assertEq_stable hSsh code.length code none le_rfl)
  show pySub (assertEqStep (if ((pyFindIter setTotalCap
      (patch_revenue_assert code)).map litValText).isEmpty then txt "0"
      else fmtFloat (((pyFindIter setTotalCap (patch_revenue_assert code)).map
        litValText).foldl Dec.add ⟨0, 0⟩))) (patch_revenue_assert code) =
      patch_revenue_assert code
  rw [htp]
  exact hfix

/-- Every `SET_TOTAL` literal of the guard-clamp output is within the
ceiling. -/
theorem clamp_totals_occ_le {l : Dec} (hl : 0 ≤ l.num) (x lit : Text)
    (hocc : setTotalOcc (clamp_totals x (some l)) lit) :
    (litValText lit).toRat ≤ l.toRat := by
  rw [clamp_totals_eq] at hocc
  have hP := setTotalSub_occ (ctR l) (fun li => (litValText li).le l = true)
    (fun lit0 hsh0 => ⟨txt "etTotal(" ++
      fmtFloat (if (litValText lit0).le l then litValText lit0 else l.mul decNine) ++
      txt ")", rfl⟩)
    (fun lit0 hsh0 => ⟨txt ".setTotal(" ++
      fmtFloat (if (litValText lit0).le l then litValText lit0 else l.mul decNine),
      by
        show txt ".setTotal(" ++ _ ++ txt ")" = _
        rw [show (txt ")" : Text) = [')'] from rfl]⟩)
    (fun lit0 lit1 hsh0 hocc0 => by
      show (litValText lit1).le l = true
      have hin := ctR_inner_occ hl lit0 lit1 hsh0 hocc0
      have h1 : (txt ".setTotal(" : Text) ++ (fmtFloat
          (if (litValText lit1).le l then litValText lit1 else l.mul decNine) ++ [')']) =
          txt ".setTotal(" ++ (lit1 ++ [')']) := by
        have h2 : txt ".setTotal(" ++ fmtFloat
            (if (litValText lit1).le l then litValText lit1 else l.mul decNine) ++
            txt ")" = txt ".setTotal(" ++ lit1 ++ [')'] := hin
        rw [show (txt ")" : Text) = [')'] from rfl] at h2
        rw [← List.append_assoc, ← List.append_assoc]
        exact h2
      have h3 := List.append_cancel_right
        (List.append_cancel_left h1)
      by_cases hc : (litValText lit1).le l = true
      · exact hc
      · rw [if_neg hc] at h3
        have h9 : 0 ≤ (l.mul decNine).num := by
          show 0 ≤ l.num * 9
          positivity
        have h4 : (litValText lit1).le l = (l.mul decNine).le l := by
          rw [← h3]
          exact Dec.le_congr (litValText_fmtFloat_toRat h9) l
        rw [h4]
        exact mul_decNine_le hl)
    x.length x le_rfl lit hocc
  exact (Dec.le_iff _ _).mp hP

/-- A unit with the numeric guard `total > 1000` (Scenario A's ceiling). -/
def unitGuard1000 : Text :=
  txt "package com.shop;\nclass Svc \x7b void check(double total) \x7b if (total > 1000) reject(); \x7d \x7d"

/-- Facts for a run over the `total > 1000` unit alone. -/
def factsGuard1000 : FixerFacts := extractFacts unitGuard1000 [unitGuard1000]

/-- Scenario A's artifact: a monetary setter with argument `2000`. -/
def artifact2000 : Text := txt "o.setTotal(2000);"

end MsLlm
